import Mathlib

/-! Limit order matching core of `order_book.cpp`.

A shallow embedding of the classes `Order`, `Trade` and `OrderBook`.

Modelling conventions.

* `double` prices and timestamps are only ever copied and compared by the matching
  core, never added or multiplied.  They are embedded as rationals: on finite,
  non-NaN doubles the comparisons `<`, `>` and `==` agree with those of `ℚ`.
* `int` quantities are embedded as `Int`.  On every book reachable from the empty
  one each subtraction is `a - min a b` with `0 < a` and `0 < b`, so no machine
  overflow can occur.
* A `std::map<double, std::vector<Order>, Cmp>` is embedded as the list of its
  `(key, vector)` entries in iteration order: `begin()` is the head of the list and
  `erase(begin())` drops it.
* `std::map<std::string, InstrumentBook>` with its default-constructing `operator[]`
  is embedded as a total function from instrument symbols to instrument books.
* `std::sort` is library code.  It is taken as a parameter `StdSort` carrying exactly
  what the C++ standard guarantees: the result is a permutation of the input and is
  ordered with respect to the comparator.  Where a statement depends on how the library
  orders elements that compare equal, `std_sort` embeds the `std::sort` of libstdc++.
-/

namespace OrderBookCpp

/-! ## Records -/

/-- The function `::toupper` in the C locale. -/
def toupper (c : Char) : Char :=
  if 'a' ≤ c ∧ c ≤ 'z' then Char.ofNat (c.toNat - 32) else c

/-- The call `std::transform(s.begin(), s.end(), s.begin(), ::toupper)`. -/
def upper (s : String) : String :=
  String.mk (s.data.map toupper)

/-- Class `Order` (lines 10-32). -/
structure Order where
  order_id : String
  instrument : String
  side : String
  price : ℚ
  quantity : Int
  timestamp : ℚ
deriving DecidableEq, Repr

/-- Constructor `Order::Order` (lines 19-25).  `ts` is the timestamp argument (the
C++ default argument is `0.0`) and `now` the reading of the system clock. -/
def Order.ctor (id inst s : String) (p : ℚ) (q : Int) (ts now : ℚ) : Order :=
  { order_id := id
    instrument := upper inst
    side := upper s
    price := p
    quantity := q
    timestamp := if ts = 0 then now else ts }

/-- Class `Trade` (lines 34-50). -/
structure Trade where
  instrument : String
  buy_order_id : String
  sell_order_id : String
  price : ℚ
  quantity : Int
deriving DecidableEq, Repr

/-- One side of an instrument book: the entries of the `std::map` from price to the
vector of resting orders, in the iteration order of the map. -/
abbrev Levels := List (ℚ × List Order)

/-- Struct `OrderBook::InstrumentBook` (lines 54-58). -/
structure InstrumentBook where
  buy_orders : Levels
  sell_orders : Levels
  trades : List Trade
deriving DecidableEq, Repr

/-- The member `order_books` (line 60). -/
abbrev OrderBook := String → InstrumentBook

/-- A default-constructed `InstrumentBook`. -/
def InstrumentBook.empty : InstrumentBook := ⟨[], [], []⟩

/-- A default-constructed `OrderBook`. -/
def OrderBook.empty : OrderBook := fun _ => InstrumentBook.empty

/-! ## Library parts -/

/-- The call `std::sort(first, last, comp)` with the comparator
`a.timestamp < b.timestamp` of lines 93 and 128: any function returning a permutation
of its input in which no element compares less than an earlier one. -/
structure StdSort where
  run : List Order → List Order
  perm : ∀ l, List.Perm (run l) l
  sorted : ∀ l, List.Pairwise (fun a b => ¬ b.timestamp < a.timestamp) (run l)

/-- Sorting by straight insertion on the timestamp, a stable sort. -/
def stable_sort (l : List Order) : List Order :=
  List.insertionSort (fun a b => a.timestamp ≤ b.timestamp) l

/-- The three statements `m[order.price].push_back(order); std::sort(m[order.price]...)`
(lines 91-93 and 126-128) on a map whose comparator is `before`: the entry with a key
equivalent to `order.price` is looked up, created empty in its place when absent, the
order is appended to its vector and the vector is sorted by timestamp. -/
def push_and_sort (S : StdSort) (before : ℚ → ℚ → Prop) [DecidableRel before]
    (order : Order) : Levels → Levels
  | [] => [(order.price, S.run ([] ++ [order]))]
  | (p, l) :: rest =>
    if before order.price p then (order.price, S.run ([] ++ [order])) :: (p, l) :: rest
    else if before p order.price then (p, l) :: push_and_sort S before order rest
    else (p, S.run (l ++ [order])) :: rest

/-! ## The sort of libstdc++

The program leaves the order of orders with equal timestamps to `std::sort`.  Built with
GCC it runs the `std::sort` of libstdc++ (`bits/stl_algo.h`, `bits/stl_heap.h`): an
introsort, that is a quicksort on ranges of more than 16 elements which falls back on a
heap sort when its depth limit is used up, followed by a straight insertion over the
whole vector.  The functions below follow the library function by function.

* A position is an index into the whole vector; `first` and `last` bound a range.
* A loop takes a bound on the number of its rounds.
* Where the library holds a value outside the vector and moves elements into the hole
  it left (`std::__push_heap`, `std::__adjust_heap`), the value stands in the hole, so
  that each move is a swap.
* In the insertion the part of the vector in front of the inserted element is held last
  element first.  A scan towards the front stops at the front of the vector; the
  unguarded scans of the library never pass it.
-/

/-- The comparator of lines 93 and 128 on the elements at two positions of a vector. -/
def comp (l : List Order) (i j : Nat) : Bool :=
  match l[i]?, l[j]? with
  | some a, some b => decide (a.timestamp < b.timestamp)
  | _, _ => false

/-- The call `std::iter_swap(first + i, first + j)`. -/
def iter_swap (l : List Order) (i j : Nat) : List Order :=
  match l[i]?, l[j]? with
  | some a, some b => (l.set i b).set j a
  | _, _ => l

/-- The loop of `std::__lg`. -/
def lg_loop : Nat → Nat → Nat
  | 0, _ => 0
  | fuel + 1, n => if 2 ≤ n then lg_loop fuel (n / 2) + 1 else 0

/-- The function `std::__lg`: the position of the highest set bit. -/
def lg (n : Nat) : Nat := lg_loop n n

/-- The function `std::__move_median_to_first`. -/
def move_median_to_first (l : List Order) (result a b c : Nat) : List Order :=
  if comp l a b then
    if comp l b c then iter_swap l result b
    else if comp l a c then iter_swap l result c
    else iter_swap l result a
  else if comp l a c then iter_swap l result a
  else if comp l b c then iter_swap l result c
  else iter_swap l result b

/-- The loop `while (comp(first, pivot)) ++first;`. -/
def scan_up (l : List Order) (pivot : Nat) : Nat → Nat → Nat
  | 0, first => first
  | fuel + 1, first => if comp l first pivot then scan_up l pivot fuel (first + 1) else first

/-- The loop `while (comp(pivot, last)) --last;`. -/
def scan_down (l : List Order) (pivot : Nat) : Nat → Nat
  | 0 => 0
  | last + 1 => if comp l pivot (last + 1) then scan_down l pivot last else last + 1

/-- The function `std::__unguarded_partition`; returns the cut and the vector. -/
def unguarded_partition : Nat → List Order → Nat → Nat → Nat → Nat × List Order
  | 0, l, first, _, _ => (first, l)
  | fuel + 1, l, first, last, pivot =>
    let first := scan_up l pivot l.length first
    let last := scan_down l pivot (last - 1)
    if ¬ first < last then (first, l)
    else unguarded_partition fuel (iter_swap l first last) (first + 1) last pivot

/-- The function `std::__unguarded_partition_pivot`. -/
def unguarded_partition_pivot (l : List Order) (first last : Nat) : Nat × List Order :=
  let mid := first + (last - first) / 2
  let l := move_median_to_first l first (first + 1) mid (last - 1)
  unguarded_partition l.length l (first + 1) last first

/-- The loop of `std::__push_heap`. -/
def push_heap : Nat → List Order → Nat → Nat → Nat → List Order
  | 0, l, _, _, _ => l
  | fuel + 1, l, first, holeIndex, topIndex =>
    let parent := (holeIndex - 1) / 2
    if holeIndex > topIndex ∧ comp l (first + parent) (first + holeIndex) then
      push_heap fuel (iter_swap l (first + holeIndex) (first + parent)) first parent topIndex
    else l

/-- The first loop of `std::__adjust_heap`. -/
def adjust_heap_loop : Nat → List Order → Nat → Nat → Nat → Nat → Nat × Nat × List Order
  | 0, l, _, holeIndex, secondChild, _ => (holeIndex, secondChild, l)
  | fuel + 1, l, first, holeIndex, secondChild, len =>
    if secondChild < (len - 1) / 2 then
      let secondChild := 2 * (secondChild + 1)
      let secondChild :=
        if comp l (first + secondChild) (first + (secondChild - 1)) then secondChild - 1
        else secondChild
      adjust_heap_loop fuel (iter_swap l (first + holeIndex) (first + secondChild)) first
        secondChild secondChild len
    else (holeIndex, secondChild, l)

/-- The function `std::__adjust_heap`. -/
def adjust_heap (l : List Order) (first holeIndex len : Nat) : List Order :=
  let topIndex := holeIndex
  let r := adjust_heap_loop len l first holeIndex holeIndex len
  let holeIndex := r.1
  let secondChild := r.2.1
  let l := r.2.2
  if len % 2 = 0 ∧ secondChild = (len - 2) / 2 then
    let secondChild := 2 * (secondChild + 1)
    push_heap len (iter_swap l (first + holeIndex) (first + (secondChild - 1))) first
      (secondChild - 1) topIndex
  else push_heap len l first holeIndex topIndex

/-- The function `std::__pop_heap`. -/
def pop_heap (l : List Order) (first last result : Nat) : List Order :=
  adjust_heap (iter_swap l result first) first 0 (last - first)

/-- The loop of `std::__make_heap`. -/
def make_heap_loop (first len : Nat) : Nat → List Order → List Order
  | 0, l => adjust_heap l first 0 len
  | parent + 1, l => make_heap_loop first len parent (adjust_heap l first (parent + 1) len)

/-- The function `std::__make_heap`. -/
def make_heap (l : List Order) (first last : Nat) : List Order :=
  if last - first < 2 then l
  else make_heap_loop first (last - first) ((last - first - 2) / 2) l

/-- The function `std::__sort_heap`. -/
def sort_heap (first : Nat) : Nat → List Order → List Order
  | 0, l => l
  | n + 1, l =>
    if n + 1 > 1 then sort_heap first n (pop_heap l first (first + n) (first + n)) else l

/-- The call `std::__partial_sort(first, last, last, comp)`. -/
def partial_sort (l : List Order) (first last : Nat) : List Order :=
  sort_heap first (last - first) (make_heap l first last)

/-- The function `std::__introsort_loop`; the loop continues on the range in front of
the cut. -/
def introsort_loop : Nat → List Order → Nat → Nat → List Order
  | depth_limit, l, first, last =>
    if last - first > 16 then
      match depth_limit with
      | 0 => partial_sort l first last
      | depth_limit + 1 =>
        let r := unguarded_partition_pivot l first last
        introsort_loop depth_limit (introsort_loop depth_limit r.2 r.1 last) first r.1
    else l

/-- The function `std::__unguarded_linear_insert` on the element `val` and the part of
the vector in front of it, last element first: `val` moves towards the front past every
element it compares less than. -/
def unguarded_linear_insert (val : Order) : List Order → List Order
  | [] => [val]
  | next :: rest =>
    if val.timestamp < next.timestamp then next :: unguarded_linear_insert val rest
    else val :: next :: rest

/-- One round of the loop of `std::__insertion_sort`: an element that compares less than
the first element of the vector is moved to the front, any other is inserted by
`std::__unguarded_linear_insert`. -/
def insertion_step (rev : List Order) (val : Order) : List Order :=
  match rev.getLast? with
  | none => [val]
  | some first =>
    if val.timestamp < first.timestamp then rev ++ [val]
    else unguarded_linear_insert val rev

/-- The function `std::__final_insertion_sort`: `std::__insertion_sort` on the first 16
elements, then `std::__unguarded_insertion_sort` on the others. -/
def final_insertion_sort (l : List Order) : List Order :=
  if l.length > 16 then
    ((l.drop 16).foldl (fun rev val => unguarded_linear_insert val rev)
      ((l.take 16).foldl insertion_step [])).reverse
  else (l.foldl insertion_step []).reverse

/-- The function `std::sort` of libstdc++ (`std::__sort`) with the comparator of lines 93
and 128. -/
def std_sort (l : List Order) : List Order :=
  if l.length = 0 then l
  else final_insertion_sort (introsort_loop (lg l.length * 2) l 0 l.length)

/-- The part of a vector in front of the element being inserted, last element first,
is in order. -/
def Descending (rev : List Order) : Prop :=
  rev.Pairwise (fun a b => ¬ a.timestamp < b.timestamp)

/-! ## The matching loops -/

/-- The variables a matching loop reads and writes: the incoming order, the map of the
opposite side and the trade log of the instrument. -/
structure LoopState where
  order : Order
  book : Levels
  trades : List Trade
deriving DecidableEq, Repr

/-- A `while` loop run for at most `n` iterations; `body s = none` when the loop
condition fails or the body executes `break`. -/
def while_loop {σ : Type} (body : σ → Option σ) : Nat → σ → σ
  | 0, s => s
  | n + 1, s =>
    match body s with
    | none => s
    | some s' => while_loop body n s'

/-- The resting orders of a side in priority order: best level first, front of each
vector first. -/
def resting (lv : Levels) : List Order :=
  lv.flatMap (fun e => e.2)

/-- A bound on the number of iterations of a matching loop over the side `lv`.  The
lemma `cross_loop_exits` shows that within this bound the loop always stops by its own
condition or `break`, and `while_loop_more` that further iterations change nothing. -/
def loop_bound (lv : Levels) : Nat :=
  2 * (lv.length + (resting lv).length) + 1

/-- One iteration of the loop of `add_buy_order` (lines 68-89). -/
def buy_body (instrument : String) (st : LoopState) : Option LoopState :=
  if st.order.quantity > 0 ∧ st.book ≠ [] then
    match st.book with
    | [] => none
    | (best_sell_price, sell_order_list) :: rest =>
      if best_sell_price > st.order.price then none
      else
        match sell_order_list with
        | [] => some { st with book := rest }
        | sell_order :: tail =>
          let trade_quantity := min st.order.quantity sell_order.quantity
          let trade_price := sell_order.price
          let trades := st.trades ++
            [⟨instrument, st.order.order_id, sell_order.order_id, trade_price, trade_quantity⟩]
          let order := { st.order with quantity := st.order.quantity - trade_quantity }
          let sell_order' := { sell_order with quantity := sell_order.quantity - trade_quantity }
          if sell_order'.quantity = 0 then
            if tail = [] then some ⟨order, rest, trades⟩
            else some ⟨order, (best_sell_price, tail) :: rest, trades⟩
          else some ⟨order, (best_sell_price, sell_order' :: tail) :: rest, trades⟩
  else none

/-- One iteration of the loop of `add_sell_order` (lines 103-124). -/
def sell_body (instrument : String) (st : LoopState) : Option LoopState :=
  if st.order.quantity > 0 ∧ st.book ≠ [] then
    match st.book with
    | [] => none
    | (best_buy_price, buy_order_list) :: rest =>
      if best_buy_price < st.order.price then none
      else
        match buy_order_list with
        | [] => some { st with book := rest }
        | buy_order :: tail =>
          let trade_quantity := min st.order.quantity buy_order.quantity
          let trade_price := buy_order.price
          let trades := st.trades ++
            [⟨instrument, buy_order.order_id, st.order.order_id, trade_price, trade_quantity⟩]
          let order := { st.order with quantity := st.order.quantity - trade_quantity }
          let buy_order' := { buy_order with quantity := buy_order.quantity - trade_quantity }
          if buy_order'.quantity = 0 then
            if tail = [] then some ⟨order, rest, trades⟩
            else some ⟨order, (best_buy_price, tail) :: rest, trades⟩
          else some ⟨order, (best_buy_price, buy_order' :: tail) :: rest, trades⟩
  else none

/-- Method `OrderBook::add_buy_order` (lines 62-95): the order after the call and the
book after the call. -/
def add_buy_order (S : StdSort) (order_books : OrderBook) (order : Order) :
    Order × OrderBook :=
  let instrument := order.instrument
  let b := order_books instrument
  let st := while_loop (buy_body instrument) (loop_bound b.sell_orders)
    ⟨order, b.sell_orders, b.trades⟩
  let buy_orders :=
    if st.order.quantity > 0 then push_and_sort S (fun x y => x > y) st.order b.buy_orders
    else b.buy_orders
  (st.order, Function.update order_books instrument ⟨buy_orders, st.book, st.trades⟩)

/-- Method `OrderBook::add_sell_order` (lines 97-130). -/
def add_sell_order (S : StdSort) (order_books : OrderBook) (order : Order) :
    Order × OrderBook :=
  let instrument := order.instrument
  let b := order_books instrument
  let st := while_loop (sell_body instrument) (loop_bound b.buy_orders)
    ⟨order, b.buy_orders, b.trades⟩
  let sell_orders :=
    if st.order.quantity > 0 then push_and_sort S (fun x y => x < y) st.order b.sell_orders
    else b.sell_orders
  (st.order, Function.update order_books instrument ⟨st.book, sell_orders, st.trades⟩)

/-- What a call of `add_order` leaves behind: the returned vector of trades, the
caller's order (passed by reference and decremented in place) and the book. -/
structure Outcome where
  trades : List Trade
  order : Order
  book : OrderBook

/-- Method `OrderBook::add_order` (lines 133-141). -/
def add_order (S : StdSort) (order_books : OrderBook) (order : Order) : Outcome :=
  let cleared : OrderBook :=
    Function.update order_books order.instrument
      { order_books order.instrument with trades := [] }
  let r : Order × OrderBook :=
    if order.side = "BUY" then add_buy_order S cleared order
    else if order.side = "SELL" then add_sell_order S cleared order
    else (order, cleared)
  ⟨(r.2 order.instrument).trades, r.1, r.2⟩

/-- What `print_order_book_state` writes for an instrument (lines 143-159): the price
and the size of the vector of every entry of the bid map, then of the ask map, each in
the iteration order of the map, and the trades of the log. -/
structure BookState where
  bidLevels : List (ℚ × Nat)
  askLevels : List (ℚ × Nat)
  lastTrades : List Trade
deriving DecidableEq, Repr

/-- Method `OrderBook::print_order_book_state` (lines 143-159), as the values it
writes. -/
def print_order_book_state (order_books : OrderBook) (instrument : String) : BookState :=
  let book := order_books instrument
  { bidLevels := book.buy_orders.map (fun e => (e.1, e.2.length))
    askLevels := book.sell_orders.map (fun e => (e.1, e.2.length))
    lastTrades := book.trades }

/-- The book after submitting the orders `os` one after the other to `ob`. -/
def submit_all (S : StdSort) (ob : OrderBook) (os : List Order) : OrderBook :=
  os.foldl (fun b o => (add_order S b o).book) ob

/-- The books reachable from the empty `OrderBook` by calls of `add_order`. -/
inductive Reachable (S : StdSort) : OrderBook → Prop
  | empty : Reachable S OrderBook.empty
  | step {ob : OrderBook} (o : Order) : Reachable S ob → Reachable S (add_order S ob o).book

/-! ## Both loops as one

The two loops differ only in the direction of the price test and in which identifier
of the trade is the incoming one.  `cross_body` is their common shape; the lemmas
`buy_body_eq` and `sell_body_eq` show it coincides with each of them, and
`add_buy_order_eq` and `add_sell_order_eq` do the same for the two methods. -/

/-- Iteration order of the map an incoming order crosses: ascending prices (the asks)
for an incoming buy, descending prices (the bids) for an incoming sell. -/
def ahead (buy : Bool) (x y : ℚ) : Prop := if buy then x < y else x > y

instance (buy : Bool) : DecidableRel (ahead buy) := fun x y => by
  unfold ahead; exact inferInstance

/-- The trade of lines 80 and 115: the incoming order `o` is the buyer when `buy`,
the seller otherwise; the price is that of the resting order `r`. -/
def mk_trade (buy : Bool) (instrument : String) (o r : Order) (q : Int) : Trade :=
  if buy then ⟨instrument, o.order_id, r.order_id, r.price, q⟩
  else ⟨instrument, r.order_id, o.order_id, r.price, q⟩

/-- One iteration of either loop. -/
def cross_body (buy : Bool) (instrument : String) (st : LoopState) : Option LoopState :=
  if st.order.quantity > 0 ∧ st.book ≠ [] then
    match st.book with
    | [] => none
    | (best, queue) :: rest =>
      if ahead buy st.order.price best then none
      else
        match queue with
        | [] => some { st with book := rest }
        | r :: tail =>
          let q := min st.order.quantity r.quantity
          let trades := st.trades ++ [mk_trade buy instrument st.order r q]
          let order := { st.order with quantity := st.order.quantity - q }
          if r.quantity - q = 0 then
            if tail = [] then some ⟨order, rest, trades⟩
            else some ⟨order, (best, tail) :: rest, trades⟩
          else some ⟨order, (best, { r with quantity := r.quantity - q } :: tail) :: rest, trades⟩
  else none

/-- The ways an iteration can continue. -/
inductive Step (buy : Bool) (instrument : String) : LoopState → LoopState → Prop
  | drop_level (o : Order) (p : ℚ) (rest : Levels) (T : List Trade) :
      0 < o.quantity → ¬ ahead buy o.price p →
      Step buy instrument ⟨o, (p, []) :: rest, T⟩ ⟨o, rest, T⟩
  | fill_last (o r : Order) (p : ℚ) (rest : Levels) (T : List Trade) :
      0 < o.quantity → ¬ ahead buy o.price p →
      r.quantity - min o.quantity r.quantity = 0 →
      Step buy instrument ⟨o, (p, [r]) :: rest, T⟩
        ⟨{ o with quantity := o.quantity - min o.quantity r.quantity }, rest,
          T ++ [mk_trade buy instrument o r (min o.quantity r.quantity)]⟩
  | fill (o r : Order) (p : ℚ) (tail : List Order) (rest : Levels) (T : List Trade) :
      0 < o.quantity → ¬ ahead buy o.price p →
      r.quantity - min o.quantity r.quantity = 0 → tail ≠ [] →
      Step buy instrument ⟨o, (p, r :: tail) :: rest, T⟩
        ⟨{ o with quantity := o.quantity - min o.quantity r.quantity }, (p, tail) :: rest,
          T ++ [mk_trade buy instrument o r (min o.quantity r.quantity)]⟩
  | part (o r : Order) (p : ℚ) (tail : List Order) (rest : Levels) (T : List Trade) :
      0 < o.quantity → ¬ ahead buy o.price p →
      r.quantity - min o.quantity r.quantity ≠ 0 →
      Step buy instrument ⟨o, (p, r :: tail) :: rest, T⟩
        ⟨{ o with quantity := o.quantity - min o.quantity r.quantity },
          (p, { r with quantity := r.quantity - min o.quantity r.quantity } :: tail) :: rest,
          T ++ [mk_trade buy instrument o r (min o.quantity r.quantity)]⟩

/-- The common shape of `add_buy_order` and `add_sell_order` on the two maps of one
instrument: `opp` is the map that is crossed, `own` the map the remainder is pushed
to.  The result is the final state of the loop and the new `own` map. -/
def cross_and_rest (S : StdSort) (buy : Bool) (instrument : String) (o : Order)
    (opp own : Levels) (T : List Trade) : LoopState × Levels :=
  let st := while_loop (cross_body buy instrument) (loop_bound opp) ⟨o, opp, T⟩
  (st, if st.order.quantity > 0 then push_and_sort S (ahead (!buy)) st.order own else own)

/-! ## The loops as functions of the resting orders -/

/-- The quantity that decreases along the iterations of a matching loop. -/
def measure (st : LoopState) : Nat :=
  2 * (st.book.length + (resting st.book).length) + (if 0 < st.order.quantity then 1 else 0)

/-- The levels an incoming order with limit `limit` may cross: those in front of the
first level whose price lies beyond the limit. -/
def eligible (buy : Bool) (limit : ℚ) (lv : Levels) : Levels :=
  lv.takeWhile (fun e => !decide (ahead buy limit e.1))

/-- The levels behind the eligible ones. -/
def beyond (buy : Bool) (limit : ℚ) (lv : Levels) : Levels :=
  lv.dropWhile (fun e => !decide (ahead buy limit e.1))

/-- The trades of an incoming order of quantity `q` against the resting orders `F`
taken front to back. -/
def fills (buy : Bool) (instrument : String) (o : Order) : Int → List Order → List Trade
  | _, [] => []
  | q, r :: F =>
    if 0 < q then
      mk_trade buy instrument o r (min q r.quantity) ::
        (if r.quantity - min q r.quantity = 0 then
          fills buy instrument o (q - min q r.quantity) F
        else [])
    else []

/-- What is left of the resting orders `F` after those trades. -/
def leftover : Int → List Order → List Order
  | _, [] => []
  | q, r :: F =>
    if 0 < q then
      if r.quantity - min q r.quantity = 0 then leftover (q - min q r.quantity) F
      else { r with quantity := r.quantity - min q r.quantity } :: F
    else r :: F

/-- What is left of the incoming quantity `q` after those trades. -/
def left_qty : Int → List Order → Int
  | q, [] => q
  | q, r :: F =>
    if 0 < q then
      if r.quantity - min q r.quantity = 0 then left_qty (q - min q r.quantity) F
      else q - min q r.quantity
    else q

/-! ## Invariants -/

/-- Well-formedness of one side of a book.  `buy = true` is the side an incoming buy
crosses (the asks, ascending); `buy = false` the side an incoming sell crosses (the
bids, descending). -/
structure SideOK (buy : Bool) (lv : Levels) : Prop where
  keys : lv.Pairwise (fun a b => ahead buy a.1 b.1)
  nonempty : ∀ e ∈ lv, e.2 ≠ []
  price : ∀ e ∈ lv, ∀ r ∈ e.2, r.price = e.1
  qty : ∀ e ∈ lv, ∀ r ∈ e.2, 0 < r.quantity
  time : ∀ e ∈ lv, e.2.Pairwise (fun a b => ¬ b.timestamp < a.timestamp)

/-- Well-formedness of the book of one instrument. -/
structure BookOK (b : InstrumentBook) : Prop where
  bids : SideOK false b.buy_orders
  asks : SideOK true b.sell_orders
  uncrossed : ∀ eb ∈ b.buy_orders, ∀ ea ∈ b.sell_orders, eb.1 < ea.1

/-- The timestamps of the orders resting on a side, in priority order. -/
def times (lv : Levels) : List ℚ :=
  (resting lv).map (fun r => r.timestamp)

/-- The resting orders of an instrument carry pairwise distinct timestamps on each
side. -/
structure TimesOK (b : InstrumentBook) : Prop where
  bids : (times b.buy_orders).Nodup
  asks : (times b.sell_orders).Nodup

/-- The order `x` is the order `y` with at most its quantity changed. -/
def same_order (x y : Order) : Prop :=
  x = ⟨y.order_id, y.instrument, y.side, y.price, x.quantity, y.timestamp⟩

/-! ## Vocabulary of the statements -/

/-- The total quantity of a list of trades. -/
def traded (ts : List Trade) : Int :=
  (ts.map (fun t => t.quantity)).sum

/-- The map an order rests on: the bids for a buy, the asks otherwise. -/
def own_side (o : Order) (b : InstrumentBook) : Levels :=
  if o.side = "BUY" then b.buy_orders else b.sell_orders

/-- The map an order is matched against: the asks for a buy, the bids otherwise. -/
def opp_side (o : Order) (b : InstrumentBook) : Levels :=
  if o.side = "BUY" then b.sell_orders else b.buy_orders

/-- The identifier of the resting counterparty named by a trade of the incoming order
`o`: the seller for an incoming buy, the buyer otherwise. -/
def resting_id (o : Order) (t : Trade) : String :=
  if o.side = "BUY" then t.sell_order_id else t.buy_order_id

/-- The total quantity of a list of orders. -/
def qty_sum (l : List Order) : Int :=
  (l.map (fun r => r.quantity)).sum

/-- The identifier of the resting counterparty of a trade made by `mk_trade buy`. -/
def named_id (buy : Bool) (t : Trade) : String :=
  if buy then t.sell_order_id else t.buy_order_id

/-! ## A concrete sort, concrete orders and books -/

/-- A conforming `std::sort`: straight insertion by timestamp. -/
def insertion : StdSort where
  run := stable_sort
  perm := fun l => List.perm_insertionSort _ l
  sorted := fun l => by
    haveI : IsTotal Order (fun a b => a.timestamp ≤ b.timestamp) :=
      ⟨fun a b => le_total a.timestamp b.timestamp⟩
    haveI : IsTrans Order (fun a b => a.timestamp ≤ b.timestamp) :=
      ⟨fun _ _ _ h1 h2 => le_trans h1 h2⟩
    have h := List.sorted_insertionSort (fun a b : Order => a.timestamp ≤ b.timestamp) l
    exact List.Pairwise.imp (fun hab => not_lt.mpr hab) h

/-- Scenario 1 of the specification: a buy of 10 at 100.00. -/
def ex_B1 : Order := Order.ctor "B1" "SPY" "BUY" 100 10 1 0

/-- Scenario 2: a sell of 4 at 99.00. -/
def ex_S1 : Order := Order.ctor "S1" "SPY" "SELL" 99 4 2 0

/-- Scenario 3: a sell of 5 at 105.00. -/
def ex_S2 : Order := Order.ctor "S2" "SPY" "SELL" 105 5 3 0

/-- Scenario 4: a sell of 10 at 100.00. -/
def ex_S3 : Order := Order.ctor "S3" "SPY" "SELL" 100 10 4 0

/-- An order of quantity zero. -/
def ex_Z : Order := Order.ctor "Z" "SPY" "BUY" 100 0 5 0

/-- An order of negative quantity. -/
def ex_N : Order := Order.ctor "N" "SPY" "SELL" 98 (-5) 6 0

/-- An order whose side is neither BUY nor SELL once uppercased. -/
def ex_H : Order := Order.ctor "H" "spy" "hold" 100 7 9 0

/-- Scenario 5: the older of two buys at 50.00. -/
def ex_B2 : Order := Order.ctor "B2" "SPY" "BUY" 50 5 1 0

/-- Scenario 5: the younger of two buys at 50.00. -/
def ex_B3 : Order := Order.ctor "B3" "SPY" "BUY" 50 7 2 0

/-- Scenario 5: a sell for more than the first buy and less than both. -/
def ex_S4 : Order := Order.ctor "S4" "SPY" "SELL" 50 8 3 0

/-- A sell at the price zero. -/
def ex_S0 : Order := Order.ctor "S0" "SPY" "SELL" 0 3 1 0

/-- A buy that crosses the sell at the price zero. -/
def ex_B0 : Order := Order.ctor "B0" "SPY" "BUY" 10 3 2 0

/-- A buy for another instrument. -/
def ex_M : Order := Order.ctor "M1" "MSFT" "BUY" 458 2 7 0

/-- Two buys at one price carrying the same timestamp. -/
def ex_T1 : Order := Order.ctor "T1" "SPY" "BUY" 50 1 1 0

/-- The second buy with that timestamp. -/
def ex_T2 : Order := Order.ctor "T2" "SPY" "BUY" 50 1 1 0

/-- A buy of 1 at 50.00 with the timestamp 1. -/
def tie (id : String) : Order := Order.ctor id "SPY" "BUY" 50 1 1 0

/-- Sixteen buys at one price with one timestamp. -/
def ex_ties : List Order :=
  ["T1", "T2", "T3", "T4", "T5", "T6", "T7", "T8", "T9", "T10", "T11", "T12", "T13", "T14",
    "T15", "T16"].map tie

/-- The book after the first order of the scenarios. -/
def ex_book1 : OrderBook := (add_order insertion OrderBook.empty ex_B1).book

/-- The book after a buy and a sell that do not cross. -/
def ex_book2 : OrderBook := submit_all insertion OrderBook.empty [ex_B1, ex_S2]

/-- The book after four orders of which two have no positive quantity. -/
def ex_book3 : OrderBook := submit_all insertion OrderBook.empty [ex_Z, ex_B1, ex_N, ex_S2]

/-- The book after the first three orders of the scenarios. -/
def ex_book4 : OrderBook := submit_all insertion OrderBook.empty [ex_B1, ex_S1, ex_S2]

/-- The book after the first two orders of the scenarios; its log holds one trade. -/
def ex_book5 : OrderBook := submit_all insertion OrderBook.empty [ex_B1, ex_S1]

/-- The book `ex_book5` with its trade log for SPY emptied. -/
def ex_book5_nolog : OrderBook :=
  Function.update ex_book5 "SPY" { ex_book5 "SPY" with trades := [] }

/-- The book after the four orders of the scenarios. -/
def ex_book6 : OrderBook := submit_all insertion OrderBook.empty [ex_B1, ex_S1, ex_S2, ex_S3]

/-- The book `ex_book5` after a buy for another instrument. -/
def ex_book7 : OrderBook := (add_order insertion ex_book5 ex_M).book

/-- The book after the two buys at 50.00. -/
def ex_book8 : OrderBook := submit_all insertion OrderBook.empty [ex_B2, ex_B3]

/-! ## Lemmas on one iteration -/

theorem buy_body_eq (instrument : String) : buy_body instrument = cross_body true instrument := by
  funext st
  simp only [buy_body, cross_body, ahead, mk_trade, gt_iff_lt, if_true]

theorem sell_body_eq (instrument : String) : sell_body instrument = cross_body false instrument := by
  funext st
  simp only [sell_body, cross_body, ahead, mk_trade, gt_iff_lt]
  rfl

theorem cross_body_some {buy : Bool} {instrument : String} {st st' : LoopState}
    (h : cross_body buy instrument st = some st') : Step buy instrument st st' := by
  obtain ⟨o, book, T⟩ := st
  unfold cross_body at h
  split_ifs at h with hc
  obtain ⟨hq, hne⟩ := hc
  match book, hne with
  | (p, queue) :: rest, _ =>
    simp only at h
    split_ifs at h with hstop
    match queue with
    | [] =>
      simp only [Option.some.injEq] at h
      subst h
      exact Step.drop_level o p rest T hq hstop
    | r :: tail =>
      simp only at h
      split_ifs at h with hz ht
      · simp only [Option.some.injEq] at h
        subst h; subst ht
        exact Step.fill_last o r p rest T hq hstop hz
      · simp only [Option.some.injEq] at h
        subst h
        exact Step.fill o r p tail rest T hq hstop hz ht
      · simp only [Option.some.injEq] at h
        subst h
        exact Step.part o r p tail rest T hq hstop hz

theorem cross_body_none {buy : Bool} {instrument : String} {st : LoopState}
    (h : cross_body buy instrument st = none) :
    st.order.quantity ≤ 0 ∨ st.book = [] ∨
      ∃ p queue rest, st.book = (p, queue) :: rest ∧ ahead buy st.order.price p := by
  obtain ⟨o, book, T⟩ := st
  unfold cross_body at h
  split_ifs at h with hc
  · obtain ⟨hq, hne⟩ := hc
    match book, hne with
    | (p, queue) :: rest, _ =>
      simp only at h
      split_ifs at h with hstop
      · exact Or.inr (Or.inr ⟨p, queue, rest, rfl, hstop⟩)
      · exfalso
        match queue with
        | [] => simp at h
        | r :: tail =>
          simp only at h
          split_ifs at h
  · simp only [not_and_or, not_lt, gt_iff_lt, ne_eq, not_not] at hc
    rcases hc with hc | hc
    · exact Or.inl hc
    · exact Or.inr (Or.inl hc)

theorem cross_body_of_nonpos {buy : Bool} {instrument : String} {st : LoopState}
    (h : st.order.quantity ≤ 0) : cross_body buy instrument st = none := by
  unfold cross_body
  rw [if_neg]
  intro hc
  exact absurd hc.1 (not_lt.mpr h)


/-! ## Termination of the loops -/

theorem resting_nil : resting [] = [] := rfl

theorem resting_cons (p : ℚ) (l : List Order) (rest : Levels) :
    resting ((p, l) :: rest) = l ++ resting rest := by
  simp [resting, List.flatMap_cons]

theorem resting_append (a b : Levels) : resting (a ++ b) = resting a ++ resting b := by
  simp [resting, List.flatMap_append]

theorem mem_resting {lv : Levels} {r : Order} :
    r ∈ resting lv ↔ ∃ e ∈ lv, r ∈ e.2 := by
  simp [resting, List.mem_flatMap]

theorem min_eq_left_of_sub_ne {a b : Int} (h : b - min a b ≠ 0) : min a b = a := by
  rcases le_total a b with hab | hab
  · exact min_eq_left hab
  · exact absurd (by rw [min_eq_right hab]; ring) h

theorem Step.measure_lt {buy : Bool} {instrument : String} {st st' : LoopState}
    (h : Step buy instrument st st') : measure st' < measure st := by
  cases h with
  | drop_level o p rest T hq hs =>
    simp only [measure, resting_cons, List.length_cons, List.nil_append]
    omega
  | fill_last o r p rest T hq hs hz =>
    simp only [measure, resting_cons, List.length_cons, List.length_append, List.length_nil]
    split_ifs <;> omega
  | fill o r p tail rest T hq hs hz ht =>
    simp only [measure, resting_cons, List.length_cons, List.length_append]
    split_ifs <;> omega
  | part o r p tail rest T hq hs hz =>
    have hm := min_eq_left_of_sub_ne hz
    simp only [measure, resting_cons, List.length_cons, List.length_append, hm, sub_self,
      lt_self_iff_false, if_false, if_pos hq]
    omega

theorem measure_le_bound (o : Order) (lv : Levels) (T : List Trade) :
    measure ⟨o, lv, T⟩ ≤ loop_bound lv := by
  simp only [measure, loop_bound]
  split_ifs <;> omega

theorem while_loop_none {σ : Type} {body : σ → Option σ} {s : σ} (h : body s = none) (n : Nat) :
    while_loop body n s = s := by
  cases n with
  | zero => rfl
  | succ n => simp [while_loop, h]

theorem while_loop_some {σ : Type} {body : σ → Option σ} {s s' : σ} (h : body s = some s')
    (n : Nat) : while_loop body (n + 1) s = while_loop body n s' := by
  simp [while_loop, h]

/-- Once the loop has stopped, allowing more iterations does not change the result. -/
theorem while_loop_more {σ : Type} {body : σ → Option σ} :
    ∀ (n : Nat) (s : σ), body (while_loop body n s) = none →
      ∀ k, while_loop body (n + k) s = while_loop body n s := by
  intro n
  induction n with
  | zero =>
    intro s h k
    simp only [while_loop] at h
    rw [Nat.zero_add, while_loop_none h]
    rfl
  | succ n ih =>
    intro s h k
    cases hb : body s with
    | none => rw [while_loop_none hb, while_loop_none hb]
    | some s' =>
      rw [while_loop_some hb] at h
      rw [Nat.add_right_comm, while_loop_some hb, while_loop_some hb]
      exact ih s' h k

/-- An invariant of the body holds when the loop stops. -/
theorem while_loop_inv {σ : Type} {body : σ → Option σ} (P : σ → Prop)
    (hstep : ∀ s s', P s → body s = some s' → P s') :
    ∀ (n : Nat) (s : σ), P s → P (while_loop body n s) := by
  intro n
  induction n with
  | zero => intro s hs; exact hs
  | succ n ih =>
    intro s hs
    cases hb : body s with
    | none => rw [while_loop_none hb]; exact hs
    | some s' => rw [while_loop_some hb]; exact ih s' (hstep s s' hs hb)

/-- With `measure st` iterations at hand the loop runs until its condition fails or it
breaks. -/
theorem cross_loop_exits (buy : Bool) (instrument : String) :
    ∀ (n : Nat) (st : LoopState), measure st ≤ n →
      cross_body buy instrument (while_loop (cross_body buy instrument) n st) = none := by
  intro n
  induction n with
  | zero =>
    intro st hm
    apply cross_body_of_nonpos
    simp only [measure] at hm
    show st.order.quantity ≤ 0
    by_contra hc
    rw [if_pos (not_le.mp hc)] at hm
    omega
  | succ n ih =>
    intro st hm
    cases hb : cross_body buy instrument st with
    | none => rw [while_loop_none hb]; exact hb
    | some st' =>
      rw [while_loop_some hb]
      have := (cross_body_some hb).measure_lt
      exact ih st' (by omega)

/-! ## The result of a loop -/

theorem fills_nonpos (buy : Bool) (instrument : String) (o : Order) {q : Int} (h : ¬ 0 < q)
    (F : List Order) : fills buy instrument o q F = [] := by
  cases F <;> simp [fills, h]

theorem leftover_nonpos {q : Int} (h : ¬ 0 < q) (F : List Order) : leftover q F = F := by
  cases F <;> simp [leftover, h]

theorem left_qty_nonpos {q : Int} (h : ¬ 0 < q) (F : List Order) : left_qty q F = q := by
  cases F <;> simp [left_qty, h]

theorem mk_trade_with_quantity (buy : Bool) (instrument : String) (o r : Order) (q q' : Int) :
    mk_trade buy instrument { o with quantity := q' } r q = mk_trade buy instrument o r q := rfl

theorem fills_with_quantity (buy : Bool) (instrument : String) (o : Order) (q' : Int) :
    ∀ (F : List Order) (q : Int),
      fills buy instrument { o with quantity := q' } q F = fills buy instrument o q F := by
  intro F
  induction F with
  | nil => intro q; rfl
  | cons r F ih => intro q; simp only [fills, ih, mk_trade_with_quantity]

theorem eligible_cons_pos {buy : Bool} {limit p : ℚ} (h : ¬ ahead buy limit p) (l : List Order)
    (rest : Levels) : eligible buy limit ((p, l) :: rest) = (p, l) :: eligible buy limit rest := by
  simp [eligible, List.takeWhile_cons, h]

theorem eligible_cons_neg {buy : Bool} {limit p : ℚ} (h : ahead buy limit p) (l : List Order)
    (rest : Levels) : eligible buy limit ((p, l) :: rest) = [] := by
  simp [eligible, List.takeWhile_cons, h]

theorem beyond_cons_pos {buy : Bool} {limit p : ℚ} (h : ¬ ahead buy limit p) (l : List Order)
    (rest : Levels) : beyond buy limit ((p, l) :: rest) = beyond buy limit rest := by
  simp [beyond, List.dropWhile_cons, h]

theorem beyond_cons_neg {buy : Bool} {limit p : ℚ} (h : ahead buy limit p) (l : List Order)
    (rest : Levels) : beyond buy limit ((p, l) :: rest) = (p, l) :: rest := by
  simp [beyond, List.dropWhile_cons, h]

/-- The result of a matching loop as a function of the state it starts from. -/
theorem cross_loop_spec (buy : Bool) (instrument : String) :
    ∀ (n : Nat) (st : LoopState), measure st ≤ n →
      (while_loop (cross_body buy instrument) n st).trades =
          st.trades ++ fills buy instrument st.order st.order.quantity
            (resting (eligible buy st.order.price st.book)) ∧
        resting (while_loop (cross_body buy instrument) n st).book =
          leftover st.order.quantity (resting (eligible buy st.order.price st.book)) ++
            resting (beyond buy st.order.price st.book) ∧
        (while_loop (cross_body buy instrument) n st).order =
          { st.order with
            quantity := left_qty st.order.quantity
              (resting (eligible buy st.order.price st.book)) } := by
  intro n
  induction n with
  | zero =>
    intro st hm
    have hq : ¬ 0 < st.order.quantity := by
      intro hc
      simp only [measure, if_pos hc] at hm
      omega
    have hb : st.book = [] := by
      simp only [measure] at hm
      exact List.length_eq_zero.mp (by omega)
    simp [while_loop, fills_nonpos, leftover_nonpos, left_qty_nonpos, hq, hb, eligible, beyond,
      resting_nil]
  | succ n ih =>
    intro st hm
    cases hb : cross_body buy instrument st with
    | none =>
      rw [while_loop_none hb]
      rcases cross_body_none hb with hq | hq | ⟨p, l, rest, hbk, hstop⟩
      · have hq' : ¬ 0 < st.order.quantity := not_lt.mpr hq
        simp only [fills_nonpos _ _ _ hq', leftover_nonpos hq', left_qty_nonpos hq',
          List.append_nil, true_and]
        constructor
        · rw [← resting_append]
          simp [eligible, beyond, List.takeWhile_append_dropWhile]
        · trivial
      · simp [hq, eligible, beyond, resting_nil, fills, leftover, left_qty]
      · rw [hbk, eligible_cons_neg hstop, beyond_cons_neg hstop]
        simp [resting_nil, fills, leftover, left_qty]
    | some st' =>
      rw [while_loop_some hb]
      have hstep := cross_body_some hb
      have hlt := hstep.measure_lt
      obtain ⟨h1, h2, h3⟩ := ih st' (by omega)
      rw [h1, h2, h3]
      cases hstep with
      | drop_level o p rest T hq hs =>
        simp only [eligible_cons_pos hs, beyond_cons_pos hs, resting_cons, List.nil_append,
          and_self]
      | fill_last o r p rest T hq hs hz =>
        simp only [eligible_cons_pos hs, beyond_cons_pos hs, resting_cons, List.nil_append,
          List.singleton_append, fills, leftover, left_qty, if_pos hq, if_pos hz,
          fills_with_quantity, List.append_assoc, and_self]
      | fill o r p tail rest T hq hs hz ht =>
        simp only [eligible_cons_pos hs, beyond_cons_pos hs, resting_cons, List.cons_append,
          List.nil_append, List.singleton_append, fills, leftover, left_qty, if_pos hq, if_pos hz,
          fills_with_quantity, List.append_assoc, and_self]
      | part o r p tail rest T hq hs hz =>
        have hm := min_eq_left_of_sub_ne hz
        have h0 : ¬ (0 : Int) < o.quantity - min o.quantity r.quantity := by
          rw [hm]; simp
        simp only [eligible_cons_pos hs, beyond_cons_pos hs, resting_cons, List.cons_append,
          fills_nonpos _ _ _ h0, leftover_nonpos h0, left_qty_nonpos h0, fills, leftover,
          left_qty, if_pos hq, if_neg hz, List.append_nil, List.append_assoc,
          List.singleton_append, List.nil_append, and_self]

/-! ## Well-formed sides -/

theorem ahead_trans {buy : Bool} {x y z : ℚ} (h1 : ahead buy x y) (h2 : ahead buy y z) :
    ahead buy x z := by
  cases buy
  · simp only [ahead, Bool.false_eq_true, if_false, gt_iff_lt] at *
    exact lt_trans h2 h1
  · simp only [ahead, if_true] at *
    exact lt_trans h1 h2

theorem ahead_eq_of_not {buy : Bool} {x y : ℚ} (h1 : ¬ ahead buy x y) (h2 : ¬ ahead buy y x) :
    y = x := by
  cases buy
  · simp only [ahead, Bool.false_eq_true, if_false, gt_iff_lt, not_lt] at *
    exact le_antisymm h2 h1
  · simp only [ahead, if_true, not_lt] at *
    exact le_antisymm h1 h2

theorem ahead_flip {buy : Bool} {x y : ℚ} : ahead (!buy) x y ↔ ahead buy y x := by
  cases buy <;> simp [ahead]

theorem SideOK.nil (buy : Bool) : SideOK buy [] :=
  ⟨List.Pairwise.nil, by simp, by simp, by simp, by simp⟩

theorem SideOK.tail {buy : Bool} {e : ℚ × List Order} {rest : Levels}
    (h : SideOK buy (e :: rest)) : SideOK buy rest :=
  ⟨(List.pairwise_cons.mp h.keys).2,
    fun x hx => h.nonempty x (List.mem_cons_of_mem _ hx),
    fun x hx => h.price x (List.mem_cons_of_mem _ hx),
    fun x hx => h.qty x (List.mem_cons_of_mem _ hx),
    fun x hx => h.time x (List.mem_cons_of_mem _ hx)⟩

/-- Replacing the vector of the first level keeps a side well formed when the new
vector is. -/
theorem SideOK.replace_head {buy : Bool} {p : ℚ} {l l' : List Order} {rest : Levels}
    (h : SideOK buy ((p, l) :: rest)) (hne : l' ≠ [])
    (hp : ∀ r ∈ l', r.price = p) (hq : ∀ r ∈ l', 0 < r.quantity)
    (ht : l'.Pairwise (fun a b => ¬ b.timestamp < a.timestamp)) :
    SideOK buy ((p, l') :: rest) := by
  have hk := List.pairwise_cons.mp h.keys
  refine ⟨List.pairwise_cons.mpr ⟨hk.1, hk.2⟩, ?_, ?_, ?_, ?_⟩
  · intro e he
    rcases List.mem_cons.mp he with rfl | he
    · exact hne
    · exact h.nonempty e (List.mem_cons_of_mem _ he)
  · intro e he
    rcases List.mem_cons.mp he with rfl | he
    · exact hp
    · exact h.price e (List.mem_cons_of_mem _ he)
  · intro e he
    rcases List.mem_cons.mp he with rfl | he
    · exact hq
    · exact h.qty e (List.mem_cons_of_mem _ he)
  · intro e he
    rcases List.mem_cons.mp he with rfl | he
    · exact ht
    · exact h.time e (List.mem_cons_of_mem _ he)

theorem sub_min_nonneg (a b : Int) : 0 ≤ b - min a b := by
  have := min_le_right a b
  omega

/-- An iteration keeps the crossed side well formed. -/
theorem Step.sideOK {buy : Bool} {instrument : String} {st st' : LoopState}
    (h : Step buy instrument st st') (hok : SideOK buy st.book) : SideOK buy st'.book := by
  cases h with
  | drop_level o p rest T hq hs => exact hok.tail
  | fill_last o r p rest T hq hs hz => exact hok.tail
  | fill o r p tail rest T hq hs hz ht =>
    have hmem : (p, r :: tail) ∈ (p, r :: tail) :: rest := List.mem_cons_self _ _
    refine hok.replace_head ht ?_ ?_ ?_
    · intro x hx; exact hok.price _ hmem x (List.mem_cons_of_mem _ hx)
    · intro x hx; exact hok.qty _ hmem x (List.mem_cons_of_mem _ hx)
    · exact (List.pairwise_cons.mp (hok.time _ hmem)).2
  | part o r p tail rest T hq hs hz =>
    have hmem : (p, r :: tail) ∈ (p, r :: tail) :: rest := List.mem_cons_self _ _
    have hpw := List.pairwise_cons.mp (hok.time _ hmem)
    refine hok.replace_head (List.cons_ne_nil _ _) ?_ ?_ ?_
    · intro x hx
      rcases List.mem_cons.mp hx with rfl | hx
      · exact hok.price _ hmem r (List.mem_cons_self _ _)
      · exact hok.price _ hmem x (List.mem_cons_of_mem _ hx)
    · intro x hx
      rcases List.mem_cons.mp hx with rfl | hx
      · exact lt_of_le_of_ne (sub_min_nonneg _ _) (Ne.symm hz)
      · exact hok.qty _ hmem x (List.mem_cons_of_mem _ hx)
    · exact List.pairwise_cons.mpr ⟨fun x hx => hpw.1 x hx, hpw.2⟩

theorem cross_loop_sideOK (buy : Bool) (instrument : String) (n : Nat) (st : LoopState)
    (hok : SideOK buy st.book) :
    SideOK buy (while_loop (cross_body buy instrument) n st).book :=
  while_loop_inv (fun s => SideOK buy s.book)
    (fun _ _ hs hb => (cross_body_some hb).sideOK hs) n st hok

/-- The keys met along a loop are keys of the starting map. -/
theorem Step.keys_subset {buy : Bool} {instrument : String} {st st' : LoopState}
    (h : Step buy instrument st st') :
    ∀ e ∈ st'.book, ∃ e' ∈ st.book, e'.1 = e.1 := by
  cases h with
  | drop_level o p rest T hq hs =>
    intro e he; exact ⟨e, List.mem_cons_of_mem _ he, rfl⟩
  | fill_last o r p rest T hq hs hz =>
    intro e he; exact ⟨e, List.mem_cons_of_mem _ he, rfl⟩
  | fill o r p tail rest T hq hs hz ht =>
    intro e he
    rcases List.mem_cons.mp he with rfl | he
    · exact ⟨_, List.mem_cons_self _ _, rfl⟩
    · exact ⟨e, List.mem_cons_of_mem _ he, rfl⟩
  | part o r p tail rest T hq hs hz =>
    intro e he
    rcases List.mem_cons.mp he with rfl | he
    · exact ⟨_, List.mem_cons_self _ _, rfl⟩
    · exact ⟨e, List.mem_cons_of_mem _ he, rfl⟩

theorem cross_loop_keys_subset (buy : Bool) (instrument : String) (n : Nat) (st : LoopState) :
    ∀ e ∈ (while_loop (cross_body buy instrument) n st).book, ∃ e' ∈ st.book, e'.1 = e.1 :=
  while_loop_inv (fun s => ∀ e ∈ s.book, ∃ e' ∈ st.book, e'.1 = e.1)
    (fun s s' hs hb e he => by
      obtain ⟨e1, he1, h1⟩ := (cross_body_some hb).keys_subset e he
      obtain ⟨e2, he2, h2⟩ := hs e1 he1
      exact ⟨e2, he2, h2.trans h1⟩) n st (fun e he => ⟨e, he, rfl⟩)

/-- An iteration changes the incoming order in its quantity only. -/
theorem Step.order_eq {buy : Bool} {instrument : String} {st st' : LoopState}
    (h : Step buy instrument st st') :
    st'.order.order_id = st.order.order_id ∧ st'.order.instrument = st.order.instrument ∧
      st'.order.side = st.order.side ∧ st'.order.price = st.order.price ∧
      st'.order.timestamp = st.order.timestamp := by
  cases h <;> exact ⟨rfl, rfl, rfl, rfl, rfl⟩

/-- When the loop has stopped with quantity left, every remaining level lies beyond
the limit of the incoming order. -/
theorem beyond_of_exit {buy : Bool} {instrument : String} {st : LoopState}
    (hok : SideOK buy st.book) (hx : cross_body buy instrument st = none)
    (hq : 0 < st.order.quantity) : ∀ e ∈ st.book, ahead buy st.order.price e.1 := by
  rcases cross_body_none hx with h | h | ⟨p, l, rest, hb, hstop⟩
  · exact absurd hq (not_lt.mpr h)
  · intro e he; rw [h] at he; simp at he
  · intro e he
    rw [hb] at he hok
    rcases List.mem_cons.mp he with rfl | he
    · exact hstop
    · exact ahead_trans hstop ((List.pairwise_cons.mp hok.keys).1 e he)

/-! ## Pushing the remainder onto its own side -/

theorem push_and_sort_congr (S : StdSort) {r r' : ℚ → ℚ → Prop} [DecidableRel r]
    [DecidableRel r'] (h : ∀ x y, r x y ↔ r' x y) (o : Order) :
    ∀ lv : Levels, push_and_sort S r o lv = push_and_sort S r' o lv := by
  intro lv
  induction lv with
  | nil => rfl
  | cons e rest ih =>
    obtain ⟨p, l⟩ := e
    simp only [push_and_sort, h, ih]

theorem StdSort.mem_run (S : StdSort) {l : List Order} {r : Order} : r ∈ S.run l ↔ r ∈ l :=
  (S.perm l).mem_iff

theorem StdSort.run_ne_nil (S : StdSort) {l : List Order} (h : l ≠ []) : S.run l ≠ [] := by
  intro hc
  have := (S.perm l).length_eq
  rw [hc] at this
  exact h (List.length_eq_zero.mp this.symm)

theorem SideOK.cons {buy : Bool} {p : ℚ} {l : List Order} {rest : Levels}
    (hrest : SideOK buy rest) (hk : ∀ e ∈ rest, ahead buy p e.1) (hne : l ≠ [])
    (hp : ∀ r ∈ l, r.price = p) (hq : ∀ r ∈ l, 0 < r.quantity)
    (ht : l.Pairwise (fun a b => ¬ b.timestamp < a.timestamp)) :
    SideOK buy ((p, l) :: rest) := by
  refine ⟨List.pairwise_cons.mpr ⟨hk, hrest.keys⟩, ?_, ?_, ?_, ?_⟩
  · intro e he
    rcases List.mem_cons.mp he with rfl | he
    · exact hne
    · exact hrest.nonempty e he
  · intro e he
    rcases List.mem_cons.mp he with rfl | he
    · exact hp
    · exact hrest.price e he
  · intro e he
    rcases List.mem_cons.mp he with rfl | he
    · exact hq
    · exact hrest.qty e he
  · intro e he
    rcases List.mem_cons.mp he with rfl | he
    · exact ht
    · exact hrest.time e he

/-- Every key of a map after a push is the price of the order or an old key. -/
theorem push_and_sort_keys (S : StdSort) (buy : Bool) (o : Order) :
    ∀ (lv : Levels), ∀ e ∈ push_and_sort S (ahead buy) o lv,
      e.1 = o.price ∨ ∃ e' ∈ lv, e'.1 = e.1 := by
  intro lv
  induction lv with
  | nil =>
    intro e he
    simp only [push_and_sort, List.mem_singleton] at he
    subst he
    exact Or.inl rfl
  | cons x rest ih =>
    obtain ⟨p, l⟩ := x
    intro e he
    simp only [push_and_sort] at he
    split_ifs at he with h1 h2
    · rcases List.mem_cons.mp he with rfl | he
      · exact Or.inl rfl
      · exact Or.inr ⟨e, he, rfl⟩
    · rcases List.mem_cons.mp he with rfl | he
      · exact Or.inr ⟨_, List.mem_cons_self _ _, rfl⟩
      · rcases ih e he with h | ⟨e', he', h⟩
        · exact Or.inl h
        · exact Or.inr ⟨e', List.mem_cons_of_mem _ he', h⟩
    · rcases List.mem_cons.mp he with rfl | he
      · exact Or.inr ⟨_, List.mem_cons_self _ _, rfl⟩
      · exact Or.inr ⟨e, List.mem_cons_of_mem _ he, rfl⟩

/-- After a push the map holds the order in the level at its price. -/
theorem push_and_sort_holds (S : StdSort) (buy : Bool) (o : Order) :
    ∀ (lv : Levels), ∃ l, (o.price, l) ∈ push_and_sort S (ahead buy) o lv ∧ o ∈ l := by
  intro lv
  induction lv with
  | nil =>
    exact ⟨S.run ([] ++ [o]), by simp [push_and_sort], S.mem_run.mpr (by simp)⟩
  | cons x rest ih =>
    obtain ⟨p, l⟩ := x
    simp only [push_and_sort]
    split_ifs with h1 h2
    · exact ⟨S.run ([] ++ [o]), List.mem_cons_self _ _, S.mem_run.mpr (by simp)⟩
    · obtain ⟨l', hl', ho⟩ := ih
      exact ⟨l', List.mem_cons_of_mem _ hl', ho⟩
    · have hp : p = o.price := ahead_eq_of_not h1 h2
      subst hp
      exact ⟨S.run (l ++ [o]), List.mem_cons_self _ _, S.mem_run.mpr (by simp)⟩

/-- A push keeps a side well formed when the pushed order has a positive quantity. -/
theorem push_and_sort_sideOK (S : StdSort) (buy : Bool) (o : Order) (hq : 0 < o.quantity) :
    ∀ (lv : Levels), SideOK buy lv → SideOK buy (push_and_sort S (ahead buy) o lv) := by
  have hnew : ∀ (l : List Order), (∀ r ∈ l, r.price = o.price) → (∀ r ∈ l, 0 < r.quantity) →
      S.run (l ++ [o]) ≠ [] ∧ (∀ r ∈ S.run (l ++ [o]), r.price = o.price) ∧
        (∀ r ∈ S.run (l ++ [o]), 0 < r.quantity) ∧
        (S.run (l ++ [o])).Pairwise (fun a b => ¬ b.timestamp < a.timestamp) := by
    intro l hp hl
    refine ⟨S.run_ne_nil (by simp), ?_, ?_, S.sorted _⟩
    · intro r hr
      rcases List.mem_append.mp (S.mem_run.mp hr) with h | h
      · exact hp r h
      · rw [List.mem_singleton.mp h]
    · intro r hr
      rcases List.mem_append.mp (S.mem_run.mp hr) with h | h
      · exact hl r h
      · rw [List.mem_singleton.mp h]; exact hq
  intro lv
  induction lv with
  | nil =>
    intro _
    obtain ⟨h1, h2, h3, h4⟩ := hnew [] (by simp) (by simp)
    exact SideOK.cons (SideOK.nil buy) (by simp) h1 h2 h3 h4
  | cons x rest ih =>
    obtain ⟨p, l⟩ := x
    intro hok
    have hk := List.pairwise_cons.mp hok.keys
    simp only [push_and_sort]
    split_ifs with h1 h2
    · obtain ⟨g1, g2, g3, g4⟩ := hnew [] (by simp) (by simp)
      refine SideOK.cons hok ?_ g1 g2 g3 g4
      intro e he
      rcases List.mem_cons.mp he with rfl | he
      · exact h1
      · exact ahead_trans h1 (hk.1 e he)
    · have hmem : (p, l) ∈ (p, l) :: rest := List.mem_cons_self _ _
      refine SideOK.cons (ih hok.tail) ?_ (hok.nonempty _ hmem) (hok.price _ hmem)
        (hok.qty _ hmem) (hok.time _ hmem)
      intro e he
      rcases push_and_sort_keys S buy o rest e he with h | ⟨e', he', h⟩
      · rw [h]; exact h2
      · rw [← h]; exact hk.1 e' he'
    · have hp : p = o.price := ahead_eq_of_not h1 h2
      subst hp
      have hmem : (o.price, l) ∈ (o.price, l) :: rest := List.mem_cons_self _ _
      obtain ⟨g1, g2, g3, g4⟩ := hnew l (hok.price _ hmem) (hok.qty _ hmem)
      exact hok.replace_head g1 g2 g3 g4

/-! ## The two methods through their common shape -/

theorem add_buy_order_eq (S : StdSort) (ob : OrderBook) (o : Order) :
    add_buy_order S ob o =
      ((cross_and_rest S true o.instrument o (ob o.instrument).sell_orders
          (ob o.instrument).buy_orders (ob o.instrument).trades).1.order,
        Function.update ob o.instrument
          ⟨(cross_and_rest S true o.instrument o (ob o.instrument).sell_orders
              (ob o.instrument).buy_orders (ob o.instrument).trades).2,
            (cross_and_rest S true o.instrument o (ob o.instrument).sell_orders
              (ob o.instrument).buy_orders (ob o.instrument).trades).1.book,
            (cross_and_rest S true o.instrument o (ob o.instrument).sell_orders
              (ob o.instrument).buy_orders (ob o.instrument).trades).1.trades⟩) := by
  have hc : ∀ (x : Order) (lv : Levels),
      push_and_sort S (fun a b => a > b) x lv = push_and_sort S (ahead (!true)) x lv :=
    fun x lv => push_and_sort_congr S (fun a b => by simp [ahead]) x lv
  simp only [add_buy_order, cross_and_rest, buy_body_eq, hc]

theorem add_sell_order_eq (S : StdSort) (ob : OrderBook) (o : Order) :
    add_sell_order S ob o =
      ((cross_and_rest S false o.instrument o (ob o.instrument).buy_orders
          (ob o.instrument).sell_orders (ob o.instrument).trades).1.order,
        Function.update ob o.instrument
          ⟨(cross_and_rest S false o.instrument o (ob o.instrument).buy_orders
              (ob o.instrument).sell_orders (ob o.instrument).trades).1.book,
            (cross_and_rest S false o.instrument o (ob o.instrument).buy_orders
              (ob o.instrument).sell_orders (ob o.instrument).trades).2,
            (cross_and_rest S false o.instrument o (ob o.instrument).buy_orders
              (ob o.instrument).sell_orders (ob o.instrument).trades).1.trades⟩) := by
  have hc : ∀ (x : Order) (lv : Levels),
      push_and_sort S (fun a b => a < b) x lv = push_and_sort S (ahead (!false)) x lv :=
    fun x lv => push_and_sort_congr S (fun a b => by simp [ahead]) x lv
  simp only [add_sell_order, cross_and_rest, sell_body_eq, hc]

/-- The outcome of `add_order` for a buy. -/
theorem add_order_buy (S : StdSort) (ob : OrderBook) (o : Order) (h : o.side = "BUY") :
    (add_order S ob o).trades =
        (cross_and_rest S true o.instrument o (ob o.instrument).sell_orders
          (ob o.instrument).buy_orders []).1.trades ∧
      (add_order S ob o).order =
        (cross_and_rest S true o.instrument o (ob o.instrument).sell_orders
          (ob o.instrument).buy_orders []).1.order ∧
      (add_order S ob o).book = Function.update ob o.instrument
        ⟨(cross_and_rest S true o.instrument o (ob o.instrument).sell_orders
            (ob o.instrument).buy_orders []).2,
          (cross_and_rest S true o.instrument o (ob o.instrument).sell_orders
            (ob o.instrument).buy_orders []).1.book,
          (cross_and_rest S true o.instrument o (ob o.instrument).sell_orders
            (ob o.instrument).buy_orders []).1.trades⟩ := by
  simp only [add_order, h, if_true, add_buy_order_eq, Function.update_same,
    Function.update_idem, and_self]

/-- The outcome of `add_order` for a sell. -/
theorem add_order_sell (S : StdSort) (ob : OrderBook) (o : Order) (h : o.side = "SELL") :
    (add_order S ob o).trades =
        (cross_and_rest S false o.instrument o (ob o.instrument).buy_orders
          (ob o.instrument).sell_orders []).1.trades ∧
      (add_order S ob o).order =
        (cross_and_rest S false o.instrument o (ob o.instrument).buy_orders
          (ob o.instrument).sell_orders []).1.order ∧
      (add_order S ob o).book = Function.update ob o.instrument
        ⟨(cross_and_rest S false o.instrument o (ob o.instrument).buy_orders
            (ob o.instrument).sell_orders []).1.book,
          (cross_and_rest S false o.instrument o (ob o.instrument).buy_orders
            (ob o.instrument).sell_orders []).2,
          (cross_and_rest S false o.instrument o (ob o.instrument).buy_orders
            (ob o.instrument).sell_orders []).1.trades⟩ := by
  have hne : ¬ ("SELL" = "BUY") := by decide
  simp only [add_order, h, hne, if_false, if_true, add_sell_order_eq, Function.update_same,
    Function.update_idem, and_self]

/-- The outcome of `add_order` for any other side. -/
theorem add_order_other (S : StdSort) (ob : OrderBook) (o : Order) (h1 : o.side ≠ "BUY")
    (h2 : o.side ≠ "SELL") :
    (add_order S ob o).trades = [] ∧ (add_order S ob o).order = o ∧
      (add_order S ob o).book =
        Function.update ob o.instrument { ob o.instrument with trades := [] } := by
  simp only [add_order, h1, h2, if_false, Function.update_same, and_self]

/-! ## Reachable books are well formed -/

theorem cross_and_rest_exits (S : StdSort) (buy : Bool) (instrument : String) (o : Order)
    (opp own : Levels) (T : List Trade) :
    cross_body buy instrument (cross_and_rest S buy instrument o opp own T).1 = none :=
  cross_loop_exits buy instrument _ _ (measure_le_bound o opp T)

theorem cross_and_rest_trades (S : StdSort) (buy : Bool) (instrument : String) (o : Order)
    (opp own : Levels) (T : List Trade) :
    (cross_and_rest S buy instrument o opp own T).1.trades =
      T ++ fills buy instrument o o.quantity (resting (eligible buy o.price opp)) :=
  (cross_loop_spec buy instrument _ _ (measure_le_bound o opp T)).1

theorem cross_and_rest_resting (S : StdSort) (buy : Bool) (instrument : String) (o : Order)
    (opp own : Levels) (T : List Trade) :
    resting (cross_and_rest S buy instrument o opp own T).1.book =
      leftover o.quantity (resting (eligible buy o.price opp)) ++
        resting (beyond buy o.price opp) :=
  (cross_loop_spec buy instrument _ _ (measure_le_bound o opp T)).2.1

theorem cross_and_rest_order (S : StdSort) (buy : Bool) (instrument : String) (o : Order)
    (opp own : Levels) (T : List Trade) :
    (cross_and_rest S buy instrument o opp own T).1.order =
      ⟨o.order_id, o.instrument, o.side, o.price,
        left_qty o.quantity (resting (eligible buy o.price opp)), o.timestamp⟩ :=
  (cross_loop_spec buy instrument _ _ (measure_le_bound o opp T)).2.2

theorem cross_and_rest_own (S : StdSort) (buy : Bool) (instrument : String) (o : Order)
    (opp own : Levels) (T : List Trade) :
    (cross_and_rest S buy instrument o opp own T).2 =
      if 0 < (cross_and_rest S buy instrument o opp own T).1.order.quantity then
        push_and_sort S (ahead (!buy)) (cross_and_rest S buy instrument o opp own T).1.order own
      else own := rfl

/-- Crossing and resting keeps both sides of an instrument well formed and apart. -/
theorem cross_and_rest_ok (S : StdSort) (buy : Bool) (instrument : String) (o : Order)
    (opp own : Levels) (T : List Trade) (hopp : SideOK buy opp) (hown : SideOK (!buy) own)
    (hx : ∀ a ∈ own, ∀ b ∈ opp, ahead buy a.1 b.1) :
    SideOK buy (cross_and_rest S buy instrument o opp own T).1.book ∧
      SideOK (!buy) (cross_and_rest S buy instrument o opp own T).2 ∧
      ∀ a ∈ (cross_and_rest S buy instrument o opp own T).2,
        ∀ b ∈ (cross_and_rest S buy instrument o opp own T).1.book, ahead buy a.1 b.1 := by
  have hfin : SideOK buy (cross_and_rest S buy instrument o opp own T).1.book :=
    cross_loop_sideOK buy instrument _ ⟨o, opp, T⟩ hopp
  have hsub : ∀ e ∈ (cross_and_rest S buy instrument o opp own T).1.book,
      ∃ e' ∈ opp, e'.1 = e.1 := cross_loop_keys_subset buy instrument _ ⟨o, opp, T⟩
  have hold : ∀ a ∈ own, ∀ b ∈ (cross_and_rest S buy instrument o opp own T).1.book,
      ahead buy a.1 b.1 := by
    intro a ha b hb
    obtain ⟨b', hb', hk⟩ := hsub b hb
    rw [← hk]
    exact hx a ha b' hb'
  refine ⟨hfin, ?_, ?_⟩
  · rw [cross_and_rest_own]
    split_ifs with hq
    · exact push_and_sort_sideOK S (!buy) _ hq own hown
    · exact hown
  · rw [cross_and_rest_own]
    split_ifs with hq
    · intro a ha b hb
      rcases push_and_sort_keys S (!buy) _ own a ha with h | ⟨a', ha', h⟩
      · rw [h]
        exact beyond_of_exit hfin (cross_and_rest_exits S buy instrument o opp own T) hq b hb
      · rw [← h]
        exact hold a' ha' b hb
    · exact hold

theorem bookOK_empty : BookOK InstrumentBook.empty :=
  ⟨SideOK.nil false, SideOK.nil true, by simp [InstrumentBook.empty]⟩

/-- The method `add_order` keeps every instrument book well formed. -/
theorem add_order_bookOK (S : StdSort) (ob : OrderBook) (o : Order)
    (h : ∀ i, BookOK (ob i)) : ∀ i, BookOK ((add_order S ob o).book i) := by
  intro i
  by_cases hb : o.side = "BUY"
  · rw [(add_order_buy S ob o hb).2.2]
    by_cases hi : i = o.instrument
    · subst hi
      rw [Function.update_same]
      obtain ⟨h1, h2, h3⟩ := cross_and_rest_ok S true o.instrument o
        (ob o.instrument).sell_orders (ob o.instrument).buy_orders [] (h _).asks (h _).bids
        (fun a ha b hb => by simpa [ahead] using (h _).uncrossed a ha b hb)
      exact ⟨h2, h1, fun a ha b hb => by simpa [ahead] using h3 a ha b hb⟩
    · rw [Function.update_noteq hi]
      exact h i
  · by_cases hs : o.side = "SELL"
    · rw [(add_order_sell S ob o hs).2.2]
      by_cases hi : i = o.instrument
      · subst hi
        rw [Function.update_same]
        obtain ⟨h1, h2, h3⟩ := cross_and_rest_ok S false o.instrument o
          (ob o.instrument).buy_orders (ob o.instrument).sell_orders [] (h _).bids (h _).asks
          (fun a ha b hb => by simpa [ahead] using (h _).uncrossed b hb a ha)
        exact ⟨h1, h2, fun a ha b hb => by simpa [ahead] using h3 b hb a ha⟩
      · rw [Function.update_noteq hi]
        exact h i
    · rw [(add_order_other S ob o hb hs).2.2]
      by_cases hi : i = o.instrument
      · subst hi
        rw [Function.update_same]
        exact ⟨(h _).bids, (h _).asks, (h _).uncrossed⟩
      · rw [Function.update_noteq hi]
        exact h i

/-- Every reachable book is well formed. -/
theorem Reachable.bookOK {S : StdSort} {ob : OrderBook} (h : Reachable S ob) :
    ∀ i, BookOK (ob i) := by
  induction h with
  | empty => intro i; exact bookOK_empty
  | step o _ ih => exact add_order_bookOK S _ o ih

theorem submit_all_append (S : StdSort) (ob : OrderBook) (os : List Order) (o : Order) :
    submit_all S ob (os ++ [o]) = (add_order S (submit_all S ob os) o).book := by
  simp [submit_all, List.foldl_append]

theorem submit_all_reachable (S : StdSort) {ob : OrderBook} (h : Reachable S ob) :
    ∀ os : List Order, Reachable S (submit_all S ob os) := by
  intro os
  induction os generalizing ob with
  | nil => exact h
  | cons o os ih => exact ih (Reachable.step o h)

theorem reachable_iff (S : StdSort) (ob : OrderBook) :
    Reachable S ob ↔ ∃ os : List Order, ob = submit_all S OrderBook.empty os := by
  constructor
  · intro h
    induction h with
    | empty => exact ⟨[], rfl⟩
    | step o _ ih =>
      obtain ⟨os, hos⟩ := ih
      exact ⟨os ++ [o], by rw [submit_all_append, hos]⟩
  · rintro ⟨os, rfl⟩
    exact submit_all_reachable S Reachable.empty os

/-! ## Properties of the trades -/

theorem mk_trade_quantity (buy : Bool) (instrument : String) (o r : Order) (q : Int) :
    (mk_trade buy instrument o r q).quantity = q := by
  cases buy <;> rfl

theorem mk_trade_price (buy : Bool) (instrument : String) (o r : Order) (q : Int) :
    (mk_trade buy instrument o r q).price = r.price := by
  cases buy <;> rfl

theorem mk_trade_instrument (buy : Bool) (instrument : String) (o r : Order) (q : Int) :
    (mk_trade buy instrument o r q).instrument = instrument := by
  cases buy <;> rfl

theorem traded_nil : traded [] = 0 := rfl

theorem traded_cons (t : Trade) (ts : List Trade) : traded (t :: ts) = t.quantity + traded ts := by
  simp [traded]

/-- The quantity traded and the quantity left add up to the incoming quantity. -/
theorem traded_fills (buy : Bool) (instrument : String) (o : Order) :
    ∀ (F : List Order) (q : Int),
      traded (fills buy instrument o q F) + left_qty q F = q := by
  intro F
  induction F with
  | nil => intro q; simp [fills, left_qty, traded_nil]
  | cons r F ih =>
    intro q
    simp only [fills, left_qty]
    split_ifs with h1 h2
    · rw [traded_cons, mk_trade_quantity]
      have := ih (q - min q r.quantity)
      omega
    · rw [traded_cons, mk_trade_quantity, traded_nil]
      omega
    · rw [traded_nil]; omega

/-- The quantity left is never negative. -/
theorem left_qty_nonneg : ∀ (F : List Order) (q : Int), 0 ≤ q → 0 ≤ left_qty q F := by
  intro F
  induction F with
  | nil => intro q hq; simpa [left_qty] using hq
  | cons r F ih =>
    intro q hq
    simp only [left_qty]
    have hm := min_le_left q r.quantity
    split_ifs with h1 h2
    · exact ih _ (by omega)
    · omega
    · exact hq

/-- The `i`-th trade is made against the `i`-th resting order. -/
theorem fills_getElem (buy : Bool) (instrument : String) (o : Order) :
    ∀ (F : List Order) (q : Int) (i : Nat) (t : Trade),
      (fills buy instrument o q F)[i]? = some t →
        ∃ r, F[i]? = some r ∧ t = mk_trade buy instrument o r t.quantity ∧
          (i + 1 < (fills buy instrument o q F).length → t.quantity = r.quantity) := by
  intro F
  induction F with
  | nil => intro q i t h; simp [fills] at h
  | cons r F ih =>
    intro q i t h
    simp only [fills] at h ⊢
    split_ifs at h ⊢ with h1 h2
    · cases i with
      | zero =>
        simp only [List.getElem?_cons_zero, Option.some.injEq] at h
        subst h
        refine ⟨r, by simp, by rw [mk_trade_quantity], fun _ => ?_⟩
        rw [mk_trade_quantity]; omega
      | succ i =>
        simp only [List.getElem?_cons_succ] at h
        obtain ⟨r', hr', ht, hfull⟩ := ih _ i t h
        refine ⟨r', by simpa using hr', ht, fun hlen => hfull ?_⟩
        simpa using hlen
    · cases i with
      | zero =>
        simp only [List.getElem?_cons_zero, Option.some.injEq] at h
        subst h
        refine ⟨r, by simp, by rw [mk_trade_quantity], fun hlen => ?_⟩
        simp at hlen
      | succ i => simp at h
    · simp at h

/-- Against resting orders of positive quantity every trade has a positive quantity. -/
theorem fills_pos (buy : Bool) (instrument : String) (o : Order) :
    ∀ (F : List Order) (q : Int), (∀ r ∈ F, 0 < r.quantity) →
      ∀ t ∈ fills buy instrument o q F, 0 < t.quantity := by
  intro F
  induction F with
  | nil => intro q _ t ht; simp [fills] at ht
  | cons r F ih =>
    intro q hF t ht
    simp only [fills] at ht
    have hr := hF r (List.mem_cons_self _ _)
    split_ifs at ht with h1 h2
    · rcases List.mem_cons.mp ht with rfl | ht
      · rw [mk_trade_quantity]; exact lt_min h1 hr
      · exact ih _ (fun x hx => hF x (List.mem_cons_of_mem _ hx)) t ht
    · rw [List.mem_singleton] at ht
      subst ht
      rw [mk_trade_quantity]; exact lt_min h1 hr
    · simp at ht

theorem fills_length_le (buy : Bool) (instrument : String) (o : Order) :
    ∀ (F : List Order) (q : Int), (fills buy instrument o q F).length ≤ F.length := by
  intro F
  induction F with
  | nil => intro q; simp [fills]
  | cons r F ih =>
    intro q
    simp only [fills]
    split_ifs
    · simpa using ih _
    · simp
    · simp

/-- Every order left is an order that rested before, in front of nothing that was
traded against, with at most its quantity changed. -/
theorem leftover_mem (buy : Bool) (instrument : String) (o : Order) :
    ∀ (F : List Order) (q : Int), ∀ x ∈ leftover q F,
      ∃ j r, (fills buy instrument o q F).length ≤ j + 1 ∧ F[j]? = some r ∧
        x = ⟨r.order_id, r.instrument, r.side, r.price, x.quantity, r.timestamp⟩ := by
  have hmem : ∀ (F : List Order) (x : Order), x ∈ F → ∃ j : Nat, F[j]? = some x := by
    intro F x hx
    obtain ⟨j, hj⟩ := List.mem_iff_getElem?.mp hx
    exact ⟨j, hj⟩
  intro F
  induction F with
  | nil => intro q x hx; simp [leftover] at hx
  | cons r F ih =>
    intro q x hx
    simp only [leftover] at hx
    simp only [fills]
    split_ifs at hx ⊢ with h1 h2
    · obtain ⟨j, r', hj, hr', hx'⟩ := ih _ x hx
      exact ⟨j + 1, r', by simpa using hj, by simpa using hr', hx'⟩
    · rcases List.mem_cons.mp hx with rfl | hx
      · exact ⟨0, r, by simp, by simp, rfl⟩
      · obtain ⟨j, hj⟩ := hmem F x hx
        exact ⟨j + 1, x, by simp, by simpa using hj, rfl⟩
    · obtain ⟨j, hj⟩ := hmem (r :: F) x hx
      exact ⟨j, x, by simp, hj, rfl⟩

theorem resting_eligible_beyond (buy : Bool) (limit : ℚ) (lv : Levels) :
    resting (eligible buy limit lv) ++ resting (beyond buy limit lv) = resting lv := by
  rw [← resting_append]
  simp [eligible, beyond, List.takeWhile_append_dropWhile]

theorem mem_eligible {buy : Bool} {limit : ℚ} {lv : Levels} {e : ℚ × List Order}
    (h : e ∈ eligible buy limit lv) : e ∈ lv ∧ ¬ ahead buy limit e.1 := by
  refine ⟨List.takeWhile_subset _ h, ?_⟩
  have := List.mem_takeWhile_imp h
  simpa using this

/-! ## Conservation of quantity -/

theorem cross_and_rest_left (S : StdSort) (buy : Bool) (instrument : String) (o : Order)
    (opp own : Levels) :
    (cross_and_rest S buy instrument o opp own []).1.order =
      ⟨o.order_id, o.instrument, o.side, o.price,
        o.quantity - traded (cross_and_rest S buy instrument o opp own []).1.trades,
        o.timestamp⟩ := by
  rw [cross_and_rest_order, cross_and_rest_trades, List.nil_append]
  have := traded_fills buy instrument o (resting (eligible buy o.price opp)) o.quantity
  congr 1
  omega

theorem cross_and_rest_traded_le (S : StdSort) (buy : Bool) (instrument : String) (o : Order)
    (opp own : Levels) (hq : 0 ≤ o.quantity) :
    traded (cross_and_rest S buy instrument o opp own []).1.trades ≤ o.quantity := by
  rw [cross_and_rest_trades, List.nil_append]
  have h1 := traded_fills buy instrument o (resting (eligible buy o.price opp)) o.quantity
  have h2 := left_qty_nonneg (resting (eligible buy o.price opp)) o.quantity hq
  omega

/-- Every order resting on the crossed side after the loop rested there before, with at
most its quantity changed. -/
theorem cross_and_rest_opp_mem (S : StdSort) (buy : Bool) (instrument : String) (o : Order)
    (opp own : Levels) (T : List Trade) :
    ∀ x ∈ resting (cross_and_rest S buy instrument o opp own T).1.book,
      ∃ y ∈ resting opp,
        x = ⟨y.order_id, y.instrument, y.side, y.price, x.quantity, y.timestamp⟩ := by
  intro x hx
  rw [cross_and_rest_resting] at hx
  rcases List.mem_append.mp hx with h | h
  · obtain ⟨j, r, _, hr, hxr⟩ :=
      leftover_mem buy instrument o (resting (eligible buy o.price opp)) o.quantity x h
    refine ⟨r, ?_, hxr⟩
    rw [← resting_eligible_beyond buy o.price opp]
    exact List.mem_append_left _ (List.mem_iff_getElem?.mpr ⟨j, hr⟩)
  · refine ⟨x, ?_, rfl⟩
    rw [← resting_eligible_beyond buy o.price opp]
    exact List.mem_append_right _ h

/-- Generic form of quantity conservation for either method. -/
theorem cross_and_rest_conservation (S : StdSort) (buy : Bool) (instrument : String)
    (o : Order) (opp own : Levels) (hq : 0 < o.quantity) :
    traded (cross_and_rest S buy instrument o opp own []).1.trades ≤ o.quantity ∧
      (cross_and_rest S buy instrument o opp own []).1.order =
        ⟨o.order_id, o.instrument, o.side, o.price,
          o.quantity - traded (cross_and_rest S buy instrument o opp own []).1.trades,
          o.timestamp⟩ ∧
      (0 < o.quantity - traded (cross_and_rest S buy instrument o opp own []).1.trades →
        ∃ l, (o.price, l) ∈ (cross_and_rest S buy instrument o opp own []).2 ∧
          (⟨o.order_id, o.instrument, o.side, o.price,
            o.quantity - traded (cross_and_rest S buy instrument o opp own []).1.trades,
            o.timestamp⟩ : Order) ∈ l) ∧
      (o.quantity - traded (cross_and_rest S buy instrument o opp own []).1.trades = 0 →
        (cross_and_rest S buy instrument o opp own []).2 = own ∧
          ∀ x ∈ resting (cross_and_rest S buy instrument o opp own []).1.book,
            ∃ y ∈ resting opp,
              x = ⟨y.order_id, y.instrument, y.side, y.price, x.quantity, y.timestamp⟩) := by
  have hleft := cross_and_rest_left S buy instrument o opp own
  refine ⟨cross_and_rest_traded_le S buy instrument o opp own (le_of_lt hq), hleft, ?_, ?_⟩
  · intro hpos
    have hq' : 0 < (cross_and_rest S buy instrument o opp own []).1.order.quantity := by
      rw [hleft]; exact hpos
    rw [cross_and_rest_own, if_pos hq', hleft]
    exact push_and_sort_holds S (!buy) _ own
  · intro hzero
    have hq' : ¬ 0 < (cross_and_rest S buy instrument o opp own []).1.order.quantity := by
      rw [hleft]; simp [hzero]
    refine ⟨?_, cross_and_rest_opp_mem S buy instrument o opp own []⟩
    rw [cross_and_rest_own, if_neg hq']

/-! ## The order every trade is made against -/

theorem SideOK.resting_pos {buy : Bool} {lv : Levels} (h : SideOK buy lv) :
    ∀ r ∈ resting lv, 0 < r.quantity := by
  intro r hr
  obtain ⟨e, he, hre⟩ := mem_resting.mp hr
  exact h.qty e he r hre

/-- The `i`-th trade of a loop started on an empty log is made against the `i`-th
resting order of the crossed side, which lies in a level within the limit. -/
theorem cross_and_rest_nth (S : StdSort) (buy : Bool) (instrument : String) (o : Order)
    (opp own : Levels) (i : Nat) (t : Trade)
    (h : (cross_and_rest S buy instrument o opp own []).1.trades[i]? = some t) :
    ∃ r, (resting opp)[i]? = some r ∧ t = mk_trade buy instrument o r t.quantity ∧
      (i + 1 < (cross_and_rest S buy instrument o opp own []).1.trades.length →
        t.quantity = r.quantity) ∧
      ∃ e ∈ opp, r ∈ e.2 ∧ ¬ ahead buy o.price e.1 := by
  rw [cross_and_rest_trades, List.nil_append] at h ⊢
  obtain ⟨r, hr, ht, hfull⟩ := fills_getElem buy instrument o _ _ i t h
  have hmem : r ∈ resting (eligible buy o.price opp) := List.getElem?_mem hr
  obtain ⟨e, he, hre⟩ := mem_resting.mp hmem
  obtain ⟨he1, he2⟩ := mem_eligible he
  refine ⟨r, ?_, ht, hfull, e, he1, hre, he2⟩
  rw [← resting_eligible_beyond buy o.price opp]
  have hlt : i < (resting (eligible buy o.price opp)).length := by
    by_contra hc
    rw [List.getElem?_eq_none (not_lt.mp hc)] at hr
    exact absurd hr (by simp)
  rw [List.getElem?_append_left hlt]
  exact hr

/-! ## The trade log -/

/-- The trades a loop appends do not depend on the log it starts from. -/
theorem while_loop_log (buy : Bool) (instrument : String) (o : Order) (opp : Levels)
    (T : List Trade) :
    (while_loop (cross_body buy instrument) (loop_bound opp) ⟨o, opp, T⟩).trades =
      T ++ (while_loop (cross_body buy instrument) (loop_bound opp) ⟨o, opp, []⟩).trades := by
  rw [(cross_loop_spec buy instrument _ _ (measure_le_bound o opp T)).1,
    (cross_loop_spec buy instrument _ _ (measure_le_bound o opp [])).1, List.nil_append]

/-! ## Timestamps under increasing submissions -/

theorem leftover_times_sublist :
    ∀ (F : List Order) (q : Int),
      List.Sublist ((leftover q F).map (fun r => r.timestamp))
        (F.map (fun r => r.timestamp)) := by
  intro F
  induction F with
  | nil => intro q; simp [leftover]
  | cons r F ih =>
    intro q
    simp only [leftover]
    split_ifs with h1 h2
    · exact (ih _).trans (by simp)
    · simp
    · simp

/-- A resting order behind all those traded against is left as it is. -/
theorem leftover_keeps (buy : Bool) (instrument : String) (o : Order) :
    ∀ (F : List Order) (q : Int) (j : Nat) (x : Order),
      (fills buy instrument o q F).length ≤ j → F[j]? = some x → x ∈ leftover q F := by
  intro F
  induction F with
  | nil => intro q j x _ hx; simp at hx
  | cons r F ih =>
    intro q j x hj hx
    simp only [fills] at hj
    simp only [leftover]
    split_ifs at hj ⊢ with h1 h2
    · cases j with
      | zero => simp at hj
      | succ j =>
        simp only [List.getElem?_cons_succ] at hx
        exact ih _ j x (by simpa using hj) hx
    · cases j with
      | zero => simp at hj
      | succ j =>
        simp only [List.getElem?_cons_succ] at hx
        exact List.mem_cons_of_mem _ (List.getElem?_mem hx)
    · exact List.getElem?_mem hx

/-- The resting orders of a map after a push: the pushed order and the old ones. -/
theorem resting_push_perm (S : StdSort) (buy : Bool) (o : Order) :
    ∀ lv : Levels, List.Perm (resting (push_and_sort S (ahead buy) o lv)) (o :: resting lv) := by
  intro lv
  induction lv with
  | nil =>
    simp only [push_and_sort, resting_cons, resting_nil, List.append_nil, List.nil_append]
    exact S.perm [o]
  | cons e rest ih =>
    obtain ⟨p, l⟩ := e
    simp only [push_and_sort]
    split_ifs with h1 h2
    · simp only [resting_cons, List.nil_append]
      exact List.Perm.append_right _ (S.perm [o])
    · simp only [resting_cons]
      exact (List.Perm.append_left l ih).trans List.perm_middle
    · simp only [resting_cons]
      refine (List.Perm.append_right _ (S.perm (l ++ [o]))).trans ?_
      rw [List.append_assoc, List.singleton_append]
      exact List.perm_middle

/-- Crossing and resting keeps timestamps distinct when the incoming order is younger
than every resting order. -/
theorem cross_and_rest_times (S : StdSort) (buy : Bool) (instrument : String) (o : Order)
    (opp own : Levels) (T : List Trade) (hopp : (times opp).Nodup) (hown : (times own).Nodup)
    (hnew : ∀ r ∈ resting own, r.timestamp < o.timestamp) :
    (times (cross_and_rest S buy instrument o opp own T).1.book).Nodup ∧
      (times (cross_and_rest S buy instrument o opp own T).2).Nodup ∧
      (∀ r ∈ resting (cross_and_rest S buy instrument o opp own T).1.book,
        ∃ r' ∈ resting opp, r.timestamp = r'.timestamp) ∧
      (∀ r ∈ resting (cross_and_rest S buy instrument o opp own T).2,
        r.timestamp = o.timestamp ∨ r ∈ resting own) := by
  have hts : (cross_and_rest S buy instrument o opp own T).1.order.timestamp = o.timestamp := by
    rw [cross_and_rest_order]
  refine ⟨?_, ?_, ?_, ?_⟩
  · refine List.Nodup.sublist ?_ hopp
    simp only [times]
    rw [cross_and_rest_resting, ← resting_eligible_beyond buy o.price opp, List.map_append,
      List.map_append]
    exact List.Sublist.append (leftover_times_sublist _ _) (List.Sublist.refl _)
  · rw [cross_and_rest_own]
    split_ifs with hq
    · simp only [times]
      rw [((resting_push_perm S (!buy) _ own).map _).nodup_iff, List.map_cons,
        List.nodup_cons]
      refine ⟨?_, hown⟩
      intro hmem
      obtain ⟨r, hr, hrt⟩ := List.mem_map.mp hmem
      have := hnew r hr
      rw [hrt, hts] at this
      exact lt_irrefl _ this
    · exact hown
  · intro r hr
    obtain ⟨y, hy, hxy⟩ := cross_and_rest_opp_mem S buy instrument o opp own T r hr
    exact ⟨y, hy, by rw [hxy]⟩
  · intro r hr
    rw [cross_and_rest_own] at hr
    split_ifs at hr with hq
    · rcases List.mem_cons.mp ((resting_push_perm S (!buy) _ own).mem_iff.mp hr) with h | h
      · left; rw [h, hts]
      · right; exact h
    · right; exact hr

theorem timesOK_empty : TimesOK InstrumentBook.empty :=
  ⟨by simp [InstrumentBook.empty, times, resting], by simp [InstrumentBook.empty, times, resting]⟩

/-- One call of `add_order` with an order younger than all resting ones keeps the
timestamps distinct, and every order resting afterwards is at most as young as it. -/
theorem add_order_times (S : StdSort) (ob : OrderBook) (o : Order)
    (h : ∀ i, TimesOK (ob i))
    (hnew : ∀ i, ∀ r, r ∈ resting (ob i).buy_orders ∨ r ∈ resting (ob i).sell_orders →
      r.timestamp < o.timestamp) :
    (∀ i, TimesOK ((add_order S ob o).book i)) ∧
      ∀ i, ∀ r, r ∈ resting ((add_order S ob o).book i).buy_orders ∨
        r ∈ resting ((add_order S ob o).book i).sell_orders → r.timestamp ≤ o.timestamp := by
  by_cases hb : o.side = "BUY"
  · rw [(add_order_buy S ob o hb).2.2]
    obtain ⟨h1, h2, h3, h4⟩ := cross_and_rest_times S true o.instrument o
      (ob o.instrument).sell_orders (ob o.instrument).buy_orders [] (h _).asks (h _).bids
      (fun r hr => hnew _ r (Or.inl hr))
    constructor
    · intro i
      by_cases hi : i = o.instrument
      · subst hi; rw [Function.update_same]; exact ⟨h2, h1⟩
      · rw [Function.update_noteq hi]; exact h i
    · intro i r hr
      by_cases hi : i = o.instrument
      · subst hi
        rw [Function.update_same] at hr
        rcases hr with hr | hr
        · rcases h4 r hr with h | h
          · exact le_of_eq h
          · exact le_of_lt (hnew _ r (Or.inl h))
        · obtain ⟨r', hr', he⟩ := h3 r hr
          rw [he]; exact le_of_lt (hnew _ r' (Or.inr hr'))
      · rw [Function.update_noteq hi] at hr
        exact le_of_lt (hnew i r hr)
  · by_cases hs : o.side = "SELL"
    · rw [(add_order_sell S ob o hs).2.2]
      obtain ⟨h1, h2, h3, h4⟩ := cross_and_rest_times S false o.instrument o
        (ob o.instrument).buy_orders (ob o.instrument).sell_orders [] (h _).bids (h _).asks
        (fun r hr => hnew _ r (Or.inr hr))
      constructor
      · intro i
        by_cases hi : i = o.instrument
        · subst hi; rw [Function.update_same]; exact ⟨h1, h2⟩
        · rw [Function.update_noteq hi]; exact h i
      · intro i r hr
        by_cases hi : i = o.instrument
        · subst hi
          rw [Function.update_same] at hr
          rcases hr with hr | hr
          · obtain ⟨r', hr', he⟩ := h3 r hr
            rw [he]; exact le_of_lt (hnew _ r' (Or.inl hr'))
          · rcases h4 r hr with h | h
            · exact le_of_eq h
            · exact le_of_lt (hnew _ r (Or.inr h))
        · rw [Function.update_noteq hi] at hr
          exact le_of_lt (hnew i r hr)
    · rw [(add_order_other S ob o hb hs).2.2]
      constructor
      · intro i
        by_cases hi : i = o.instrument
        · subst hi; rw [Function.update_same]; exact ⟨(h _).bids, (h _).asks⟩
        · rw [Function.update_noteq hi]; exact h i
      · intro i r hr
        by_cases hi : i = o.instrument
        · subst hi
          rw [Function.update_same] at hr
          exact le_of_lt (hnew _ r hr)
        · rw [Function.update_noteq hi] at hr
          exact le_of_lt (hnew i r hr)

/-- Orders submitted with strictly increasing timestamps leave books whose resting
orders carry pairwise distinct timestamps. -/
theorem submit_all_times (S : StdSort) :
    ∀ (os : List Order) (ob : OrderBook),
      os.Pairwise (fun a b => a.timestamp < b.timestamp) →
      (∀ i, TimesOK (ob i)) →
      (∀ i, ∀ r, r ∈ resting (ob i).buy_orders ∨ r ∈ resting (ob i).sell_orders →
        ∀ o ∈ os, r.timestamp < o.timestamp) →
      ∀ i, TimesOK (submit_all S ob os i) := by
  intro os
  induction os with
  | nil => intro ob _ h _; exact h
  | cons o os ih =>
    intro ob hinc h hnew
    obtain ⟨ho, hos⟩ := List.pairwise_cons.mp hinc
    obtain ⟨h1, h2⟩ := add_order_times S ob o h
      (fun i r hr => hnew i r hr o (List.mem_cons_self _ _))
    exact ih (add_order S ob o).book hos h1
      (fun i r hr o' ho' => lt_of_le_of_lt (h2 i r hr) (ho o' ho'))

theorem submit_all_empty_times (S : StdSort) (os : List Order)
    (hinc : os.Pairwise (fun a b => a.timestamp < b.timestamp)) (i : String) :
    TimesOK (submit_all S OrderBook.empty os i) :=
  submit_all_times S os OrderBook.empty hinc (fun _ => timesOK_empty)
    (fun i r hr => by
      simp [OrderBook.empty, InstrumentBook.empty, resting] at hr) i

/-! ## Time priority in the loops -/

/-- In a vector ordered by timestamp the order with the smaller timestamp stands in
front. -/
theorem split_of_time_lt {l : List Order} {A B : Order}
    (hs : l.Pairwise (fun a b => ¬ b.timestamp < a.timestamp)) (hA : A ∈ l) (hB : B ∈ l)
    (hAB : A.timestamp < B.timestamp) : ∃ pre mid post, l = pre ++ A :: (mid ++ B :: post) := by
  obtain ⟨pre, post', rfl⟩ := List.append_of_mem hA
  rcases List.mem_append.mp hB with h | h
  · exact absurd hAB ((List.pairwise_append.mp hs).2.2 B h A (List.mem_cons_self _ _))
  · rcases List.mem_cons.mp h with h | h
    · rw [h] at hAB; exact absurd hAB (lt_irrefl _)
    · obtain ⟨mid, post, rfl⟩ := List.append_of_mem h
      exact ⟨pre, mid, post, rfl⟩

theorem getElem?_at_length {α : Type} (X : List α) (a : α) (Y : List α) :
    (X ++ a :: Y)[X.length]? = some a := by
  rw [List.getElem?_append_right (le_refl _)]
  simp

theorem nodup_times_ne {F : List Order} (h : (F.map (fun r => r.timestamp)).Nodup)
    {a j : Nat} {A r : Order} (ha : F[a]? = some A) (hj : F[j]? = some r) (hne : a ≠ j) :
    r.timestamp ≠ A.timestamp := by
  intro heq
  have h1 : (F.map (fun r => r.timestamp))[a]? = some A.timestamp := by
    rw [List.getElem?_map, ha]; rfl
  have h2 : (F.map (fun r => r.timestamp))[j]? = some A.timestamp := by
    rw [List.getElem?_map, hj, ← heq]; rfl
  have hla : a < (F.map (fun r => r.timestamp)).length := by
    by_contra hc
    rw [List.getElem?_eq_none (not_lt.mp hc)] at h1
    exact absurd h1 (by simp)
  have hlj : j < (F.map (fun r => r.timestamp)).length := by
    by_contra hc
    rw [List.getElem?_eq_none (not_lt.mp hc)] at h2
    exact absurd h2 (by simp)
  have hiff := List.nodup_iff_getElem?_ne_getElem?.mp h
  rcases Nat.lt_or_gt_of_ne hne with hlt | hgt
  · exact hiff a j hlt hlj (h1.trans h2.symm)
  · exact hiff j a hgt hla (h2.trans h1.symm)

/-- Time priority for either loop.  On a well-formed side with distinct timestamps, let
`A` and `B` rest in one level, `A` the older.  Then `A` stands in front of `B`, at some
places `a < b` of the priority order.  When the call makes fewer than `b + 1` trades,
`B` is left as it is.  When it makes a `b`-th trade, that trade is against `B`, the
`a`-th trade was against `A` for the whole quantity of `A`, and no order with the
timestamp of `A` rests afterwards. -/
theorem cross_and_rest_time_priority (S : StdSort) (buy : Bool) (instrument : String)
    (o : Order) (opp own : Levels) (hopp : SideOK buy opp) (hnd : (times opp).Nodup)
    (p : ℚ) (l : List Order) (A B : Order) (hl : (p, l) ∈ opp) (hA : A ∈ l) (hB : B ∈ l)
    (hAB : A.timestamp < B.timestamp) :
    (∃ pre mid post, l = pre ++ A :: (mid ++ B :: post)) ∧
      ∃ a b : Nat, a < b ∧ (resting opp)[a]? = some A ∧ (resting opp)[b]? = some B ∧
        ((cross_and_rest S buy instrument o opp own []).1.trades.length ≤ b →
          B ∈ resting (cross_and_rest S buy instrument o opp own []).1.book) ∧
        ∀ t, (cross_and_rest S buy instrument o opp own []).1.trades[b]? = some t →
          t = mk_trade buy instrument o B t.quantity ∧
          (cross_and_rest S buy instrument o opp own []).1.trades[a]? =
            some (mk_trade buy instrument o A A.quantity) ∧
          ∀ x ∈ resting (cross_and_rest S buy instrument o opp own []).1.book,
            x.timestamp ≠ A.timestamp := by
  obtain ⟨pre, mid, post, hsplit⟩ :
      ∃ pre mid post, l = pre ++ A :: (mid ++ B :: post) :=
    split_of_time_lt (hopp.time _ hl) hA hB hAB
  refine ⟨⟨pre, mid, post, hsplit⟩, ?_⟩
  obtain ⟨L1, L2, hL⟩ := List.append_of_mem hl
  have hF : resting opp =
      (resting L1 ++ pre) ++ A :: (mid ++ B :: (post ++ resting L2)) := by
    rw [hL, resting_append, resting_cons, hsplit]
    simp [List.append_assoc]
  have hF' : resting opp =
      ((resting L1 ++ pre) ++ A :: mid) ++ B :: (post ++ resting L2) := by
    rw [hF]; simp [List.append_assoc]
  have hnd' : ((resting opp).map (fun r => r.timestamp)).Nodup := hnd
  have ha : (resting opp)[(resting L1 ++ pre).length]? = some A := by
    rw [hF]; exact getElem?_at_length _ _ _
  have hb : (resting opp)[((resting L1 ++ pre) ++ A :: mid).length]? = some B := by
    rw [hF']; exact getElem?_at_length _ _ _
  have hab : (resting L1 ++ pre).length < ((resting L1 ++ pre) ++ A :: mid).length := by
    simp only [List.length_append, List.length_cons]; omega
  refine ⟨_, _, hab, ha, hb, ?_, ?_⟩
  · -- no trade at the place of `B`
    intro hlen
    rw [cross_and_rest_trades, List.nil_append] at hlen
    rw [cross_and_rest_resting]
    have hE := resting_eligible_beyond buy o.price opp
    rw [← hE] at hb
    rw [List.getElem?_append] at hb
    split_ifs at hb with hlt
    · exact List.mem_append_left _ (leftover_keeps buy instrument o _ _ _ B hlen hb)
    · exact List.mem_append_right _ (List.getElem?_mem hb)
  · intro t ht
    have hlenb : ((resting L1 ++ pre) ++ A :: mid).length <
        (cross_and_rest S buy instrument o opp own []).1.trades.length := by
      by_contra hc
      rw [List.getElem?_eq_none (not_lt.mp hc)] at ht
      exact absurd ht (by simp)
    obtain ⟨r, hr, htr, _⟩ := cross_and_rest_nth S buy instrument o opp own _ t ht
    rw [hb, Option.some.injEq] at hr
    subst hr
    refine ⟨htr, ?_, ?_⟩
    · have hlena : (resting L1 ++ pre).length <
          (cross_and_rest S buy instrument o opp own []).1.trades.length := by omega
      obtain ⟨r', hr', htr', hfull, _⟩ := cross_and_rest_nth S buy instrument o opp own _ _
        (List.getElem?_eq_getElem hlena)
      rw [ha, Option.some.injEq] at hr'
      subst hr'
      rw [List.getElem?_eq_getElem hlena, htr', hfull (by omega)]
    · intro x hx
      rw [cross_and_rest_resting] at hx
      rw [cross_and_rest_trades, List.nil_append] at hlenb
      have hE := resting_eligible_beyond buy o.price opp
      have hle := fills_length_le buy instrument o (resting (eligible buy o.price opp))
        o.quantity
      rcases List.mem_append.mp hx with h | h
      · obtain ⟨j, r, hj, hr, hxr⟩ := leftover_mem buy instrument o _ _ x h
        have hr' : (resting opp)[j]? = some r := by
          have hlt : j < (resting (eligible buy o.price opp)).length := by
            by_contra hc
            rw [List.getElem?_eq_none (not_lt.mp hc)] at hr
            exact absurd hr (by simp)
          rw [← hE, List.getElem?_append_left hlt]; exact hr
        have hts : x.timestamp = r.timestamp := by rw [hxr]
        rw [hts]
        exact nodup_times_ne hnd' ha hr' (by omega)
      · obtain ⟨j, hj⟩ := List.mem_iff_getElem?.mp h
        have hr' : (resting opp)[(resting (eligible buy o.price opp)).length + j]? =
            some x := by
          rw [← hE, List.getElem?_append_right (Nat.le_add_right _ _)]
          simpa using hj
        exact nodup_times_ne hnd' ha hr' (by omega)

/-! ## The scenario on time priority -/

theorem StdSort.run_singleton (S : StdSort) (x : Order) : S.run [x] = [x] :=
  List.perm_singleton.mp (S.perm [x])

theorem StdSort.run_pair (S : StdSort) {x y : Order} (h : x.timestamp < y.timestamp) :
    S.run [x, y] = [x, y] := by
  have hp := S.perm [x, y]
  have hs := S.sorted [x, y]
  have hlen := hp.length_eq
  match hl : S.run [x, y], hlen with
  | [a, b], _ =>
    rw [hl] at hp hs
    have ha : a ∈ [x, y] := hp.subset (List.mem_cons_self _ _)
    have hb : b ∈ [x, y] := hp.subset (List.mem_cons_of_mem _ (List.mem_cons_self _ _))
    have hx : x ∈ [a, b] := hp.symm.subset (List.mem_cons_self _ _)
    have hy : y ∈ [a, b] := hp.symm.subset (List.mem_cons_of_mem _ (List.mem_cons_self _ _))
    have hab : ¬ b.timestamp < a.timestamp := (List.pairwise_cons.mp hs).1 b (by simp)
    simp only [List.mem_cons, List.mem_singleton, List.not_mem_nil, or_false] at ha hb hx hy
    rcases ha with rfl | rfl
    · rcases hb with rfl | rfl
      · rcases hy with rfl | rfl <;> exact absurd h (lt_irrefl _)
      · rfl
    · rcases hb with rfl | rfl
      · exact absurd h hab
      · rcases hx with rfl | rfl <;> exact absurd h (lt_irrefl _)

/-- A buy into a book whose asks are empty rests without any trade. -/
theorem add_order_buy_no_asks (S : StdSort) (ob : OrderBook) (o : Order) (hb : o.side = "BUY")
    (hq : 0 < o.quantity) (hasks : (ob o.instrument).sell_orders = []) :
    (add_order S ob o).trades = [] ∧
      ((add_order S ob o).book o.instrument).buy_orders =
        push_and_sort S (ahead false) o (ob o.instrument).buy_orders ∧
      ((add_order S ob o).book o.instrument).sell_orders = [] := by
  obtain ⟨ht, _, hbk⟩ := add_order_buy S ob o hb
  rw [ht, hbk, Function.update_same, hasks]
  have hst : (cross_and_rest S true o.instrument o [] (ob o.instrument).buy_orders []).1 =
      ⟨o, [], []⟩ := by
    simp [cross_and_rest, loop_bound, resting, while_loop, cross_body]
  refine ⟨by rw [hst], ?_, by rw [hst]⟩
  rw [cross_and_rest_own, hst, if_pos hq]
  rfl

/-- The scenario on time priority, for all quantities. -/
theorem two_buys_then_sell (S : StdSort) (B2 B3 X : Order) (hb2 : B2.side = "BUY")
    (hb3 : B3.side = "BUY") (hx : X.side = "SELL") (hi3 : B3.instrument = B2.instrument)
    (hix : X.instrument = B2.instrument) (hp2 : B2.price = 50) (hp3 : B3.price = 50)
    (hpx : X.price ≤ 50) (ht : B2.timestamp < B3.timestamp) (hq2 : 0 < B2.quantity)
    (hq3 : 0 < B3.quantity) (h1 : B2.quantity < X.quantity)
    (h2 : X.quantity < B2.quantity + B3.quantity) :
    (submit_all S OrderBook.empty [B2, B3] B2.instrument).buy_orders = [(50, [B2, B3])] ∧
      (add_order S (submit_all S OrderBook.empty [B2, B3]) X).trades =
        [⟨B2.instrument, B2.order_id, X.order_id, 50, B2.quantity⟩,
          ⟨B2.instrument, B3.order_id, X.order_id, 50, X.quantity - B2.quantity⟩] ∧
      resting ((add_order S (submit_all S OrderBook.empty [B2, B3]) X).book
          B2.instrument).buy_orders =
        [⟨B3.order_id, B3.instrument, B3.side, B3.price,
          B3.quantity - (X.quantity - B2.quantity), B3.timestamp⟩] := by
  -- the book after the first buy
  obtain ⟨_, f2, f3⟩ := add_order_buy_no_asks S OrderBook.empty B2 hb2 hq2 rfl
  have f2' : ((add_order S OrderBook.empty B2).book B2.instrument).buy_orders =
      [(50, [B2])] := by
    rw [f2]
    simp [OrderBook.empty, InstrumentBook.empty, push_and_sort, hp2, S.run_singleton]
  -- the book after the second buy
  have g := add_order_buy_no_asks S (add_order S OrderBook.empty B2).book B3 hb3 hq3
    (by rw [hi3]; exact f3)
  rw [hi3] at g
  obtain ⟨_, g2, g3⟩ := g
  have hbook : (submit_all S OrderBook.empty [B2, B3] B2.instrument).buy_orders =
      [(50, [B2, B3])] := by
    show ((add_order S (add_order S OrderBook.empty B2).book B3).book B2.instrument).buy_orders
      = _
    rw [g2, f2']
    simp [push_and_sort, hp3, ahead, S.run_pair ht]
  refine ⟨hbook, ?_, ?_⟩
  · obtain ⟨kt, _, _⟩ := add_order_sell S (submit_all S OrderBook.empty [B2, B3]) X hx
    rw [kt, cross_and_rest_trades, hix, hbook]
    have he : eligible false X.price [((50 : ℚ), [B2, B3])] = [((50 : ℚ), [B2, B3])] := by
      simp [eligible, ahead, not_lt.mpr hpx]
    have hm1 : min X.quantity B2.quantity = B2.quantity := min_eq_right (le_of_lt h1)
    have hm2 : min (X.quantity - B2.quantity) B3.quantity = X.quantity - B2.quantity :=
      min_eq_left (by omega)
    have hpos : 0 < X.quantity := by omega
    have hpos2 : 0 < X.quantity - B2.quantity := by omega
    have hne : ¬ B3.quantity - (X.quantity - B2.quantity) = 0 := by omega
    simp [he, resting, fills, hm1, hm2, hpos, hpos2, hne, mk_trade, hp2, hp3]
  · obtain ⟨_, _, kb⟩ := add_order_sell S (submit_all S OrderBook.empty [B2, B3]) X hx
    rw [kb, hix, Function.update_same]
    rw [cross_and_rest_resting, hbook]
    have he : eligible false X.price [((50 : ℚ), [B2, B3])] = [((50 : ℚ), [B2, B3])] := by
      simp [eligible, ahead, not_lt.mpr hpx]
    have hby : beyond false X.price [((50 : ℚ), [B2, B3])] = [] := by
      simp [beyond, ahead, not_lt.mpr hpx]
    have hm1 : min X.quantity B2.quantity = B2.quantity := min_eq_right (le_of_lt h1)
    have hm2 : min (X.quantity - B2.quantity) B3.quantity = X.quantity - B2.quantity :=
      min_eq_left (by omega)
    have hpos : 0 < X.quantity := by omega
    have hpos2 : 0 < X.quantity - B2.quantity := by omega
    have hne : ¬ B3.quantity - (X.quantity - B2.quantity) = 0 := by omega
    simp [he, hby, resting, leftover, hm1, hm2, hpos, hpos2, hne]

/-! ## Resting orders and the submitted orders -/

theorem same_order_refl (x : Order) : same_order x x := rfl

theorem same_order_trans {x y z : Order} (h1 : same_order x y) (h2 : same_order y z) :
    same_order x z := by
  unfold same_order at *
  rw [h1, h2]

/-- Every order resting after a call of `add_order` is the submitted order or an order
that rested before the call, its quantity apart. -/
theorem add_order_resting_from (S : StdSort) (ob : OrderBook) (o : Order) (i : String)
    (r : Order)
    (hr : r ∈ resting ((add_order S ob o).book i).buy_orders ∨
      r ∈ resting ((add_order S ob o).book i).sell_orders) :
    same_order r o ∨
      ∃ r0, (r0 ∈ resting (ob i).buy_orders ∨ r0 ∈ resting (ob i).sell_orders) ∧
        same_order r r0 := by
  have hown : ∀ (buy : Bool) (opp own : Levels),
      r ∈ resting (cross_and_rest S buy o.instrument o opp own []).2 →
        same_order r o ∨ r ∈ resting own := by
    intro buy opp own hmem
    rw [cross_and_rest_own] at hmem
    split_ifs at hmem with hq
    · rcases List.mem_cons.mp ((resting_push_perm S (!buy) _ own).mem_iff.mp hmem) with h | h
      · left
        rw [h, cross_and_rest_order]
        rfl
      · exact Or.inr h
    · exact Or.inr hmem
  by_cases hi : i = o.instrument
  · subst hi
    by_cases hb : o.side = "BUY"
    · rw [(add_order_buy S ob o hb).2.2, Function.update_same] at hr
      rcases hr with hr | hr
      · rcases hown true _ _ hr with h | h
        · exact Or.inl h
        · exact Or.inr ⟨r, Or.inl h, same_order_refl r⟩
      · obtain ⟨y, hy, hxy⟩ := cross_and_rest_opp_mem S true _ o _ _ [] r hr
        exact Or.inr ⟨y, Or.inr hy, hxy⟩
    · by_cases hs : o.side = "SELL"
      · rw [(add_order_sell S ob o hs).2.2, Function.update_same] at hr
        rcases hr with hr | hr
        · obtain ⟨y, hy, hxy⟩ := cross_and_rest_opp_mem S false _ o _ _ [] r hr
          exact Or.inr ⟨y, Or.inl hy, hxy⟩
        · rcases hown false _ _ hr with h | h
          · exact Or.inl h
          · exact Or.inr ⟨r, Or.inr h, same_order_refl r⟩
      · rw [(add_order_other S ob o hb hs).2.2, Function.update_same] at hr
        exact Or.inr ⟨r, hr, same_order_refl r⟩
  · have hsame : (add_order S ob o).book i = ob i := by
      by_cases hb : o.side = "BUY"
      · rw [(add_order_buy S ob o hb).2.2, Function.update_noteq hi]
      · by_cases hs : o.side = "SELL"
        · rw [(add_order_sell S ob o hs).2.2, Function.update_noteq hi]
        · rw [(add_order_other S ob o hb hs).2.2, Function.update_noteq hi]
    rw [hsame] at hr
    exact Or.inr ⟨r, hr, same_order_refl r⟩

/-- Every order resting after a sequence of submissions is one of the submitted orders
or an order that rested before, its quantity apart. -/
theorem submit_all_resting_from (S : StdSort) (i : String) :
    ∀ (os : List Order) (ob : OrderBook) (r : Order),
      (r ∈ resting (submit_all S ob os i).buy_orders ∨
        r ∈ resting (submit_all S ob os i).sell_orders) →
      (∃ o ∈ os, same_order r o) ∨
        ∃ r0, (r0 ∈ resting (ob i).buy_orders ∨ r0 ∈ resting (ob i).sell_orders) ∧
          same_order r r0 := by
  intro os
  induction os with
  | nil => intro ob r hr; exact Or.inr ⟨r, hr, same_order_refl r⟩
  | cons o os ih =>
    intro ob r hr
    rcases ih (add_order S ob o).book r hr with ⟨o', ho', h⟩ | ⟨r0, hr0, h⟩
    · exact Or.inl ⟨o', List.mem_cons_of_mem _ ho', h⟩
    · rcases add_order_resting_from S ob o i r0 hr0 with h0 | ⟨r1, hr1, h1⟩
      · exact Or.inl ⟨o, List.mem_cons_self _ _, same_order_trans h h0⟩
      · exact Or.inr ⟨r1, hr1, same_order_trans h h1⟩

/-- Every order resting in a book reached from the empty one is one of the submitted
orders, its quantity apart. -/
theorem submit_all_empty_resting_from (S : StdSort) (os : List Order) (i : String) (r : Order)
    (hr : r ∈ resting (submit_all S OrderBook.empty os i).buy_orders ∨
      r ∈ resting (submit_all S OrderBook.empty os i).sell_orders) :
    ∃ o ∈ os, same_order r o := by
  rcases submit_all_resting_from S i os OrderBook.empty r hr with h | ⟨r0, hr0, _⟩
  · exact h
  · simp [OrderBook.empty, InstrumentBook.empty, resting] at hr0

/-- Of two orders resting after submissions with strictly increasing timestamps, the
one with the smaller timestamp was submitted first. -/
theorem submitted_before (S : StdSort) (os : List Order)
    (hinc : os.Pairwise (fun a b => a.timestamp < b.timestamp)) (i : String) (A B : Order)
    (hA : A ∈ resting (submit_all S OrderBook.empty os i).buy_orders ∨
      A ∈ resting (submit_all S OrderBook.empty os i).sell_orders)
    (hB : B ∈ resting (submit_all S OrderBook.empty os i).buy_orders ∨
      B ∈ resting (submit_all S OrderBook.empty os i).sell_orders)
    (hAB : A.timestamp < B.timestamp) :
    ∃ oA oB u v w, os = u ++ oA :: (v ++ oB :: w) ∧ same_order A oA ∧ same_order B oB := by
  obtain ⟨oA, hoA, hsA⟩ := submit_all_empty_resting_from S os i A hA
  obtain ⟨oB, hoB, hsB⟩ := submit_all_empty_resting_from S os i B hB
  have htA : A.timestamp = oA.timestamp := by rw [hsA]
  have htB : B.timestamp = oB.timestamp := by rw [hsB]
  obtain ⟨u, v, w, h⟩ := split_of_time_lt (hinc.imp (fun h => not_lt.mpr (le_of_lt h))) hoA hoB
    (by rw [← htA, ← htB]; exact hAB)
  exact ⟨oA, oB, u, v, w, h, hsA, hsB⟩

/-! ## Where the levels of a side come from -/

/-- Every level of the map after an iteration is a level of the map before it, at the
same price, and its orders are orders of that level, their quantity apart. -/
theorem Step.levels_from {buy : Bool} {instrument : String} {st st' : LoopState}
    (h : Step buy instrument st st') :
    ∀ e' ∈ st'.book, ∃ l, (e'.1, l) ∈ st.book ∧ ∀ x ∈ e'.2, ∃ y ∈ l, same_order x y := by
  cases h with
  | drop_level o p rest T hq hs =>
    intro e' he'
    exact ⟨e'.2, List.mem_cons_of_mem _ he', fun x hx => ⟨x, hx, same_order_refl x⟩⟩
  | fill_last o r p rest T hq hs hz =>
    intro e' he'
    exact ⟨e'.2, List.mem_cons_of_mem _ he', fun x hx => ⟨x, hx, same_order_refl x⟩⟩
  | fill o r p tail rest T hq hs hz ht =>
    intro e' he'
    rcases List.mem_cons.mp he' with rfl | he'
    · exact ⟨r :: tail, List.mem_cons_self _ _,
        fun x hx => ⟨x, List.mem_cons_of_mem _ hx, same_order_refl x⟩⟩
    · exact ⟨e'.2, List.mem_cons_of_mem _ he', fun x hx => ⟨x, hx, same_order_refl x⟩⟩
  | part o r p tail rest T hq hs hz =>
    intro e' he'
    rcases List.mem_cons.mp he' with rfl | he'
    · refine ⟨r :: tail, List.mem_cons_self _ _, fun x hx => ?_⟩
      rcases List.mem_cons.mp hx with rfl | hx
      · exact ⟨r, List.mem_cons_self _ _, rfl⟩
      · exact ⟨x, List.mem_cons_of_mem _ hx, same_order_refl x⟩
    · exact ⟨e'.2, List.mem_cons_of_mem _ he', fun x hx => ⟨x, hx, same_order_refl x⟩⟩

/-- Every level of the map a loop leaves is a level of the map it started on, at the
same price, and its orders are orders of that level, their quantity apart. -/
theorem cross_loop_levels_from (buy : Bool) (instrument : String) (n : Nat) (st : LoopState) :
    ∀ e' ∈ (while_loop (cross_body buy instrument) n st).book,
      ∃ l, (e'.1, l) ∈ st.book ∧ ∀ x ∈ e'.2, ∃ y ∈ l, same_order x y :=
  while_loop_inv
    (fun s => ∀ e' ∈ s.book, ∃ l, (e'.1, l) ∈ st.book ∧ ∀ x ∈ e'.2, ∃ y ∈ l, same_order x y)
    (fun s s' hs hb e' he' => by
      obtain ⟨l1, hl1, h1⟩ := (cross_body_some hb).levels_from e' he'
      obtain ⟨l0, hl0, h0⟩ := hs (e'.1, l1) hl1
      refine ⟨l0, hl0, fun x hx => ?_⟩
      obtain ⟨y, hy, hxy⟩ := h1 x hx
      obtain ⟨z, hz, hyz⟩ := h0 y hy
      exact ⟨z, hz, same_order_trans hxy hyz⟩)
    n st (fun e' he' => ⟨e'.2, he', fun x hx => ⟨x, hx, same_order_refl x⟩⟩)

/-- The levels of the matched side after a call of `add_order` come from the levels of
that side before the call. -/
theorem add_order_levels_from (S : StdSort) (ob : OrderBook) (o : Order) :
    ∀ e' ∈ opp_side o ((add_order S ob o).book o.instrument),
      ∃ l, (e'.1, l) ∈ opp_side o (ob o.instrument) ∧
        ∀ x ∈ e'.2, ∃ y ∈ l, same_order x y := by
  by_cases hb : o.side = "BUY"
  · rw [(add_order_buy S ob o hb).2.2, Function.update_same]
    simp only [opp_side, hb, if_true]
    exact cross_loop_levels_from true o.instrument _ ⟨o, _, []⟩
  · by_cases hs : o.side = "SELL"
    · rw [(add_order_sell S ob o hs).2.2, Function.update_same]
      simp only [opp_side, hb, if_false]
      exact cross_loop_levels_from false o.instrument _ ⟨o, _, []⟩
    · rw [(add_order_other S ob o hb hs).2.2, Function.update_same]
      simp only [opp_side, hb, if_false]
      intro e' he'
      exact ⟨e'.2, he', fun x hx => ⟨x, hx, same_order_refl x⟩⟩

/-! ## Normalisation and the prices of trades -/

/-- Uppercasing an uppercased character changes nothing. -/
theorem toupper_idem (c : Char) : toupper (toupper c) = toupper c := by
  by_cases h : 'a' ≤ c ∧ c ≤ 'z'
  · have hn : 97 ≤ c.toNat ∧ c.toNat ≤ 122 := ⟨h.1, h.2⟩
    have hc : c = Char.ofNat c.toNat := (Char.ofNat_toNat c).symm
    generalize c.toNat = n at hn hc
    subst hc
    obtain ⟨h1, h2⟩ := hn
    interval_cases n <;> decide
  · have h1 : toupper c = c := by simp [toupper, h]
    rw [h1, h1]

/-- Uppercasing an uppercased string changes nothing. -/
theorem upper_idem (s : String) : upper (upper s) = upper s := by
  simp [upper, List.map_map, Function.comp_def, toupper_idem]

/-- Every trade carries the limit price of an order submitted earlier. -/
theorem trade_price_from_submitted (S : StdSort) (os : List Order) (o : Order) (t : Trade)
    (ht : t ∈ (add_order S (submit_all S OrderBook.empty os) o).trades) :
    ∃ x ∈ os, t.price = x.price := by
  obtain ⟨i, hi⟩ := List.mem_iff_getElem?.mp ht
  have key : ∀ (buy : Bool) (opp own : Levels),
      (∀ r ∈ resting opp, ∃ x ∈ os, same_order r x) →
      (cross_and_rest S buy o.instrument o opp own []).1.trades[i]? = some t →
      ∃ x ∈ os, t.price = x.price := by
    intro buy opp own hfrom h
    obtain ⟨r, hr, htr, _⟩ := cross_and_rest_nth S buy o.instrument o opp own i t h
    obtain ⟨x, hx, hrx⟩ := hfrom r (List.getElem?_mem hr)
    refine ⟨x, hx, ?_⟩
    rw [htr, mk_trade_price, hrx]
  by_cases hb : o.side = "BUY"
  · rw [(add_order_buy S _ o hb).1] at hi
    exact key true _ _
      (fun r hr => submit_all_empty_resting_from S os o.instrument r (Or.inr hr)) hi
  · by_cases hs : o.side = "SELL"
    · rw [(add_order_sell S _ o hs).1] at hi
      exact key false _ _
        (fun r hr => submit_all_empty_resting_from S os o.instrument r (Or.inl hr)) hi
    · rw [(add_order_other S _ o hb hs).1] at hi
      simp at hi

/-! ## Maximal matching -/

theorem qty_sum_nil : qty_sum [] = 0 := rfl

theorem qty_sum_cons (r : Order) (l : List Order) : qty_sum (r :: l) = r.quantity + qty_sum l := by
  simp [qty_sum]

theorem qty_sum_nonneg {l : List Order} (h : ∀ r ∈ l, 0 < r.quantity) : 0 ≤ qty_sum l := by
  induction l with
  | nil => simp [qty_sum_nil]
  | cons r l ih =>
    rw [qty_sum_cons]
    have h1 := h r (List.mem_cons_self _ _)
    have h2 := ih (fun x hx => h x (List.mem_cons_of_mem _ hx))
    omega

/-- Against resting orders of positive quantity the incoming quantity left is what
exceeds their total. -/
theorem left_qty_eq : ∀ (F : List Order) (q : Int), (∀ r ∈ F, 0 < r.quantity) → 0 ≤ q →
    left_qty q F = max 0 (q - qty_sum F) := by
  intro F
  induction F with
  | nil => intro q _ hq; simp [left_qty, qty_sum_nil, hq]
  | cons r F ih =>
    intro q hF hq
    have hr := hF r (List.mem_cons_self _ _)
    have hF' : ∀ x ∈ F, 0 < x.quantity := fun x hx => hF x (List.mem_cons_of_mem _ hx)
    have hs := qty_sum_nonneg hF'
    simp only [left_qty, qty_sum_cons]
    split_ifs with h1 h2
    · have hm : min q r.quantity = r.quantity := by
        have := min_le_right q r.quantity
        omega
      rw [hm, ih _ hF' (by rw [← hm]; have := min_le_left q r.quantity; omega)]
      congr 1
      ring
    · have hm := min_eq_left_of_sub_ne h2
      rw [hm, sub_self]
      have hlt : q < r.quantity := by
        rcases lt_or_ge q r.quantity with h | h
        · exact h
        · exact absurd (by rw [min_eq_right h]; ring) h2
      rw [max_eq_left (by omega)]
    · have hq0 : q = 0 := by omega
      rw [hq0, max_eq_left (by omega)]

/-- Against resting orders of positive quantity the trades take the smaller of the
incoming quantity and their total. -/
theorem traded_fills_eq (buy : Bool) (instrument : String) (o : Order) (F : List Order)
    (q : Int) (hF : ∀ r ∈ F, 0 < r.quantity) (hq : 0 ≤ q) :
    traded (fills buy instrument o q F) = min q (qty_sum F) := by
  have h1 := traded_fills buy instrument o F q
  have h2 := left_qty_eq F q hF hq
  have h3 := qty_sum_nonneg hF
  rcases le_total q (qty_sum F) with h | h
  · rw [min_eq_left h]
    rw [max_eq_left (by omega)] at h2
    omega
  · rw [min_eq_right h]
    rw [max_eq_right (by omega)] at h2
    omega

theorem fills_eq_nil_iff (buy : Bool) (instrument : String) (o : Order) (F : List Order)
    (q : Int) (hq : 0 < q) : fills buy instrument o q F = [] ↔ F = [] := by
  cases F with
  | nil => simp [fills]
  | cons r F => simp [fills, hq]

/-- On a well-formed side the orders of the eligible levels are the resting orders
whose price is within the limit. -/
theorem resting_eligible_eq_filter {buy : Bool} (limit : ℚ) :
    ∀ {lv : Levels}, SideOK buy lv →
      resting (eligible buy limit lv) =
        (resting lv).filter (fun r => !decide (ahead buy limit r.price)) := by
  intro lv
  induction lv with
  | nil => intro _; simp [eligible, resting]
  | cons e rest ih =>
    obtain ⟨p, l⟩ := e
    intro hok
    have hmem : (p, l) ∈ (p, l) :: rest := List.mem_cons_self _ _
    have hprice := hok.price _ hmem
    by_cases hp : ahead buy limit p
    · rw [eligible_cons_neg hp, resting_nil]
      symm
      rw [List.filter_eq_nil_iff]
      intro r hr
      rw [resting_cons] at hr
      rcases List.mem_append.mp hr with h | h
      · rw [hprice r h]; simpa using hp
      · obtain ⟨e', he', hre'⟩ := mem_resting.mp h
        rw [hok.tail.price e' he' r hre']
        have := ahead_trans hp ((List.pairwise_cons.mp hok.keys).1 e' he')
        simpa using this
    · rw [eligible_cons_pos hp, resting_cons, resting_cons, List.filter_append, ih hok.tail]
      congr 1
      symm
      rw [List.filter_eq_self]
      intro r hr
      rw [hprice r hr]
      simpa using hp

/-- Maximal matching for either loop on a well-formed side. -/
theorem cross_and_rest_maximal (S : StdSort) (buy : Bool) (instrument : String) (o : Order)
    (opp own : Levels) (hopp : SideOK buy opp) (hq : 0 < o.quantity) :
    traded (cross_and_rest S buy instrument o opp own []).1.trades =
        min o.quantity
          (qty_sum ((resting opp).filter (fun r => !decide (ahead buy o.price r.price)))) ∧
      ((cross_and_rest S buy instrument o opp own []).1.trades = [] ↔
        ∀ r ∈ resting opp, ahead buy o.price r.price) := by
  rw [cross_and_rest_trades, List.nil_append, resting_eligible_eq_filter o.price hopp]
  constructor
  · refine traded_fills_eq buy instrument o _ _ (fun r hr => ?_) (le_of_lt hq)
    exact hopp.resting_pos r (List.mem_of_mem_filter hr)
  · rw [fills_eq_nil_iff buy instrument o _ _ hq, List.filter_eq_nil_iff]
    simp

/-! ## Prefix consumption -/

theorem named_id_mk_trade (buy : Bool) (instrument : String) (o r : Order) (q : Int) :
    named_id buy (mk_trade buy instrument o r q) = r.order_id := by
  cases buy <;> rfl

/-- The shape of what is left of the resting orders: either every trade took the whole
of its resting order and those orders are gone, or the last trade took less than its
resting order holds, which stays in front with the rest of its quantity. -/
theorem leftover_shape (buy : Bool) (instrument : String) (o : Order) :
    ∀ (F : List Order) (q : Int),
      (leftover q F = F.drop (fills buy instrument o q F).length ∧
        ∀ (i : Nat) (t : Trade) (r : Order), (fills buy instrument o q F)[i]? = some t →
          F[i]? = some r → t.quantity = r.quantity) ∨
      ∃ (k : Nat) (r : Order) (t : Trade), (fills buy instrument o q F).length = k + 1 ∧
        F[k]? = some r ∧ (fills buy instrument o q F)[k]? = some t ∧
        t.quantity < r.quantity ∧
        leftover q F =
          ⟨r.order_id, r.instrument, r.side, r.price, r.quantity - t.quantity, r.timestamp⟩ ::
            F.drop (k + 1) := by
  intro F
  induction F with
  | nil => intro q; left; simp [fills, leftover]
  | cons r F ih =>
    intro q
    simp only [fills, leftover]
    split_ifs with h1 h2
    · have hm : min q r.quantity = r.quantity := by omega
      rcases ih (q - min q r.quantity) with ⟨hl, hfull⟩ | ⟨k, r', t, hk, hr', ht, hne, hl⟩
      · left
        refine ⟨by simpa using hl, ?_⟩
        intro i t r0 ht hr0
        cases i with
        | zero =>
          simp only [List.getElem?_cons_zero, Option.some.injEq] at ht hr0
          rw [← ht, ← hr0, mk_trade_quantity, hm]
        | succ i =>
          simp only [List.getElem?_cons_succ] at ht hr0
          exact hfull i t r0 ht hr0
      · right
        exact ⟨k + 1, r', t, by simp [hk], by simpa using hr', by simpa using ht, hne,
          by simpa using hl⟩
    · right
      refine ⟨0, r, mk_trade buy instrument o r (min q r.quantity), by simp, by simp, by simp,
        ?_, ?_⟩
      · rw [mk_trade_quantity]
        have := min_le_right q r.quantity
        omega
      · rw [mk_trade_quantity]; simp
    · left
      simp

/-- The resting orders named by the trades are the first resting orders, in order. -/
theorem fills_names (buy : Bool) (instrument : String) (o : Order) :
    ∀ (F : List Order) (q : Int),
      (fills buy instrument o q F).map (fun t => (named_id buy t, t.price)) =
        (F.take (fills buy instrument o q F).length).map (fun r => (r.order_id, r.price)) := by
  intro F
  induction F with
  | nil => intro q; simp [fills]
  | cons r F ih =>
    intro q
    simp only [fills]
    split_ifs with h1 h2
    · simp only [List.map_cons, List.length_cons, List.take_succ_cons, ih,
        named_id_mk_trade, mk_trade_price]
    · simp only [List.map_cons, List.length_cons, List.take_succ_cons, List.length_nil,
        List.map_nil, List.take_zero, named_id_mk_trade, mk_trade_price]
    · simp

/-- On a well-formed side the prices of the resting orders never get better along the
priority order. -/
theorem SideOK.prices_sorted {buy : Bool} :
    ∀ {lv : Levels}, SideOK buy lv →
      (resting lv).Pairwise (fun a b => ¬ ahead buy b.price a.price) := by
  intro lv
  induction lv with
  | nil => intro _; simp [resting]
  | cons e rest ih =>
    obtain ⟨p, l⟩ := e
    intro hok
    have hmem : (p, l) ∈ (p, l) :: rest := List.mem_cons_self _ _
    rw [resting_cons, List.pairwise_append]
    refine ⟨?_, ih hok.tail, ?_⟩
    · rw [List.pairwise_iff_forall_sublist]
      intro a b hab
      have ha := hok.price _ hmem a (hab.subset (List.mem_cons_self _ _))
      have hb := hok.price _ hmem b
        (hab.subset (List.mem_cons_of_mem _ (List.mem_cons_self _ _)))
      rw [ha, hb]
      intro hc
      cases buy <;> simp [ahead] at hc
    · intro a ha b hb
      obtain ⟨e', he', hbe'⟩ := mem_resting.mp hb
      rw [hok.price _ hmem a ha, hok.tail.price e' he' b hbe']
      have hlt := (List.pairwise_cons.mp hok.keys).1 e' he'
      intro hc
      have := ahead_trans hlt hc
      cases buy <;> simp [ahead] at this

/-- Prefix consumption for either loop on a well-formed side: the trades name the first
resting orders of the crossed side in priority order; afterwards those orders are gone,
except that the last one stays in front with a reduced quantity when the last trade
took less than it held; the prices of the trades never get better. -/
theorem cross_and_rest_consumes (S : StdSort) (buy : Bool) (instrument : String) (o : Order)
    (opp own : Levels) (hopp : SideOK buy opp) :
    (cross_and_rest S buy instrument o opp own []).1.trades.length ≤ (resting opp).length ∧
      (cross_and_rest S buy instrument o opp own []).1.trades.map
          (fun t => (named_id buy t, t.price)) =
        ((resting opp).take (cross_and_rest S buy instrument o opp own []).1.trades.length).map
          (fun r => (r.order_id, r.price)) ∧
      ((resting (cross_and_rest S buy instrument o opp own []).1.book =
            (resting opp).drop (cross_and_rest S buy instrument o opp own []).1.trades.length ∧
          ∀ (i : Nat) (t : Trade) (r : Order),
            (cross_and_rest S buy instrument o opp own []).1.trades[i]? = some t →
            (resting opp)[i]? = some r → t.quantity = r.quantity) ∨
        ∃ (k : Nat) (r : Order) (t : Trade),
          (cross_and_rest S buy instrument o opp own []).1.trades.length = k + 1 ∧
          (resting opp)[k]? = some r ∧
          (cross_and_rest S buy instrument o opp own []).1.trades[k]? = some t ∧
          0 < t.quantity ∧ t.quantity < r.quantity ∧
          resting (cross_and_rest S buy instrument o opp own []).1.book =
            ⟨r.order_id, r.instrument, r.side, r.price, r.quantity - t.quantity, r.timestamp⟩ ::
              (resting opp).drop (k + 1) ∧
          ∀ (i : Nat) (t' : Trade) (r' : Order), i < k →
            (cross_and_rest S buy instrument o opp own []).1.trades[i]? = some t' →
            (resting opp)[i]? = some r' → t'.quantity = r'.quantity) ∧
      ((cross_and_rest S buy instrument o opp own []).1.trades.map (fun t => t.price)).Pairwise
        (fun x y => ¬ ahead buy y x) := by
  have hE := resting_eligible_beyond buy o.price opp
  have hlen := fills_length_le buy instrument o (resting (eligible buy o.price opp)) o.quantity
  have hidx : ∀ (i : Nat) (r : Order),
      i < (fills buy instrument o o.quantity (resting (eligible buy o.price opp))).length →
      (resting opp)[i]? = some r → (resting (eligible buy o.price opp))[i]? = some r := by
    intro i r hi hr
    rw [← hE, List.getElem?_append_left (by omega)] at hr
    exact hr
  have hnames := fills_names buy instrument o (resting (eligible buy o.price opp)) o.quantity
  have htake : (resting opp).take
      (fills buy instrument o o.quantity (resting (eligible buy o.price opp))).length =
      (resting (eligible buy o.price opp)).take
        (fills buy instrument o o.quantity (resting (eligible buy o.price opp))).length := by
    rw [← hE, List.take_append_of_le_length hlen]
  have hdrop : ∀ k, k ≤ (resting (eligible buy o.price opp)).length →
      (resting opp).drop k =
        (resting (eligible buy o.price opp)).drop k ++ resting (beyond buy o.price opp) := by
    intro k hk
    rw [← hE, List.drop_append_of_le_length hk]
  rw [cross_and_rest_trades, List.nil_append, cross_and_rest_resting]
  refine ⟨?_, ?_, ?_, ?_⟩
  · rw [← hE, List.length_append]; omega
  · rw [htake]; exact hnames
  · rcases leftover_shape buy instrument o (resting (eligible buy o.price opp)) o.quantity with
      ⟨hl, hfull⟩ | ⟨k, r, t, hk, hr, ht, hlt, hl⟩
    · left
      refine ⟨by rw [hl, hdrop _ hlen], ?_⟩
      intro i t r ht hr
      have hi : i < (fills buy instrument o o.quantity
          (resting (eligible buy o.price opp))).length := by
        by_contra hc
        rw [List.getElem?_eq_none (not_lt.mp hc)] at ht
        exact absurd ht (by simp)
      exact hfull i t r ht (hidx i r hi hr)
    · right
      have hr' : (resting opp)[k]? = some r := by
        rw [← hE, List.getElem?_append_left (by omega)]; exact hr
      refine ⟨k, r, t, hk, hr', ht, ?_, hlt, ?_, ?_⟩
      · exact fills_pos buy instrument o _ _
          (fun x hx => hopp.resting_pos x (by
            rw [← hE]; exact List.mem_append_left _ hx)) t (List.getElem?_mem ht)
      · rw [hl, hdrop (k + 1) (by omega)]
        rfl
      · intro i t' r' hik ht' hri
        obtain ⟨r0, hr0, _, hfull⟩ := fills_getElem buy instrument o _ _ i t' ht'
        have := hidx i r' (by omega) hri
        rw [hr0, Option.some.injEq] at this
        rw [← this]
        exact hfull (by omega)
  · have hmap : (fills buy instrument o o.quantity
        (resting (eligible buy o.price opp))).map (fun t => t.price) =
        (((resting opp).take (fills buy instrument o o.quantity
          (resting (eligible buy o.price opp))).length).map (fun r => r.price)) := by
      have := congrArg (List.map Prod.snd) hnames
      rw [htake]
      simpa [List.map_map, Function.comp_def] using this
    rw [hmap, List.pairwise_map]
    exact (hopp.prices_sorted).sublist (List.take_sublist _ _)

/-! ## Progress of the loops -/

/-- What one iteration of a loop does: it erases an empty level, or it erases one
resting order and appends a trade, or it reduces the first resting order, appends a
trade and is the last iteration. -/
theorem cross_body_progress {buy : Bool} {instrument : String} {st st' : LoopState}
    (h : cross_body buy instrument st = some st') :
    (st.book.length = st'.book.length + 1 ∧ resting st'.book = resting st.book ∧
        st'.trades = st.trades) ∨
      ((resting st.book).length = (resting st'.book).length + 1 ∧
        st'.trades.length = st.trades.length + 1) ∨
      ((resting st.book).length = (resting st'.book).length ∧
        st'.trades.length = st.trades.length + 1 ∧ cross_body buy instrument st' = none) := by
  have hs := cross_body_some h
  cases hs with
  | drop_level o p rest T hq hs =>
    left
    simp [resting_cons]
  | fill_last o r p rest T hq hs hz =>
    right; left
    simp [resting_cons]
  | fill o r p tail rest T hq hs hz ht =>
    right; left
    simp [resting_cons]
  | part o r p tail rest T hq hs hz =>
    right; right
    refine ⟨by simp [resting_cons], by simp, cross_body_of_nonpos ?_⟩
    show o.quantity - min o.quantity r.quantity ≤ 0
    rw [min_eq_left_of_sub_ne hz, sub_self]

/-- The numbers of trades and of resting orders erased by either loop on a well-formed
side. -/
theorem cross_and_rest_counts (S : StdSort) (buy : Bool) (instrument : String) (o : Order)
    (opp own : Levels) (hopp : SideOK buy opp) :
    (cross_and_rest S buy instrument o opp own []).1.trades.length ≤ (resting opp).length ∧
      (resting (cross_and_rest S buy instrument o opp own []).1.book).length ≤
        (resting opp).length ∧
      (cross_and_rest S buy instrument o opp own []).1.trades.length ≤
        (resting opp).length -
          (resting (cross_and_rest S buy instrument o opp own []).1.book).length + 1 ∧
      (resting opp).length -
          (resting (cross_and_rest S buy instrument o opp own []).1.book).length ≤
        (cross_and_rest S buy instrument o opp own []).1.trades.length := by
  obtain ⟨h1, _, h3, _⟩ := cross_and_rest_consumes S buy instrument o opp own hopp
  rcases h3 with ⟨hd, _⟩ | ⟨k, r, t, hk, hr, _, _, _, hd, _⟩
  · rw [hd, List.length_drop]
    omega
  · have hlt : k < (resting opp).length := by
      by_contra hc
      rw [List.getElem?_eq_none (not_lt.mp hc)] at hr
      exact absurd hr (by simp)
    rw [hd, List.length_cons, List.length_drop, hk]
    omega

/-! ## Distinct timestamps -/

/-- Crossing and resting keeps timestamps distinct when no resting order of the own
side carries the timestamp of the incoming order. -/
theorem cross_and_rest_nodup (S : StdSort) (buy : Bool) (instrument : String) (o : Order)
    (opp own : Levels) (T : List Trade) (hopp : (times opp).Nodup) (hown : (times own).Nodup)
    (hnew : ∀ r ∈ resting own, r.timestamp ≠ o.timestamp) :
    (times (cross_and_rest S buy instrument o opp own T).1.book).Nodup ∧
      (times (cross_and_rest S buy instrument o opp own T).2).Nodup := by
  have hts : (cross_and_rest S buy instrument o opp own T).1.order.timestamp = o.timestamp := by
    rw [cross_and_rest_order]
  refine ⟨?_, ?_⟩
  · refine List.Nodup.sublist ?_ hopp
    simp only [times]
    rw [cross_and_rest_resting, ← resting_eligible_beyond buy o.price opp, List.map_append,
      List.map_append]
    exact List.Sublist.append (leftover_times_sublist _ _) (List.Sublist.refl _)
  · rw [cross_and_rest_own]
    split_ifs with hq
    · simp only [times]
      rw [((resting_push_perm S (!buy) _ own).map _).nodup_iff, List.map_cons,
        List.nodup_cons]
      refine ⟨?_, hown⟩
      intro hmem
      obtain ⟨r, hr, hrt⟩ := List.mem_map.mp hmem
      exact hnew r hr (by rw [hrt, hts])
    · exact hown

/-- One call of `add_order` keeps the timestamps distinct when no resting order of the
instrument carries the timestamp of the submitted order. -/
theorem add_order_nodup (S : StdSort) (ob : OrderBook) (o : Order) (h : ∀ i, TimesOK (ob i))
    (hnew : ∀ r, r ∈ resting (ob o.instrument).buy_orders ∨
      r ∈ resting (ob o.instrument).sell_orders → r.timestamp ≠ o.timestamp) :
    ∀ i, TimesOK ((add_order S ob o).book i) := by
  intro i
  by_cases hb : o.side = "BUY"
  · rw [(add_order_buy S ob o hb).2.2]
    by_cases hi : i = o.instrument
    · subst hi
      rw [Function.update_same]
      obtain ⟨h1, h2⟩ := cross_and_rest_nodup S true o.instrument o
        (ob o.instrument).sell_orders (ob o.instrument).buy_orders [] (h _).asks (h _).bids
        (fun r hr => hnew r (Or.inl hr))
      exact ⟨h2, h1⟩
    · rw [Function.update_noteq hi]; exact h i
  · by_cases hs : o.side = "SELL"
    · rw [(add_order_sell S ob o hs).2.2]
      by_cases hi : i = o.instrument
      · subst hi
        rw [Function.update_same]
        obtain ⟨h1, h2⟩ := cross_and_rest_nodup S false o.instrument o
          (ob o.instrument).buy_orders (ob o.instrument).sell_orders [] (h _).bids (h _).asks
          (fun r hr => hnew r (Or.inr hr))
        exact ⟨h1, h2⟩
      · rw [Function.update_noteq hi]; exact h i
    · rw [(add_order_other S ob o hb hs).2.2]
      by_cases hi : i = o.instrument
      · subst hi; rw [Function.update_same]; exact ⟨(h _).bids, (h _).asks⟩
      · rw [Function.update_noteq hi]; exact h i

/-- Orders submitted with pairwise distinct timestamps leave books whose resting orders
carry pairwise distinct timestamps. -/
theorem submit_all_nodup (S : StdSort) :
    ∀ (os : List Order) (ob : OrderBook),
      os.Pairwise (fun a b => a.timestamp ≠ b.timestamp) →
      (∀ i, TimesOK (ob i)) →
      (∀ i, ∀ r, r ∈ resting (ob i).buy_orders ∨ r ∈ resting (ob i).sell_orders →
        ∀ o ∈ os, r.timestamp ≠ o.timestamp) →
      ∀ i, TimesOK (submit_all S ob os i) := by
  intro os
  induction os with
  | nil => intro ob _ h _; exact h
  | cons o os ih =>
    intro ob hd h hnew
    obtain ⟨ho, hos⟩ := List.pairwise_cons.mp hd
    refine ih (add_order S ob o).book hos
      (add_order_nodup S ob o h (fun r hr => hnew _ r hr o (List.mem_cons_self _ _))) ?_
    intro i r hr o' ho'
    rcases add_order_resting_from S ob o i r hr with hro | ⟨r0, hr0, hrr0⟩
    · have : r.timestamp = o.timestamp := by rw [hro]
      rw [this]; exact ho o' ho'
    · have : r.timestamp = r0.timestamp := by rw [hrr0]
      rw [this]; exact hnew i r0 hr0 o' (List.mem_cons_of_mem _ ho')

theorem submit_all_empty_nodup (S : StdSort) (os : List Order)
    (hd : os.Pairwise (fun a b => a.timestamp ≠ b.timestamp)) (i : String) :
    TimesOK (submit_all S OrderBook.empty os i) :=
  submit_all_nodup S os OrderBook.empty hd (fun _ => timesOK_empty)
    (fun i r hr => by
      simp [OrderBook.empty, InstrumentBook.empty, resting] at hr) i

/-- The vector of a level is a part of the resting orders of its side. -/
theorem level_sublist_resting : ∀ {lv : Levels} {e : ℚ × List Order}, e ∈ lv →
    List.Sublist e.2 (resting lv) := by
  intro lv
  induction lv with
  | nil => intro e he; simp at he
  | cons x rest ih =>
    obtain ⟨p, l⟩ := x
    intro e he
    rw [resting_cons]
    rcases List.mem_cons.mp he with rfl | he
    · exact List.sublist_append_left _ _
    · exact (ih he).trans (List.sublist_append_right _ _)

/-- In a vector ordered by timestamp whose timestamps are distinct the order is
strict. -/
theorem strict_of_nodup {l : List Order}
    (hs : l.Pairwise (fun a b => ¬ b.timestamp < a.timestamp))
    (hn : (l.map (fun r => r.timestamp)).Nodup) :
    l.Pairwise (fun a b => a.timestamp < b.timestamp) := by
  have hne : l.Pairwise (fun a b => a.timestamp ≠ b.timestamp) := by
    rw [List.Nodup, List.pairwise_map] at hn
    exact hn
  exact (hs.and hne).imp (fun h => lt_of_le_of_ne (not_lt.mp h.1) h.2)

/-! ## The own side after a push -/

/-- The vector of a level after a push when the orders it held carry pairwise distinct
timestamps: the pushed order stands somewhere among them, and they stand as before. -/
theorem StdSort.run_append_shape (S : StdSort) (l : List Order) (x : Order)
    (hs : l.Pairwise (fun a b => ¬ b.timestamp < a.timestamp))
    (hn : (l.map (fun r => r.timestamp)).Nodup) :
    ∃ l1 l2, l = l1 ++ l2 ∧ S.run (l ++ [x]) = l1 ++ x :: l2 := by
  have hp : (S.run (l ++ [x])).Perm (x :: l) :=
    (S.perm (l ++ [x])).trans (List.perm_append_comm.trans (by simp))
  have hx : x ∈ S.run (l ++ [x]) := hp.symm.subset (List.mem_cons_self _ _)
  obtain ⟨R1, R2, hR⟩ := List.append_of_mem hx
  have hp' : (R1 ++ R2).Perm l := by
    have h1 : (x :: (R1 ++ R2)).Perm (x :: l) := by
      rw [hR] at hp
      exact List.perm_middle.symm.trans hp
    exact h1.cons_inv
  have hsR : (R1 ++ R2).Pairwise (fun a b => ¬ b.timestamp < a.timestamp) := by
    have := S.sorted (l ++ [x])
    rw [hR] at this
    exact this.sublist ((List.Sublist.refl R1).append (List.sublist_cons_self x R2))
  have hnR : ((R1 ++ R2).map (fun r => r.timestamp)).Nodup :=
    ((hp'.map _).nodup_iff).mpr hn
  haveI : IsAntisymm Order (fun a b => a.timestamp < b.timestamp) :=
    ⟨fun a b h1 h2 => absurd h1 (lt_asymm h2)⟩
  have heq : R1 ++ R2 = l :=
    List.eq_of_perm_of_sorted hp' (strict_of_nodup hsR hnR) (strict_of_nodup hs hn)
  exact ⟨R1, R2, heq.symm, hR⟩

/-- Where a push puts the order on a well-formed side: into the level at its price,
or, when there is none, into a new level between the levels in front and behind. -/
theorem push_and_sort_shape (S : StdSort) (buy : Bool) (o : Order) :
    ∀ lv : Levels, SideOK buy lv →
      (∃ L1 l L2, lv = L1 ++ (o.price, l) :: L2 ∧
        push_and_sort S (ahead buy) o lv = L1 ++ (o.price, S.run (l ++ [o])) :: L2) ∨
      (∃ L1 L2, lv = L1 ++ L2 ∧ (∀ e ∈ lv, e.1 ≠ o.price) ∧
        push_and_sort S (ahead buy) o lv = L1 ++ (o.price, [o]) :: L2) := by
  have hirr : ∀ x : ℚ, ¬ ahead buy x x := by
    intro x hx
    cases buy <;> simp [ahead] at hx
  intro lv
  induction lv with
  | nil =>
    intro _
    right
    exact ⟨[], [], rfl, by simp, by simp [push_and_sort, S.run_singleton]⟩
  | cons e rest ih =>
    obtain ⟨p, l⟩ := e
    intro hok
    have hk := List.pairwise_cons.mp hok.keys
    simp only [push_and_sort]
    split_ifs with h1 h2
    · right
      refine ⟨[], (p, l) :: rest, rfl, ?_, by simp [S.run_singleton]⟩
      intro e he heq
      rcases List.mem_cons.mp he with rfl | he
      · have heq' : p = o.price := heq
        rw [heq'] at h1; exact hirr _ h1
      · have := ahead_trans h1 (hk.1 e he)
        rw [heq] at this; exact hirr _ this
    · rcases ih hok.tail with ⟨L1, l', L2, hl, hpush⟩ | ⟨L1, L2, hl, hne, hpush⟩
      · left
        exact ⟨(p, l) :: L1, l', L2, by rw [hl]; rfl, by rw [hpush]; rfl⟩
      · right
        refine ⟨(p, l) :: L1, L2, by rw [hl]; rfl, ?_, by rw [hpush]; rfl⟩
        intro e he heq
        rcases List.mem_cons.mp he with rfl | he
        · have heq' : p = o.price := heq
          rw [heq'] at h2; exact hirr _ h2
        · exact hne e he heq
    · left
      have hp : p = o.price := ahead_eq_of_not h1 h2
      subst hp
      exact ⟨[], l, rest, rfl, rfl⟩

/-- Straight insertion puts an order into a vector ordered by timestamp without moving
the orders the vector held. -/
theorem stable_sort_append_shape (x : Order) :
    ∀ l : List Order, l.Pairwise (fun a b => ¬ b.timestamp < a.timestamp) →
      ∃ l1 l2, l = l1 ++ l2 ∧ stable_sort (l ++ [x]) = l1 ++ x :: l2 := by
  intro l
  induction l with
  | nil => intro _; exact ⟨[], [], rfl, rfl⟩
  | cons a l ih =>
    intro hs
    obtain ⟨ha, hl⟩ := List.pairwise_cons.mp hs
    obtain ⟨l1, l2, hsplit, hrun⟩ := ih hl
    have hstep : stable_sort ((a :: l) ++ [x]) =
        List.orderedInsert (fun a b : Order => a.timestamp ≤ b.timestamp) a
          (stable_sort (l ++ [x])) := rfl
    rw [hstep, hrun]
    cases l1 with
    | nil =>
      simp only [List.nil_append] at hsplit ⊢
      by_cases hax : a.timestamp ≤ x.timestamp
      · exact ⟨[a], l2, by rw [hsplit]; rfl, by simp [List.orderedInsert, hax]⟩
      · refine ⟨[], a :: l2, by rw [hsplit]; rfl, ?_⟩
        have hins : List.orderedInsert (fun a b : Order => a.timestamp ≤ b.timestamp) a l2 =
            a :: l2 := by
          cases l2 with
          | nil => rfl
          | cons b t =>
            have hab : a.timestamp ≤ b.timestamp :=
              not_lt.mp (ha b (by rw [hsplit]; exact List.mem_cons_self _ _))
            simp [List.orderedInsert, hab]
        simp [List.orderedInsert, hax, hins]
    | cons b t =>
      have hab : a.timestamp ≤ b.timestamp :=
        not_lt.mp (ha b (by rw [hsplit]; simp))
      exact ⟨a :: b :: t, l2, by rw [hsplit]; rfl, by simp [List.orderedInsert, hab]⟩

/-- The own side after either method on a well-formed side. -/
theorem cross_and_rest_own_frame (S : StdSort) (buy : Bool) (instrument : String) (o : Order)
    (opp own : Levels) (hown : SideOK (!buy) own) :
    (¬ 0 < (cross_and_rest S buy instrument o opp own []).1.order.quantity →
      (cross_and_rest S buy instrument o opp own []).2 = own) ∧
    (0 < (cross_and_rest S buy instrument o opp own []).1.order.quantity →
      (∃ L1 l L2 l', own = L1 ++ (o.price, l) :: L2 ∧
        (cross_and_rest S buy instrument o opp own []).2 = L1 ++ (o.price, l') :: L2 ∧
        l' = S.run (l ++ [(cross_and_rest S buy instrument o opp own []).1.order]) ∧
        l'.Perm (l ++ [(cross_and_rest S buy instrument o opp own []).1.order]) ∧
        (((l.map (fun r => r.timestamp)).Nodup →
          ∃ l1 l2, l = l1 ++ l2 ∧
            l' = l1 ++ (cross_and_rest S buy instrument o opp own []).1.order :: l2))) ∨
      (∃ L1 L2, own = L1 ++ L2 ∧ (∀ e ∈ own, e.1 ≠ o.price) ∧
        (cross_and_rest S buy instrument o opp own []).2 =
          L1 ++ (o.price, [(cross_and_rest S buy instrument o opp own []).1.order]) :: L2)) := by
  have hprice : (cross_and_rest S buy instrument o opp own []).1.order.price = o.price := by
    rw [cross_and_rest_order]
  constructor
  · intro hq
    rw [cross_and_rest_own, if_neg hq]
  · intro hq
    rw [cross_and_rest_own, if_pos hq]
    rcases push_and_sort_shape S (!buy) (cross_and_rest S buy instrument o opp own []).1.order
      own hown with ⟨L1, l, L2, hl, hpush⟩ | ⟨L1, L2, hl, hne, hpush⟩
    · left
      rw [hprice] at hl hpush
      have hlv : (o.price, l) ∈ own := by rw [hl]; simp
      refine ⟨L1, l, L2, _, hl, hpush, rfl, S.perm _, fun hn => ?_⟩
      exact S.run_append_shape l _ (hown.time _ hlv) hn
    · right
      rw [hprice] at hne hpush
      exact ⟨L1, L2, hl, hne, hpush⟩

/-! ## The sort of libstdc++ is a conforming sort -/

theorem set_perm_cons (l : List Order) (i : Nat) (a b : Order) (h : l[i]? = some a) :
    (b :: l).Perm (a :: l.set i b) := by
  induction l generalizing i with
  | nil => simp at h
  | cons x xs ih =>
    cases i with
    | zero =>
      simp only [List.getElem?_cons_zero, Option.some.injEq] at h
      subst h
      exact List.Perm.swap _ _ _
    | succ k =>
      simp only [List.getElem?_cons_succ] at h
      simp only [List.set_cons_succ]
      exact (List.Perm.swap x b xs).trans (((ih k h).cons x).trans (List.Perm.swap a x _))

theorem iter_swap_perm (l : List Order) (i j : Nat) : (iter_swap l i j).Perm l := by
  unfold iter_swap
  cases hi : l[i]? with
  | none => simp
  | some a =>
    cases hj : l[j]? with
    | none => simp
    | some b =>
      simp only
      have hil : i < l.length := by
        rcases List.getElem?_eq_some.mp hi with ⟨h, _⟩
        exact h
      have h1 : (b :: l).Perm (a :: l.set i b) := set_perm_cons l i a b hi
      have hj1 : (l.set i b)[j]? = some b := by
        by_cases hij : i = j
        · subst hij
          simp [hil]
        · rw [List.getElem?_set_ne hij]
          exact hj
      have h2 : (a :: l.set i b).Perm (b :: (l.set i b).set j a) :=
        set_perm_cons (l.set i b) j b a hj1
      exact ((h1.trans h2).cons_inv).symm

theorem move_median_to_first_perm (l : List Order) (result a b c : Nat) :
    (move_median_to_first l result a b c).Perm l := by
  unfold move_median_to_first
  split_ifs <;> exact iter_swap_perm _ _ _

theorem unguarded_partition_perm (fuel : Nat) (l : List Order) (first last pivot : Nat) :
    (unguarded_partition fuel l first last pivot).2.Perm l := by
  induction fuel generalizing l first last with
  | zero => simp [unguarded_partition]
  | succ n ih =>
    simp only [unguarded_partition]
    split_ifs
    · exact (ih _ _ _).trans (iter_swap_perm _ _ _)
    · exact List.Perm.refl _

theorem unguarded_partition_pivot_perm (l : List Order) (first last : Nat) :
    (unguarded_partition_pivot l first last).2.Perm l := by
  unfold unguarded_partition_pivot
  exact (unguarded_partition_perm _ _ _ _ _).trans (move_median_to_first_perm _ _ _ _ _)

theorem push_heap_perm (fuel : Nat) (l : List Order) (first holeIndex topIndex : Nat) :
    (push_heap fuel l first holeIndex topIndex).Perm l := by
  induction fuel generalizing l holeIndex with
  | zero => simp [push_heap]
  | succ n ih =>
    simp only [push_heap]
    split_ifs
    · exact (ih _ _).trans (iter_swap_perm _ _ _)
    · exact List.Perm.refl _

theorem adjust_heap_loop_perm (fuel : Nat) (l : List Order)
    (first holeIndex secondChild len : Nat) :
    (adjust_heap_loop fuel l first holeIndex secondChild len).2.2.Perm l := by
  induction fuel generalizing l holeIndex secondChild with
  | zero => simp [adjust_heap_loop]
  | succ n ih =>
    simp only [adjust_heap_loop]
    split_ifs
    · exact (ih _ _ _).trans (iter_swap_perm _ _ _)
    · exact (ih _ _ _).trans (iter_swap_perm _ _ _)
    · exact List.Perm.refl _

theorem adjust_heap_perm (l : List Order) (first holeIndex len : Nat) :
    (adjust_heap l first holeIndex len).Perm l := by
  unfold adjust_heap
  simp only
  split_ifs
  · exact ((push_heap_perm _ _ _ _ _).trans (iter_swap_perm _ _ _)).trans
      (adjust_heap_loop_perm _ _ _ _ _ _)
  · exact (push_heap_perm _ _ _ _ _).trans (adjust_heap_loop_perm _ _ _ _ _ _)

theorem pop_heap_perm (l : List Order) (first last result : Nat) :
    (pop_heap l first last result).Perm l :=
  (adjust_heap_perm _ _ _ _).trans (iter_swap_perm _ _ _)

theorem make_heap_loop_perm (first len parent : Nat) (l : List Order) :
    (make_heap_loop first len parent l).Perm l := by
  induction parent generalizing l with
  | zero => exact adjust_heap_perm _ _ _ _
  | succ n ih => exact (ih _).trans (adjust_heap_perm _ _ _ _)

theorem make_heap_perm (l : List Order) (first last : Nat) :
    (make_heap l first last).Perm l := by
  unfold make_heap
  split_ifs
  · exact List.Perm.refl _
  · exact make_heap_loop_perm _ _ _ _

theorem sort_heap_perm (first n : Nat) (l : List Order) : (sort_heap first n l).Perm l := by
  induction n generalizing l with
  | zero => simp [sort_heap]
  | succ n ih =>
    simp only [sort_heap]
    split_ifs
    · exact (ih _).trans (pop_heap_perm _ _ _ _)
    · exact List.Perm.refl _

theorem partial_sort_perm (l : List Order) (first last : Nat) :
    (partial_sort l first last).Perm l :=
  (sort_heap_perm _ _ _).trans (make_heap_perm _ _ _)

theorem introsort_loop_perm (depth_limit : Nat) (l : List Order) (first last : Nat) :
    (introsort_loop depth_limit l first last).Perm l := by
  induction depth_limit generalizing l first last with
  | zero =>
    unfold introsort_loop
    split_ifs
    · exact partial_sort_perm _ _ _
    · exact List.Perm.refl _
  | succ n ih =>
    unfold introsort_loop
    split_ifs
    · exact ((ih _ _ _).trans (ih _ _ _)).trans (unguarded_partition_pivot_perm _ _ _)
    · exact List.Perm.refl _

theorem unguarded_linear_insert_perm (val : Order) (rev : List Order) :
    (unguarded_linear_insert val rev).Perm (val :: rev) := by
  induction rev with
  | nil => simp [unguarded_linear_insert]
  | cons next rest ih =>
    simp only [unguarded_linear_insert]
    split_ifs
    · exact (ih.cons next).trans (List.Perm.swap _ _ _)
    · exact List.Perm.refl _

theorem insertion_step_perm (rev : List Order) (val : Order) :
    (insertion_step rev val).Perm (val :: rev) := by
  unfold insertion_step
  cases h : rev.getLast? with
  | none =>
    have : rev = [] := by simpa using h
    subst this
    simp
  | some first =>
    simp only
    split_ifs
    · exact List.perm_append_comm
    · exact unguarded_linear_insert_perm _ _

theorem foldl_insert_perm (f : List Order → Order → List Order)
    (hf : ∀ rev val, (f rev val).Perm (val :: rev)) (l rev : List Order) :
    (l.foldl f rev).Perm (l ++ rev) := by
  induction l generalizing rev with
  | nil => simp
  | cons x xs ih =>
    simp only [List.foldl_cons, List.cons_append]
    exact (ih _).trans ((List.Perm.append_left xs (hf rev x)).trans List.perm_middle)

theorem final_insertion_sort_perm (l : List Order) : (final_insertion_sort l).Perm l := by
  unfold final_insertion_sort
  split_ifs
  · refine (List.reverse_perm _).trans ?_
    refine (foldl_insert_perm _ (fun rev val => unguarded_linear_insert_perm val rev) _ _).trans ?_
    have h1 := foldl_insert_perm insertion_step insertion_step_perm (l.take 16) []
    rw [List.append_nil] at h1
    refine (List.Perm.append_left _ h1).trans ?_
    refine List.perm_append_comm.trans ?_
    rw [List.take_append_drop]
  · refine (List.reverse_perm _).trans ?_
    have h1 := foldl_insert_perm insertion_step insertion_step_perm l []
    rwa [List.append_nil] at h1

theorem std_sort_perm (l : List Order) : (std_sort l).Perm l := by
  unfold std_sort
  split_ifs
  · exact List.Perm.refl _
  · exact (final_insertion_sort_perm _).trans (introsort_loop_perm _ _ _ _)

theorem unguarded_linear_insert_desc (val : Order) (rev : List Order) (h : Descending rev) :
    Descending (unguarded_linear_insert val rev) := by
  induction rev with
  | nil => simp [unguarded_linear_insert, Descending]
  | cons next rest ih =>
    have hr := List.pairwise_cons.mp h
    simp only [unguarded_linear_insert]
    split_ifs with hlt
    · refine List.pairwise_cons.mpr ⟨fun x hx => ?_, ih hr.2⟩
      rcases List.mem_cons.mp ((unguarded_linear_insert_perm val rest).mem_iff.mp hx) with
        rfl | hx
      · exact not_lt.mpr (le_of_lt hlt)
      · exact hr.1 x hx
    · refine List.pairwise_cons.mpr ⟨fun x hx => ?_, h⟩
      rcases List.mem_cons.mp hx with rfl | hx
      · exact hlt
      · exact not_lt.mpr (le_trans (not_lt.mp (hr.1 x hx)) (not_lt.mp hlt))

theorem insertion_step_desc (rev : List Order) (val : Order) (h : Descending rev) :
    Descending (insertion_step rev val) := by
  unfold insertion_step
  cases hl : rev.getLast? with
  | none => simp [Descending]
  | some first =>
    simp only
    split_ifs with hlt
    · refine List.pairwise_append.mpr ⟨h, List.pairwise_singleton _ _, fun x hx y hy => ?_⟩
      simp only [List.mem_singleton] at hy
      subst hy
      have hfirst : ¬ x.timestamp < first.timestamp := by
        obtain ⟨ini, hini⟩ : ∃ ini, rev = ini ++ [first] := by
          have hne : rev ≠ [] := by
            intro hnil
            rw [hnil] at hl
            simp at hl
          refine ⟨rev.dropLast, ?_⟩
          have := List.dropLast_append_getLast hne
          rw [List.getLast?_eq_getLast _ hne] at hl
          simp only [Option.some.injEq] at hl
          rw [hl] at this
          exact this.symm
        rw [hini] at h hx
        rcases List.mem_append.mp hx with hx | hx
        · exact (List.pairwise_append.mp h).2.2 x hx first (List.mem_singleton_self _)
        · simp only [List.mem_singleton] at hx
          subst hx
          exact lt_irrefl _
      exact not_lt.mpr (le_of_lt (lt_of_lt_of_le hlt (not_lt.mp hfirst)))
    · exact unguarded_linear_insert_desc _ _ h

theorem foldl_desc (f : List Order → Order → List Order)
    (hf : ∀ rev val, Descending rev → Descending (f rev val)) (l rev : List Order)
    (h : Descending rev) : Descending (l.foldl f rev) := by
  induction l generalizing rev with
  | nil => exact h
  | cons x xs ih => exact ih _ (hf rev x h)

theorem final_insertion_sort_sorted (l : List Order) :
    (final_insertion_sort l).Pairwise (fun a b => ¬ b.timestamp < a.timestamp) := by
  unfold final_insertion_sort
  split_ifs
  · rw [List.pairwise_reverse]
    exact foldl_desc _ (fun rev val h => unguarded_linear_insert_desc val rev h) _ _
      (foldl_desc _ insertion_step_desc _ _ List.Pairwise.nil)
  · rw [List.pairwise_reverse]
    exact foldl_desc _ insertion_step_desc _ _ List.Pairwise.nil

theorem std_sort_sorted (l : List Order) :
    (std_sort l).Pairwise (fun a b => ¬ b.timestamp < a.timestamp) := by
  unfold std_sort
  split_ifs with h
  · have : l = [] := List.length_eq_zero.mp h
    subst this
    exact List.Pairwise.nil
  · exact final_insertion_sort_sorted _

/-! ## The sort of libstdc++ on short vectors -/

theorem introsort_loop_short (depth_limit : Nat) (l : List Order) (first last : Nat)
    (h : last - first ≤ 16) : introsort_loop depth_limit l first last = l := by
  have hn : ¬ last - first > 16 := not_lt.mpr h
  cases depth_limit <;> (unfold introsort_loop; rw [if_neg hn])

theorem insertion_step_back (rev : List Order) (val : Order)
    (h : ∀ r ∈ rev, ¬ val.timestamp < r.timestamp) : insertion_step rev val = val :: rev := by
  unfold insertion_step
  cases hl : rev.getLast? with
  | none =>
    have : rev = [] := by simpa using hl
    subst this
    rfl
  | some first =>
    have hmem : first ∈ rev := List.mem_of_getLast?_eq_some hl
    simp only
    rw [if_neg (h first hmem)]
    cases rev with
    | nil => simp at hmem
    | cons next rest =>
      simp only [unguarded_linear_insert]
      rw [if_neg (h next (List.mem_cons_self _ _))]

theorem foldl_insertion_step_sorted (l : List Order) :
    ∀ rev : List Order, l.Pairwise (fun a b => ¬ b.timestamp < a.timestamp) →
      (∀ y ∈ l, ∀ r ∈ rev, ¬ y.timestamp < r.timestamp) →
      l.foldl insertion_step rev = l.reverse ++ rev := by
  induction l with
  | nil => intro rev _ _; rfl
  | cons x xs ih =>
    intro rev hs hr
    obtain ⟨hx, hxs⟩ := List.pairwise_cons.mp hs
    rw [List.foldl_cons, insertion_step_back rev x (hr x (List.mem_cons_self _ _)),
      ih (x :: rev) hxs ?_]
    · simp
    · intro y hy r hrm
      rcases List.mem_cons.mp hrm with rfl | hrm
      · exact hx y hy
      · exact hr y (List.mem_cons_of_mem _ hy) r hrm

theorem unguarded_linear_insert_shape (val : Order) (rev : List Order) :
    ∃ a b, rev = a ++ b ∧ unguarded_linear_insert val rev = a ++ val :: b := by
  induction rev with
  | nil => exact ⟨[], [], rfl, rfl⟩
  | cons next rest ih =>
    simp only [unguarded_linear_insert]
    split_ifs
    · obtain ⟨a, b, hab, hins⟩ := ih
      exact ⟨next :: a, b, by rw [hab]; rfl, by rw [hins]; rfl⟩
    · exact ⟨[], next :: rest, rfl, rfl⟩

/-- On a vector of at most 16 elements the `std::sort` of libstdc++ is a straight
insertion: an element pushed behind a sorted vector of fewer than 16 elements is put in its
place and the others keep their order. -/
theorem std_sort_append_shape (x : Order) (l : List Order) (hlen : l.length < 16)
    (hs : l.Pairwise (fun a b => ¬ b.timestamp < a.timestamp)) :
    ∃ l1 l2, l = l1 ++ l2 ∧ std_sort (l ++ [x]) = l1 ++ x :: l2 := by
  have hl1 : (l ++ [x]).length = l.length + 1 := by simp
  have hrun : std_sort (l ++ [x]) = (insertion_step l.reverse x).reverse := by
    unfold std_sort
    rw [if_neg (by rw [hl1]; omega), introsort_loop_short _ _ _ _ (by rw [hl1]; omega)]
    unfold final_insertion_sort
    rw [if_neg (by rw [hl1]; omega), List.foldl_append,
      foldl_insertion_step_sorted l [] hs (fun _ _ r hr => absurd hr (List.not_mem_nil r))]
    simp
  rw [hrun]
  unfold insertion_step
  cases hl : l.reverse.getLast? with
  | none =>
    have : l = [] := by simpa using hl
    subst this
    exact ⟨[], [], rfl, rfl⟩
  | some first =>
    simp only
    split_ifs
    · exact ⟨[], l, rfl, by simp⟩
    · obtain ⟨a, b, hab, hins⟩ := unguarded_linear_insert_shape x l.reverse
      refine ⟨b.reverse, a.reverse, ?_, ?_⟩
      · have := congrArg List.reverse hab
        simpa using this
      · rw [hins]
        simp

/-! ## The claims of the specification -/

/-- C1. Quantity conservation.  For every book (reachable or not) and every order whose
side is BUY or SELL and whose quantity `q` is positive: the quantities of the returned
trades sum to at most `q`; the caller's order after the call is the submitted order with
its quantity replaced by `q` minus that sum; when this remainder is positive the map of
the order's own side holds, in the level at its limit price, the order with exactly
that remaining quantity; when the remainder is zero the own side is left as it was
and every order resting on the other side rested there before the call, its quantity
apart, so that the submitted order rests nowhere. -/
theorem quantity_conservation (S : StdSort) (ob : OrderBook) (o : Order)
    (hside : o.side = "BUY" ∨ o.side = "SELL") (hq : 0 < o.quantity) :
    traded (add_order S ob o).trades ≤ o.quantity ∧
      (add_order S ob o).order =
        ⟨o.order_id, o.instrument, o.side, o.price,
          o.quantity - traded (add_order S ob o).trades, o.timestamp⟩ ∧
      (0 < o.quantity - traded (add_order S ob o).trades →
        ∃ l, (o.price, l) ∈ own_side o ((add_order S ob o).book o.instrument) ∧
          (⟨o.order_id, o.instrument, o.side, o.price,
            o.quantity - traded (add_order S ob o).trades, o.timestamp⟩ : Order) ∈ l) ∧
      (o.quantity - traded (add_order S ob o).trades = 0 →
        own_side o ((add_order S ob o).book o.instrument) = own_side o (ob o.instrument) ∧
          ∀ x ∈ resting (opp_side o ((add_order S ob o).book o.instrument)),
            ∃ y ∈ resting (opp_side o (ob o.instrument)),
              x = ⟨y.order_id, y.instrument, y.side, y.price, x.quantity, y.timestamp⟩) := by
  rcases hside with hb | hs
  · obtain ⟨ht, ho, hbk⟩ := add_order_buy S ob o hb
    have h := cross_and_rest_conservation S true o.instrument o
      (ob o.instrument).sell_orders (ob o.instrument).buy_orders hq
    rw [ht, ho, hbk]
    simpa only [own_side, opp_side, hb, if_true, Function.update_same] using h
  · have hnb : ¬ o.side = "BUY" := by rw [hs]; decide
    obtain ⟨ht, ho, hbk⟩ := add_order_sell S ob o hs
    have h := cross_and_rest_conservation S false o.instrument o
      (ob o.instrument).buy_orders (ob o.instrument).sell_orders hq
    rw [ht, ho, hbk]
    simpa only [own_side, opp_side, hnb, if_false, Function.update_same] using h

theorem quantity_conservation_witness :
    ((ex_S1.side = "BUY" ∨ ex_S1.side = "SELL") ∧ 0 < ex_S1.quantity ∧
      traded (add_order insertion ex_book1 ex_S1).trades = 4 ∧
      (add_order insertion ex_book1 ex_S1).order.quantity = 0 ∧
      traded (add_order insertion ex_book1 ex_S1).trades ≤ ex_S1.quantity) ∧
    (traded (add_order insertion ex_book4 ex_S3).trades = 6 ∧
      ((add_order insertion ex_book4 ex_S3).book "SPY").sell_orders =
        [(100, [⟨"S3", "SPY", "SELL", 100, 4, 4⟩]), (105, [ex_S2])] ∧
      ∃ l, (ex_S3.price, l) ∈
          own_side ex_S3 ((add_order insertion ex_book4 ex_S3).book ex_S3.instrument) ∧
        (⟨ex_S3.order_id, ex_S3.instrument, ex_S3.side, ex_S3.price,
          ex_S3.quantity - traded (add_order insertion ex_book4 ex_S3).trades,
          ex_S3.timestamp⟩ : Order) ∈ l) :=
  ⟨⟨by decide, by decide, by decide, by decide,
      (quantity_conservation insertion ex_book1 ex_S1 (by decide) (by decide)).1⟩,
    by decide, by decide,
    (quantity_conservation insertion ex_book4 ex_S3 (by decide) (by decide)).2.2.1
      (by decide)⟩

/-- C2. Resting price wins.  For every reachable book and every submitted order, the
`i`-th trade returned by `add_order` is made against the `i`-th resting order of the
opposite side in priority order (the earlier ones having been consumed), and its price
is the limit price of that resting order, whatever the price of the incoming order.
Hence a trade of an incoming BUY has a price at most the limit of the BUY and a trade
of an incoming SELL a price at least the limit of the SELL. -/
theorem resting_price_wins (S : StdSort) (ob : OrderBook) (h : Reachable S ob) (o : Order)
    (i : Nat) (t : Trade) (ht : (add_order S ob o).trades[i]? = some t) :
    ∃ r, (resting (opp_side o (ob o.instrument)))[i]? = some r ∧ t.price = r.price ∧
      (o.side = "BUY" → t.price ≤ o.price) ∧ (o.side = "SELL" → o.price ≤ t.price) := by
  have hok := h.bookOK o.instrument
  by_cases hb : o.side = "BUY"
  · rw [(add_order_buy S ob o hb).1] at ht
    obtain ⟨r, hr, htr, _, e, he, hre, hlim⟩ := cross_and_rest_nth S true _ o _ _ i t ht
    have hp : t.price = r.price := by rw [htr, mk_trade_price]
    refine ⟨r, by simpa only [opp_side, hb, if_true] using hr, hp, fun _ => ?_, fun hs => ?_⟩
    · rw [hp, hok.asks.price e he r hre]
      simpa [ahead] using hlim
    · rw [hb] at hs; exact absurd hs (by decide)
  · by_cases hs : o.side = "SELL"
    · rw [(add_order_sell S ob o hs).1] at ht
      obtain ⟨r, hr, htr, _, e, he, hre, hlim⟩ := cross_and_rest_nth S false _ o _ _ i t ht
      have hp : t.price = r.price := by rw [htr, mk_trade_price]
      refine ⟨r, by simpa only [opp_side, hb, if_false] using hr, hp,
        fun hb' => absurd hb' hb, fun _ => ?_⟩
      rw [hp, hok.bids.price e he r hre]
      simpa [ahead] using hlim
    · rw [(add_order_other S ob o hb hs).1] at ht
      simp at ht

theorem resting_price_wins_witness :
    (add_order insertion ex_book1 ex_S1).trades[0]? = some ⟨"SPY", "B1", "S1", 100, 4⟩ ∧
      ex_S1.price = 99 ∧
      ∃ r, (resting (opp_side ex_S1 (ex_book1 ex_S1.instrument)))[0]? = some r ∧
        (100 : ℚ) = r.price ∧ (ex_S1.side = "BUY" → (100 : ℚ) ≤ ex_S1.price) ∧
        (ex_S1.side = "SELL" → ex_S1.price ≤ (100 : ℚ)) :=
  ⟨by decide, by decide,
    resting_price_wins insertion ex_book1 (Reachable.step ex_B1 Reachable.empty) ex_S1 0
      ⟨"SPY", "B1", "S1", 100, 4⟩ (by decide)⟩

/-- C3. Time priority.  Let the orders `os` be submitted to the empty book with strictly
increasing timestamps, and let `A` and `B` rest in the same price level of the side
that the next order `o` is matched against, `A` being what rests of a submitted order
`oA` and `B` what rests of an order `oB` submitted after `oA`, so that `A` came to rest
before `B`.  Then `A` stands in front of `B` in the vector of the level, at places
`a < b` of the priority order of that side.  If the call returns no more than `b`
trades, no trade is made against `B`, which rests on as it was.  If it returns a trade at place `b`, that
trade names `B` as resting counterparty, the earlier trade at place `a` names `A` and
has the whole quantity of `A`, and no order with the timestamp of `A` rests after the
call: `A` is fully consumed and removed before `B` receives any match.
Scenario: two buys `B2` then `B3` at 50.00 and a sell at 50.00 or below whose quantity
lies strictly between the quantity of `B2` and the sum of both give exactly two trades,
the first for all of `B2`, the second for the rest against `B3`, which stays in the
book with what is left of it. -/
theorem time_priority (S : StdSort) (os : List Order)
    (hinc : os.Pairwise (fun a b => a.timestamp < b.timestamp)) (o : Order)
    (hside : o.side = "BUY" ∨ o.side = "SELL") (p : ℚ) (l : List Order) (A B : Order)
    (hl : (p, l) ∈ opp_side o (submit_all S OrderBook.empty os o.instrument))
    (hA : A ∈ l) (hB : B ∈ l) (oA oB : Order) (u v w : List Order)
    (hos : os = u ++ oA :: (v ++ oB :: w)) (hsA : same_order A oA) (hsB : same_order B oB) :
    ((∃ pre mid post, l = pre ++ A :: (mid ++ B :: post)) ∧
      ∃ a b : Nat, a < b ∧
        (resting (opp_side o (submit_all S OrderBook.empty os o.instrument)))[a]? = some A ∧
        (resting (opp_side o (submit_all S OrderBook.empty os o.instrument)))[b]? = some B ∧
        ((add_order S (submit_all S OrderBook.empty os) o).trades.length ≤ b →
          B ∈ resting (opp_side o
            ((add_order S (submit_all S OrderBook.empty os) o).book o.instrument))) ∧
        ∀ t, (add_order S (submit_all S OrderBook.empty os) o).trades[b]? = some t →
          resting_id o t = B.order_id ∧
          (∃ tA, (add_order S (submit_all S OrderBook.empty os) o).trades[a]? = some tA ∧
            resting_id o tA = A.order_id ∧ tA.quantity = A.quantity) ∧
          ∀ x ∈ resting (opp_side o
              ((add_order S (submit_all S OrderBook.empty os) o).book o.instrument)),
            x.timestamp ≠ A.timestamp) ∧
    ∀ B2 B3 X : Order, B2.side = "BUY" → B3.side = "BUY" → X.side = "SELL" →
      B3.instrument = B2.instrument → X.instrument = B2.instrument →
      B2.price = 50 → B3.price = 50 → X.price ≤ 50 → B2.timestamp < B3.timestamp →
      0 < B2.quantity → 0 < B3.quantity → B2.quantity < X.quantity →
      X.quantity < B2.quantity + B3.quantity →
      (submit_all S OrderBook.empty [B2, B3] B2.instrument).buy_orders = [(50, [B2, B3])] ∧
        (add_order S (submit_all S OrderBook.empty [B2, B3]) X).trades =
          [⟨B2.instrument, B2.order_id, X.order_id, 50, B2.quantity⟩,
            ⟨B2.instrument, B3.order_id, X.order_id, 50, X.quantity - B2.quantity⟩] ∧
        resting ((add_order S (submit_all S OrderBook.empty [B2, B3]) X).book
            B2.instrument).buy_orders =
          [⟨B3.order_id, B3.instrument, B3.side, B3.price,
            B3.quantity - (X.quantity - B2.quantity), B3.timestamp⟩] := by
  refine ⟨?_, fun B2 B3 X a1 a2 a3 a4 a5 a6 a7 a8 a9 a10 a11 a12 a13 =>
    two_buys_then_sell S B2 B3 X a1 a2 a3 a4 a5 a6 a7 a8 a9 a10 a11 a12 a13⟩
  have hAB : A.timestamp < B.timestamp := by
    have hA' : A.timestamp = oA.timestamp := by rw [hsA]
    have hB' : B.timestamp = oB.timestamp := by rw [hsB]
    rw [hA', hB']
    rw [hos] at hinc
    exact (List.pairwise_cons.mp (List.pairwise_append.mp hinc).2.1).1 oB (by simp)
  have hok := (submit_all_reachable S Reachable.empty os).bookOK o.instrument
  have htm := submit_all_empty_times S os hinc o.instrument
  rcases hside with hb | hs
  · obtain ⟨ht, _, hbk⟩ := add_order_buy S (submit_all S OrderBook.empty os) o hb
    simp only [opp_side, hb, if_true] at hl ⊢
    obtain ⟨h1, a, b, hab, ha, hb', hkeep, hfill⟩ :=
      cross_and_rest_time_priority S true o.instrument o _
        (submit_all S OrderBook.empty os o.instrument).buy_orders hok.asks htm.asks
        p l A B hl hA hB hAB
    refine ⟨h1, a, b, hab, ha, hb', ?_, ?_⟩
    · rw [ht, hbk, Function.update_same]; exact hkeep
    · rw [ht, hbk, Function.update_same]
      intro t htb
      obtain ⟨g1, g2, g3⟩ := hfill t htb
      refine ⟨?_, ⟨_, g2, ?_, ?_⟩, g3⟩
      · rw [g1]; simp [resting_id, hb, mk_trade]
      · simp [resting_id, hb, mk_trade]
      · simp [mk_trade]
  · have hnb : ¬ o.side = "BUY" := by rw [hs]; decide
    obtain ⟨ht, _, hbk⟩ := add_order_sell S (submit_all S OrderBook.empty os) o hs
    simp only [opp_side, hnb, if_false] at hl ⊢
    obtain ⟨h1, a, b, hab, ha, hb', hkeep, hfill⟩ :=
      cross_and_rest_time_priority S false o.instrument o _
        (submit_all S OrderBook.empty os o.instrument).sell_orders hok.bids htm.bids
        p l A B hl hA hB hAB
    refine ⟨h1, a, b, hab, ha, hb', ?_, ?_⟩
    · rw [ht, hbk, Function.update_same]; exact hkeep
    · rw [ht, hbk, Function.update_same]
      intro t htb
      obtain ⟨g1, g2, g3⟩ := hfill t htb
      refine ⟨?_, ⟨_, g2, ?_, ?_⟩, g3⟩
      · rw [g1]; simp [resting_id, hnb, mk_trade]
      · simp [resting_id, hnb, mk_trade]
      · simp [mk_trade]

theorem time_priority_witness :
    [ex_B2, ex_B3].Pairwise (fun a b => a.timestamp < b.timestamp) ∧
      [ex_B2, ex_B3] = [] ++ ex_B2 :: ([] ++ ex_B3 :: []) ∧
      (submit_all insertion OrderBook.empty [ex_B2, ex_B3] "SPY").buy_orders =
        [(50, [ex_B2, ex_B3])] ∧
      (add_order insertion (submit_all insertion OrderBook.empty [ex_B2, ex_B3]) ex_S4).trades =
        [⟨"SPY", "B2", "S4", 50, 5⟩, ⟨"SPY", "B3", "S4", 50, 3⟩] ∧
      ((add_order insertion (submit_all insertion OrderBook.empty [ex_B2, ex_B3]) ex_S4).book
          "SPY").buy_orders = [(50, [⟨"B3", "SPY", "BUY", 50, 4, 2⟩])] ∧
      ∃ pre mid post, [ex_B2, ex_B3] = pre ++ ex_B2 :: (mid ++ ex_B3 :: post) :=
  ⟨by decide, rfl, by decide, by decide, by decide,
    (time_priority insertion [ex_B2, ex_B3] (by decide) ex_S4 (by decide) 50
      [ex_B2, ex_B3] ex_B2 ex_B3 (by decide) (by decide) (by decide) ex_B2 ex_B3 [] [] [] rfl
      rfl rfl).1.1⟩

/-- C4. No crossed resting book.  In every state reachable from the empty book, for every
instrument whose bid map and ask map are both non-empty, the price of the first bid
level is strictly less than the price of the first ask level; the first bid level is the
highest bid and the first ask level the lowest ask. -/
theorem no_crossed_book (S : StdSort) (ob : OrderBook) (h : Reachable S ob) (i : String)
    (bid ask : ℚ × List Order) (hb : (ob i).buy_orders.head? = some bid)
    (ha : (ob i).sell_orders.head? = some ask) :
    bid.1 < ask.1 ∧ (∀ e ∈ (ob i).buy_orders, e.1 ≤ bid.1) ∧
      (∀ e ∈ (ob i).sell_orders, ask.1 ≤ e.1) := by
  have hok := h.bookOK i
  obtain ⟨rb, hrb⟩ : ∃ rb, (ob i).buy_orders = bid :: rb := by
    cases hl : (ob i).buy_orders with
    | nil => rw [hl] at hb; simp at hb
    | cons x xs => rw [hl] at hb; simp at hb; exact ⟨xs, by rw [hb]⟩
  obtain ⟨ra, hra⟩ : ∃ ra, (ob i).sell_orders = ask :: ra := by
    cases hl : (ob i).sell_orders with
    | nil => rw [hl] at ha; simp at ha
    | cons x xs => rw [hl] at ha; simp at ha; exact ⟨xs, by rw [ha]⟩
  refine ⟨hok.uncrossed bid (by rw [hrb]; exact List.mem_cons_self _ _) ask
    (by rw [hra]; exact List.mem_cons_self _ _), ?_, ?_⟩
  · intro e he
    have hk := hok.bids.keys
    rw [hrb] at he hk
    rcases List.mem_cons.mp he with rfl | he
    · exact le_refl _
    · have := (List.pairwise_cons.mp hk).1 e he
      simp only [ahead, Bool.false_eq_true, if_false, gt_iff_lt] at this
      exact le_of_lt this
  · intro e he
    have hk := hok.asks.keys
    rw [hra] at he hk
    rcases List.mem_cons.mp he with rfl | he
    · exact le_refl _
    · have := (List.pairwise_cons.mp hk).1 e he
      simp only [ahead, if_true] at this
      exact le_of_lt this

theorem no_crossed_book_witness :
    (ex_book2 "SPY").buy_orders.head? = some (100, [ex_B1]) ∧
      (ex_book2 "SPY").sell_orders.head? = some (105, [ex_S2]) ∧ (100 : ℚ) < 105 :=
  ⟨by decide, by decide,
    (no_crossed_book insertion ex_book2
      (submit_all_reachable insertion Reachable.empty [ex_B1, ex_S2]) "SPY"
      (100, [ex_B1]) (105, [ex_S2]) (by decide) (by decide)).1⟩

/-- C5. Level pruning.  In every state reachable from the empty book every price level
present in the bid map or the ask map of any instrument has a non-empty vector of
orders, and this holds again right after any further submission.  Moreover every level
of the matched side after a submission is the level at the same price before it and
still holds one of its orders (its quantity apart): a level whose last order is filled
by a submission is erased by that same submission. -/
theorem level_pruning (S : StdSort) (ob : OrderBook) (h : Reachable S ob) (i : String) :
    (∀ e, e ∈ (ob i).buy_orders ∨ e ∈ (ob i).sell_orders → e.2 ≠ []) ∧
      ∀ o : Order,
        (∀ e, e ∈ ((add_order S ob o).book i).buy_orders ∨
          e ∈ ((add_order S ob o).book i).sell_orders → e.2 ≠ []) ∧
        ∀ e ∈ opp_side o ((add_order S ob o).book o.instrument),
          ∃ l, (e.1, l) ∈ opp_side o (ob o.instrument) ∧
            ∃ x ∈ e.2, ∃ y ∈ l, same_order x y := by
  have key : ∀ (b : OrderBook) (j : String), Reachable S b →
      ∀ e, e ∈ (b j).buy_orders ∨ e ∈ (b j).sell_orders → e.2 ≠ [] := by
    intro b j hb e he
    rcases he with he | he
    · exact (hb.bookOK j).bids.nonempty e he
    · exact (hb.bookOK j).asks.nonempty e he
  refine ⟨key ob i h, fun o => ⟨key _ i (Reachable.step o h), fun e he => ?_⟩⟩
  obtain ⟨l, hl, hfrom⟩ := add_order_levels_from S ob o e he
  have hne : e.2 ≠ [] := by
    refine key _ o.instrument (Reachable.step o h) e ?_
    unfold opp_side at he
    split_ifs at he
    · exact Or.inr he
    · exact Or.inl he
  obtain ⟨x, hx⟩ := List.exists_mem_of_ne_nil _ hne
  obtain ⟨y, hy, hxy⟩ := hfrom x hx
  exact ⟨l, hl, x, hx, y, hy, hxy⟩

theorem level_pruning_witness :
    (ex_book4 "SPY").buy_orders = [(100, [⟨"B1", "SPY", "BUY", 100, 6, 1⟩])] ∧
      ((add_order insertion ex_book4 ex_S3).book "SPY").buy_orders = [] ∧
      ∀ e, e ∈ (ex_book4 "SPY").buy_orders ∨ e ∈ (ex_book4 "SPY").sell_orders → e.2 ≠ [] :=
  ⟨by decide, by decide,
    (level_pruning insertion ex_book4
      (submit_all_reachable insertion Reachable.empty [ex_B1, ex_S1, ex_S2]) "SPY").1⟩

/-- C6. No dead resting order.  In every state reachable from the empty book by calls of
`add_order` with arbitrary orders, orders of zero or negative quantity included, every
order held in a vector of a price level has a quantity strictly greater than zero. -/
theorem no_dead_resting_order (S : StdSort) (ob : OrderBook) (h : Reachable S ob)
    (i : String) (e : ℚ × List Order)
    (he : e ∈ (ob i).buy_orders ∨ e ∈ (ob i).sell_orders) (r : Order) (hr : r ∈ e.2) :
    0 < r.quantity := by
  rcases he with he | he
  · exact (h.bookOK i).bids.qty e he r hr
  · exact (h.bookOK i).asks.qty e he r hr

theorem no_dead_resting_order_witness :
    ex_Z.quantity = 0 ∧ ex_N.quantity = -5 ∧
      (ex_book3 "SPY").buy_orders = [(100, [ex_B1])] ∧
      (ex_book3 "SPY").sell_orders = [(105, [ex_S2])] ∧ 0 < ex_B1.quantity :=
  ⟨by decide, by decide, by decide, by decide,
    no_dead_resting_order insertion ex_book3
      (submit_all_reachable insertion Reachable.empty [ex_Z, ex_B1, ex_N, ex_S2]) "SPY"
      (100, [ex_B1]) (Or.inl (by decide)) ex_B1 (by decide)⟩

/-- C7. Trade-log scope.  For every book and every order: two books that differ only in
their stored trade logs return the same list; the stored trade log of the instrument
after the call is the returned list; and the returned list is exactly what the matching
loop of this call appends, in the order of appending: started on any log `T` the loop
ends with `T` followed by the returned list, and `add_order` starts it on the emptied
log.  For a side that is neither BUY nor SELL no loop runs and the list is empty. -/
theorem trade_log_scope (S : StdSort) (ob ob' : OrderBook) (o : Order)
    (hsame : ∀ i, (ob i).buy_orders = (ob' i).buy_orders ∧
      (ob i).sell_orders = (ob' i).sell_orders) :
    (add_order S ob o).trades = (add_order S ob' o).trades ∧
      ((add_order S ob o).book o.instrument).trades = (add_order S ob o).trades ∧
      (o.side = "BUY" → ∀ T : List Trade,
        (while_loop (buy_body o.instrument) (loop_bound (ob o.instrument).sell_orders)
          ⟨o, (ob o.instrument).sell_orders, T⟩).trades = T ++ (add_order S ob o).trades) ∧
      (o.side = "SELL" → ∀ T : List Trade,
        (while_loop (sell_body o.instrument) (loop_bound (ob o.instrument).buy_orders)
          ⟨o, (ob o.instrument).buy_orders, T⟩).trades = T ++ (add_order S ob o).trades) ∧
      (o.side ≠ "BUY" → o.side ≠ "SELL" → (add_order S ob o).trades = []) := by
  obtain ⟨h1, h2⟩ := hsame o.instrument
  refine ⟨?_, ?_, ?_, ?_, ?_⟩
  · by_cases hb : o.side = "BUY"
    · rw [(add_order_buy S ob o hb).1, (add_order_buy S ob' o hb).1, cross_and_rest_trades,
        cross_and_rest_trades, h2]
    · by_cases hs : o.side = "SELL"
      · rw [(add_order_sell S ob o hs).1, (add_order_sell S ob' o hs).1,
          cross_and_rest_trades, cross_and_rest_trades, h1]
      · rw [(add_order_other S ob o hb hs).1, (add_order_other S ob' o hb hs).1]
  · by_cases hb : o.side = "BUY"
    · rw [(add_order_buy S ob o hb).1, (add_order_buy S ob o hb).2.2, Function.update_same]
    · by_cases hs : o.side = "SELL"
      · rw [(add_order_sell S ob o hs).1, (add_order_sell S ob o hs).2.2,
          Function.update_same]
      · rw [(add_order_other S ob o hb hs).1, (add_order_other S ob o hb hs).2.2,
          Function.update_same]
  · intro hb T
    rw [(add_order_buy S ob o hb).1, buy_body_eq]
    exact while_loop_log true o.instrument o _ T
  · intro hs T
    rw [(add_order_sell S ob o hs).1, sell_body_eq]
    exact while_loop_log false o.instrument o _ T
  · intro hb hs
    exact (add_order_other S ob o hb hs).1

theorem trade_log_scope_witness :
    (ex_book5 "SPY").trades ≠ (ex_book5_nolog "SPY").trades ∧
      (add_order insertion ex_book5 ex_S3).trades = [⟨"SPY", "B1", "S3", 100, 6⟩] ∧
      (add_order insertion ex_book5 ex_S3).trades =
        (add_order insertion ex_book5_nolog ex_S3).trades :=
  ⟨by decide, by decide,
    (trade_log_scope insertion ex_book5 ex_book5_nolog ex_S3 (fun i => by
      by_cases hi : i = "SPY"
      · subst hi; exact ⟨by decide, by decide⟩
      · simp [ex_book5_nolog, Function.update_noteq hi])).1⟩

/-- C8. An unrecognised side is a silent no-op.  For every book and every order whose
stored side (the constructor stores it uppercased) is neither "BUY" nor "SELL",
`add_order` returns an empty list of trades, leaves the order as it is, leaves the bid
map and the ask map of every instrument unchanged, empties the trade log of the
instrument of the order and leaves the trade log of every other instrument unchanged. -/
theorem unrecognised_side_noop (S : StdSort) (ob : OrderBook) (o : Order)
    (h1 : o.side ≠ "BUY") (h2 : o.side ≠ "SELL") :
    (add_order S ob o).trades = [] ∧ (add_order S ob o).order = o ∧
      (∀ i, ((add_order S ob o).book i).buy_orders = (ob i).buy_orders ∧
        ((add_order S ob o).book i).sell_orders = (ob i).sell_orders) ∧
      ((add_order S ob o).book o.instrument).trades = [] ∧
      ∀ i, i ≠ o.instrument → ((add_order S ob o).book i).trades = (ob i).trades := by
  obtain ⟨ht, ho, hbk⟩ := add_order_other S ob o h1 h2
  refine ⟨ht, ho, ?_, ?_, ?_⟩
  · intro i
    rw [hbk]
    by_cases hi : i = o.instrument
    · subst hi; rw [Function.update_same]; exact ⟨rfl, rfl⟩
    · rw [Function.update_noteq hi]; exact ⟨rfl, rfl⟩
  · rw [hbk, Function.update_same]
  · intro i hi
    rw [hbk, Function.update_noteq hi]

theorem unrecognised_side_noop_witness :
    ex_H.side = "HOLD" ∧ ex_H.instrument = "SPY" ∧ (ex_book5 "SPY").trades ≠ [] ∧
      ((add_order insertion ex_book5 ex_H).trades = [] ∧
        (add_order insertion ex_book5 ex_H).order = ex_H ∧
        (∀ i, ((add_order insertion ex_book5 ex_H).book i).buy_orders =
            (ex_book5 i).buy_orders ∧
          ((add_order insertion ex_book5 ex_H).book i).sell_orders =
            (ex_book5 i).sell_orders) ∧
        ((add_order insertion ex_book5 ex_H).book ex_H.instrument).trades = [] ∧
        ∀ i, i ≠ ex_H.instrument →
          ((add_order insertion ex_book5 ex_H).book i).trades = (ex_book5 i).trades) :=
  ⟨by decide, by decide, by decide,
    unrecognised_side_noop insertion ex_book5 ex_H (by decide) (by decide)⟩

/-- C9. Trade attribution.  For every book and every submitted order, the `i`-th trade
returned by `add_order` is made against the `i`-th resting order of the opposite side in
priority order.  For an incoming BUY its `buy_order_id` is the identifier of the
incoming order and its `sell_order_id` that of this resting ask; for an incoming SELL
its `sell_order_id` is the identifier of the incoming order and its `buy_order_id` that
of this resting bid.  In both cases its instrument is the (stored, uppercased)
instrument of the incoming order. -/
theorem trade_attribution (S : StdSort) (ob : OrderBook) (o : Order) :
    (o.side = "BUY" → ∀ (i : Nat) (t : Trade), (add_order S ob o).trades[i]? = some t →
      ∃ r, (resting (ob o.instrument).sell_orders)[i]? = some r ∧
        t.buy_order_id = o.order_id ∧ t.sell_order_id = r.order_id ∧
        t.instrument = o.instrument) ∧
    (o.side = "SELL" → ∀ (i : Nat) (t : Trade), (add_order S ob o).trades[i]? = some t →
      ∃ r, (resting (ob o.instrument).buy_orders)[i]? = some r ∧
        t.sell_order_id = o.order_id ∧ t.buy_order_id = r.order_id ∧
        t.instrument = o.instrument) := by
  constructor
  · intro hb i t ht
    rw [(add_order_buy S ob o hb).1] at ht
    obtain ⟨r, hr, htr, _⟩ := cross_and_rest_nth S true _ o _ _ i t ht
    refine ⟨r, hr, ?_, ?_, ?_⟩ <;> rw [htr] <;> rfl
  · intro hs i t ht
    rw [(add_order_sell S ob o hs).1] at ht
    obtain ⟨r, hr, htr, _⟩ := cross_and_rest_nth S false _ o _ _ i t ht
    refine ⟨r, hr, ?_, ?_, ?_⟩ <;> rw [htr] <;> rfl

theorem trade_attribution_witness :
    ex_S1.side = "SELL" ∧
      (add_order insertion ex_book1 ex_S1).trades[0]? = some ⟨"SPY", "B1", "S1", 100, 4⟩ ∧
      ∃ r, (resting (ex_book1 ex_S1.instrument).buy_orders)[0]? = some r ∧
        "S1" = ex_S1.order_id ∧ "B1" = r.order_id ∧ "SPY" = ex_S1.instrument :=
  ⟨by decide, by decide,
    (trade_attribution insertion ex_book1 ex_S1).2 (by decide) 0 ⟨"SPY", "B1", "S1", 100, 4⟩
      (by decide)⟩

/-- C10. Trade quantity is strictly positive.  For every sequence of orders submitted
to the empty book, whatever their quantities, prices and side strings, and every further
order, every trade returned by `add_order` has a quantity greater than zero. -/
theorem trade_quantity_pos (S : StdSort) (os : List Order) (o : Order) (t : Trade)
    (ht : t ∈ (add_order S (submit_all S OrderBook.empty os) o).trades) : 0 < t.quantity := by
  have hok := (submit_all_reachable S Reachable.empty os).bookOK o.instrument
  have hpos : ∀ (buy : Bool) (lv : Levels), SideOK buy lv →
      ∀ r ∈ resting (eligible buy o.price lv), 0 < r.quantity := by
    intro buy lv hlv r hr
    refine hlv.resting_pos r ?_
    rw [← resting_eligible_beyond buy o.price lv]
    exact List.mem_append_left _ hr
  by_cases hb : o.side = "BUY"
  · rw [(add_order_buy S _ o hb).1, cross_and_rest_trades, List.nil_append] at ht
    exact fills_pos true _ o _ _ (hpos true _ hok.asks) t ht
  · by_cases hs : o.side = "SELL"
    · rw [(add_order_sell S _ o hs).1, cross_and_rest_trades, List.nil_append] at ht
      exact fills_pos false _ o _ _ (hpos false _ hok.bids) t ht
    · rw [(add_order_other S _ o hb hs).1] at ht
      simp at ht

theorem trade_quantity_pos_witness :
    ex_Z.quantity = 0 ∧ ex_N.quantity = -5 ∧
      (⟨"SPY", "B1", "S1", 100, 4⟩ : Trade) ∈
        (add_order insertion (submit_all insertion OrderBook.empty [ex_Z, ex_B1, ex_N])
          ex_S1).trades ∧
      (0 : Int) < 4 :=
  ⟨by decide, by decide, by decide,
    trade_quantity_pos insertion [ex_Z, ex_B1, ex_N] ex_S1 ⟨"SPY", "B1", "S1", 100, 4⟩
      (by decide)⟩

/-- C11. Counterexample to the claim as stated: a sell resting at the price zero is
matched by a buy, and the trade carries the price zero. -/
theorem trade_price_pos_counterexample :
    (add_order insertion (submit_all insertion OrderBook.empty [ex_S0]) ex_B0).trades =
        [⟨"SPY", "B0", "S0", 0, 3⟩] ∧
      ¬ ∀ t ∈ (add_order insertion (submit_all insertion OrderBook.empty [ex_S0]) ex_B0).trades,
        0 < t.price := by
  decide

/-- C11, amended.  For every sequence of orders submitted to the empty book, every
trade returned by `add_order` carries the limit price of an order submitted earlier
(the resting one); hence every trade has a price greater than zero whenever every
submitted order has a price greater than zero. -/
theorem trade_price_pos (S : StdSort) (os : List Order) (o : Order) (t : Trade)
    (ht : t ∈ (add_order S (submit_all S OrderBook.empty os) o).trades) :
    (∃ x ∈ os, t.price = x.price) ∧ ((∀ x ∈ os, 0 < x.price) → 0 < t.price) := by
  obtain ⟨x, hx, hp⟩ := trade_price_from_submitted S os o t ht
  exact ⟨⟨x, hx, hp⟩, fun hpos => by rw [hp]; exact hpos x hx⟩

theorem trade_price_pos_witness :
    (∀ x ∈ [ex_B1], 0 < x.price) ∧
      (⟨"SPY", "B1", "S1", 100, 4⟩ : Trade) ∈
        (add_order insertion (submit_all insertion OrderBook.empty [ex_B1]) ex_S1).trades ∧
      (0 : ℚ) < 100 :=
  ⟨by decide, by decide,
    (trade_price_pos insertion [ex_B1] ex_S1 ⟨"SPY", "B1", "S1", 100, 4⟩ (by decide)).2
      (by decide)⟩

/-- C12. Case-insensitive normalization.  The constructor stores the uppercased
instrument and the uppercased side, uppercasing is idempotent, and so the order
constructed from `inst` and `s` is the order constructed from `upper inst` and
`upper s` with the same identifier, price, quantity and timestamp; submitting either
gives the same trades, the same order and the same book.  In particular "buy", "Sell"
and "spy" are stored as "BUY", "SELL" and "SPY". -/
theorem case_insensitive_normalization (S : StdSort) (ob : OrderBook) (id inst s : String)
    (p : ℚ) (q : Int) (ts now : ℚ) :
    (Order.ctor id inst s p q ts now).instrument = upper inst ∧
      (Order.ctor id inst s p q ts now).side = upper s ∧
      upper (upper inst) = upper inst ∧ upper (upper s) = upper s ∧
      Order.ctor id inst s p q ts now = Order.ctor id (upper inst) (upper s) p q ts now ∧
      (add_order S ob (Order.ctor id inst s p q ts now)).trades =
        (add_order S ob (Order.ctor id (upper inst) (upper s) p q ts now)).trades ∧
      (add_order S ob (Order.ctor id inst s p q ts now)).order =
        (add_order S ob (Order.ctor id (upper inst) (upper s) p q ts now)).order ∧
      (add_order S ob (Order.ctor id inst s p q ts now)).book =
        (add_order S ob (Order.ctor id (upper inst) (upper s) p q ts now)).book ∧
      upper "buy" = "BUY" ∧ upper "Sell" = "SELL" ∧ upper "spy" = "SPY" ∧
      add_order S ob (Order.ctor id "spy" "buy" p q ts now) =
        add_order S ob (Order.ctor id "SPY" "BUY" p q ts now) ∧
      add_order S ob (Order.ctor id "spy" "Sell" p q ts now) =
        add_order S ob (Order.ctor id "SPY" "SELL" p q ts now) := by
  have heq : Order.ctor id inst s p q ts now =
      Order.ctor id (upper inst) (upper s) p q ts now := by
    simp only [Order.ctor, upper_idem]
  have h1 : upper "buy" = "BUY" := by decide
  have h2 : upper "Sell" = "SELL" := by decide
  have h3 : upper "spy" = "SPY" := by decide
  have h4 : upper "BUY" = "BUY" := by decide
  have h5 : upper "SELL" = "SELL" := by decide
  have h6 : upper "SPY" = "SPY" := by decide
  refine ⟨rfl, rfl, upper_idem inst, upper_idem s, heq, by rw [heq], by rw [heq], by rw [heq],
    h1, h2, h3, ?_, ?_⟩
  · simp only [Order.ctor, h1, h3, h4, h6]
  · simp only [Order.ctor, h2, h3, h5, h6]

/-- C13. Concrete scenario chain.  Starting from the empty book, for any instrument,
any timestamps and any conforming sort, submitting in order BUY B1 at 100.00 for 10,
SELL S1 at 99.00 for 4, SELL S2 at 105.00 for 5 and SELL S3 at 100.00 for 10 returns
respectively no trade, exactly the trade (buy B1, sell S1, price 100.00, quantity 4),
no trade, and exactly the trade (buy B1, sell S3, price 100.00, quantity 6).  After the
second submission B1 rests with quantity 6 and the ask side is empty.  The final book
has an empty bid side and an ask side of exactly two levels in this order: 100.00
holding S3 with quantity 4, then 105.00 holding S2 with quantity 5. -/
theorem scenario_chain (S : StdSort) (inst : String) (t1 t2 t3 t4 : ℚ) :
    (add_order S OrderBook.empty ⟨"B1", inst, "BUY", 100, 10, t1⟩).trades = [] ∧
    (add_order S (submit_all S OrderBook.empty [⟨"B1", inst, "BUY", 100, 10, t1⟩])
      ⟨"S1", inst, "SELL", 99, 4, t2⟩).trades = [⟨inst, "B1", "S1", 100, 4⟩] ∧
    (submit_all S OrderBook.empty [⟨"B1", inst, "BUY", 100, 10, t1⟩,
      ⟨"S1", inst, "SELL", 99, 4, t2⟩] inst).buy_orders =
        [(100, [⟨"B1", inst, "BUY", 100, 6, t1⟩])] ∧
    (submit_all S OrderBook.empty [⟨"B1", inst, "BUY", 100, 10, t1⟩,
      ⟨"S1", inst, "SELL", 99, 4, t2⟩] inst).sell_orders = [] ∧
    (add_order S (submit_all S OrderBook.empty [⟨"B1", inst, "BUY", 100, 10, t1⟩,
      ⟨"S1", inst, "SELL", 99, 4, t2⟩]) ⟨"S2", inst, "SELL", 105, 5, t3⟩).trades = [] ∧
    (add_order S (submit_all S OrderBook.empty [⟨"B1", inst, "BUY", 100, 10, t1⟩,
      ⟨"S1", inst, "SELL", 99, 4, t2⟩, ⟨"S2", inst, "SELL", 105, 5, t3⟩])
      ⟨"S3", inst, "SELL", 100, 10, t4⟩).trades = [⟨inst, "B1", "S3", 100, 6⟩] ∧
    (submit_all S OrderBook.empty [⟨"B1", inst, "BUY", 100, 10, t1⟩,
      ⟨"S1", inst, "SELL", 99, 4, t2⟩, ⟨"S2", inst, "SELL", 105, 5, t3⟩,
      ⟨"S3", inst, "SELL", 100, 10, t4⟩] inst).buy_orders = [] ∧
    (submit_all S OrderBook.empty [⟨"B1", inst, "BUY", 100, 10, t1⟩,
      ⟨"S1", inst, "SELL", 99, 4, t2⟩, ⟨"S2", inst, "SELL", 105, 5, t3⟩,
      ⟨"S3", inst, "SELL", 100, 10, t4⟩] inst).sell_orders =
        [(100, [⟨"S3", inst, "SELL", 100, 4, t4⟩]), (105, [⟨"S2", inst, "SELL", 105, 5, t3⟩])] := by
  have hne : ¬ ("SELL" = "BUY") := by decide
  norm_num [hne, submit_all, add_order, add_buy_order, add_sell_order, while_loop, loop_bound, resting,
    buy_body, sell_body, push_and_sort, OrderBook.empty, InstrumentBook.empty, S.run_singleton]

/-- C14. Matching is maximal.  For every reachable book and every incoming order of
positive quantity `q` and limit price `p`: for a BUY the quantities of the returned
trades sum to the smaller of `q` and the total quantity of all resting asks of the
instrument priced at or below `p` before the call, and the list of trades is empty
exactly when no resting ask is priced at or below `p`; for a SELL the same holds with
the resting bids priced at or above `p`. -/
theorem matching_is_maximal (S : StdSort) (ob : OrderBook) (h : Reachable S ob) (o : Order)
    (hq : 0 < o.quantity) :
    (o.side = "BUY" →
      traded (add_order S ob o).trades =
          min o.quantity (qty_sum ((resting (ob o.instrument).sell_orders).filter
            (fun r => decide (r.price ≤ o.price)))) ∧
        ((add_order S ob o).trades = [] ↔
          ∀ r ∈ resting (ob o.instrument).sell_orders, ¬ r.price ≤ o.price)) ∧
    (o.side = "SELL" →
      traded (add_order S ob o).trades =
          min o.quantity (qty_sum ((resting (ob o.instrument).buy_orders).filter
            (fun r => decide (o.price ≤ r.price)))) ∧
        ((add_order S ob o).trades = [] ↔
          ∀ r ∈ resting (ob o.instrument).buy_orders, ¬ o.price ≤ r.price)) := by
  have hok := h.bookOK o.instrument
  constructor
  · intro hb
    rw [(add_order_buy S ob o hb).1]
    have hm := cross_and_rest_maximal S true o.instrument o _
      (ob o.instrument).buy_orders hok.asks hq
    have hf : (fun r : Order => !decide (ahead true o.price r.price)) =
        (fun r : Order => decide (r.price ≤ o.price)) := by
      funext r
      by_cases hc : ahead true o.price r.price
      · have : ¬ r.price ≤ o.price := by simpa [ahead] using hc
        simp [hc, this]
      · have : r.price ≤ o.price := by simpa [ahead] using hc
        simp [hc, this]
    rw [hf] at hm
    refine ⟨hm.1, hm.2.trans ?_⟩
    simp [ahead]
  · intro hs
    rw [(add_order_sell S ob o hs).1]
    have hm := cross_and_rest_maximal S false o.instrument o _
      (ob o.instrument).sell_orders hok.bids hq
    have hf : (fun r : Order => !decide (ahead false o.price r.price)) =
        (fun r : Order => decide (o.price ≤ r.price)) := by
      funext r
      by_cases hc : ahead false o.price r.price
      · have : ¬ o.price ≤ r.price := by simpa [ahead] using hc
        simp [hc, this]
      · have : o.price ≤ r.price := by simpa [ahead] using hc
        simp [hc, this]
    rw [hf] at hm
    refine ⟨hm.1, hm.2.trans ?_⟩
    simp [ahead]

theorem matching_is_maximal_witness :
    0 < ex_S3.quantity ∧ ex_S3.side = "SELL" ∧
      qty_sum ((resting (ex_book4 ex_S3.instrument).buy_orders).filter
        (fun r => decide (ex_S3.price ≤ r.price))) = 6 ∧
      traded (add_order insertion ex_book4 ex_S3).trades =
        min ex_S3.quantity (qty_sum ((resting (ex_book4 ex_S3.instrument).buy_orders).filter
          (fun r => decide (ex_S3.price ≤ r.price)))) :=
  ⟨by decide, by decide, by decide,
    ((matching_is_maximal insertion ex_book4
      (submit_all_reachable insertion Reachable.empty [ex_B1, ex_S1, ex_S2]) ex_S3
      (by decide)).2 (by decide)).1⟩

/-- C15. Price-time priority as prefix consumption.  For every reachable book and every
BUY or SELL submission let `F` be the resting orders of the opposite side in priority
order (best price level first, front to back within a level), `T` the returned trades
and `F'` the resting orders of the opposite side after the call.  The resting orders
named by the trades are, in trade order and each once, the first `T.length` orders of
`F`, and each trade carries the price of the order it names.  Either every trade took
the whole quantity of its order and `F'` is `F` without that prefix; or the last trade
took less than its order held, all earlier trades took the whole quantity of theirs, and
`F'` is `F` without the prefix but for this last order left in front with only its
quantity reduced.  In both cases all later orders are unchanged in quantity and order.
The prices of the trades of a BUY never decrease and those of a SELL never increase. -/
theorem prefix_consumption (S : StdSort) (ob : OrderBook) (h : Reachable S ob) (o : Order)
    (hside : o.side = "BUY" ∨ o.side = "SELL") (F F' : List Order) (T : List Trade)
    (hF : F = resting (opp_side o (ob o.instrument)))
    (hT : T = (add_order S ob o).trades)
    (hF' : F' = resting (opp_side o ((add_order S ob o).book o.instrument))) :
    T.length ≤ F.length ∧
      T.map (fun t => (resting_id o t, t.price)) =
        (F.take T.length).map (fun r => (r.order_id, r.price)) ∧
      ((F' = F.drop T.length ∧
          ∀ (i : Nat) (t : Trade) (r : Order), T[i]? = some t → F[i]? = some r →
            t.quantity = r.quantity) ∨
        ∃ (k : Nat) (r : Order) (t : Trade), T.length = k + 1 ∧ F[k]? = some r ∧
          T[k]? = some t ∧ 0 < t.quantity ∧ t.quantity < r.quantity ∧
          F' = ⟨r.order_id, r.instrument, r.side, r.price, r.quantity - t.quantity,
            r.timestamp⟩ :: F.drop (k + 1) ∧
          ∀ (i : Nat) (t' : Trade) (r' : Order), i < k → T[i]? = some t' →
            F[i]? = some r' → t'.quantity = r'.quantity) ∧
      (o.side = "BUY" → (T.map (fun t => t.price)).Pairwise (fun x y => x ≤ y)) ∧
      (o.side = "SELL" → (T.map (fun t => t.price)).Pairwise (fun x y => y ≤ x)) := by
  have hok := h.bookOK o.instrument
  subst hF hT hF'
  rcases hside with hb | hs
  · obtain ⟨ht, _, hbk⟩ := add_order_buy S ob o hb
    obtain ⟨h1, h2, h3, h4⟩ := cross_and_rest_consumes S true o.instrument o
      (ob o.instrument).sell_orders (ob o.instrument).buy_orders hok.asks
    have hid : (fun t : Trade => (resting_id o t, t.price)) =
        (fun t : Trade => (named_id true t, t.price)) := by
      funext t; simp [resting_id, hb, named_id]
    have hopp : ∀ b : InstrumentBook, opp_side o b = b.sell_orders :=
      fun b => by simp [opp_side, hb]
    rw [ht, hbk, Function.update_same, hid, hopp, hopp]
    refine ⟨h1, h2, h3, fun _ => h4.imp (fun hxy => ?_), fun hs => ?_⟩
    · simpa [ahead] using hxy
    · rw [hb] at hs; exact absurd hs (by decide)
  · have hnb : ¬ o.side = "BUY" := by rw [hs]; decide
    obtain ⟨ht, _, hbk⟩ := add_order_sell S ob o hs
    obtain ⟨h1, h2, h3, h4⟩ := cross_and_rest_consumes S false o.instrument o
      (ob o.instrument).buy_orders (ob o.instrument).sell_orders hok.bids
    have hid : (fun t : Trade => (resting_id o t, t.price)) =
        (fun t : Trade => (named_id false t, t.price)) := by
      funext t; simp [resting_id, hnb, named_id]
    have hopp : ∀ b : InstrumentBook, opp_side o b = b.buy_orders :=
      fun b => by simp [opp_side, hnb]
    rw [ht, hbk, Function.update_same, hid, hopp, hopp]
    refine ⟨h1, h2, h3, fun hb => absurd hb hnb, fun _ => h4.imp (fun hxy => ?_)⟩
    simpa [ahead] using hxy

theorem prefix_consumption_witness :
    resting (opp_side ex_S4 (ex_book8 ex_S4.instrument)) = [ex_B2, ex_B3] ∧
      (add_order insertion ex_book8 ex_S4).trades =
        [⟨"SPY", "B2", "S4", 50, 5⟩, ⟨"SPY", "B3", "S4", 50, 3⟩] ∧
      resting (opp_side ex_S4 ((add_order insertion ex_book8 ex_S4).book ex_S4.instrument)) =
        [⟨"B3", "SPY", "BUY", 50, 4, 2⟩] ∧
      (add_order insertion ex_book8 ex_S4).trades.length ≤
        (resting (opp_side ex_S4 (ex_book8 ex_S4.instrument))).length :=
  ⟨by decide, by decide, by decide,
    (prefix_consumption insertion ex_book8
      (submit_all_reachable insertion Reachable.empty [ex_B2, ex_B3]) ex_S4 (by decide)
      _ _ _ rfl rfl rfl).1⟩

/-- C16. Counterexample to the claim as stated.  Sixteen buys at one price with one
timestamp rest in the order of their submission, T1 to T16.  A seventeenth such buy
finds no ask, is pushed behind them, and `std::sort` (libstdc++, which sorts a vector of
more than 16 elements by quicksort) leaves the level as T9 T17 T16 ... T10 T1 T8 ... T2:
the orders that rested before the call do not keep their relative order. -/
theorem own_side_frame_counterexample :
    (submit_all ⟨std_sort, std_sort_perm, std_sort_sorted⟩ OrderBook.empty ex_ties
        "SPY").buy_orders = [(50, ex_ties)] ∧
      ((add_order ⟨std_sort, std_sort_perm, std_sort_sorted⟩
          (submit_all ⟨std_sort, std_sort_perm, std_sort_sorted⟩ OrderBook.empty ex_ties)
          (tie "T17")).book "SPY").buy_orders =
        [(50, ["T9", "T17", "T16", "T15", "T14", "T13", "T12", "T11", "T10", "T1", "T8", "T7",
          "T6", "T5", "T4", "T3", "T2"].map tie)] ∧
      ¬ List.Sublist ex_ties (["T9", "T17", "T16", "T15", "T14", "T13", "T12", "T11", "T10",
        "T1", "T8", "T7", "T6", "T5", "T4", "T3", "T2"].map tie) := by
  decide

/-- C16, amended.  For every reachable book and every incoming BUY or SELL, the own side
of the order (the bids for a BUY, the asks for a SELL) is left as it was when nothing of
the order remains.  Otherwise it is the side before the call with exactly one entry
added, the remainder of the order: either a level at its limit price existed, all
other levels are untouched and the vector of that level holds the orders it held, with
their quantities, and the remainder; or no level at that price existed and a new level
holding only the remainder stands between the untouched levels.  The orders that
rested in the level keep their relative order whenever they carry pairwise distinct
timestamps; with the `std::sort` of libstdc++ also whenever the level held fewer than 16
orders; and in every case when `std::sort` acts as the stable straight insertion.  The
order among equal timestamps is otherwise left to `std::sort`. -/
theorem own_side_frame (S : StdSort) (ob : OrderBook) (h : Reachable S ob) (o : Order)
    (hside : o.side = "BUY" ∨ o.side = "SELL") :
    (¬ 0 < (add_order S ob o).order.quantity →
      own_side o ((add_order S ob o).book o.instrument) = own_side o (ob o.instrument)) ∧
    (0 < (add_order S ob o).order.quantity →
      (∃ L1 l L2 l', own_side o (ob o.instrument) = L1 ++ (o.price, l) :: L2 ∧
        own_side o ((add_order S ob o).book o.instrument) = L1 ++ (o.price, l') :: L2 ∧
        l'.Perm (l ++ [(add_order S ob o).order]) ∧
        ((l.map (fun r => r.timestamp)).Nodup →
          ∃ l1 l2, l = l1 ++ l2 ∧ l' = l1 ++ (add_order S ob o).order :: l2) ∧
        ((∀ v, S.run v = std_sort v) → l.length < 16 →
          ∃ l1 l2, l = l1 ++ l2 ∧ l' = l1 ++ (add_order S ob o).order :: l2) ∧
        ((∀ v, S.run v = stable_sort v) →
          ∃ l1 l2, l = l1 ++ l2 ∧ l' = l1 ++ (add_order S ob o).order :: l2)) ∨
      (∃ L1 L2, own_side o (ob o.instrument) = L1 ++ L2 ∧
        (∀ e ∈ own_side o (ob o.instrument), e.1 ≠ o.price) ∧
        own_side o ((add_order S ob o).book o.instrument) =
          L1 ++ (o.price, [(add_order S ob o).order]) :: L2)) := by
  have hok := h.bookOK o.instrument
  have key : ∀ (buy : Bool) (opp own : Levels), SideOK (!buy) own →
      (¬ 0 < (cross_and_rest S buy o.instrument o opp own []).1.order.quantity →
        (cross_and_rest S buy o.instrument o opp own []).2 = own) ∧
      (0 < (cross_and_rest S buy o.instrument o opp own []).1.order.quantity →
        (∃ L1 l L2 l', own = L1 ++ (o.price, l) :: L2 ∧
          (cross_and_rest S buy o.instrument o opp own []).2 = L1 ++ (o.price, l') :: L2 ∧
          l'.Perm (l ++ [(cross_and_rest S buy o.instrument o opp own []).1.order]) ∧
          ((l.map (fun r => r.timestamp)).Nodup →
            ∃ l1 l2, l = l1 ++ l2 ∧
              l' = l1 ++ (cross_and_rest S buy o.instrument o opp own []).1.order :: l2) ∧
          ((∀ v, S.run v = std_sort v) → l.length < 16 →
            ∃ l1 l2, l = l1 ++ l2 ∧
              l' = l1 ++ (cross_and_rest S buy o.instrument o opp own []).1.order :: l2) ∧
          ((∀ v, S.run v = stable_sort v) →
            ∃ l1 l2, l = l1 ++ l2 ∧
              l' = l1 ++ (cross_and_rest S buy o.instrument o opp own []).1.order :: l2)) ∨
        (∃ L1 L2, own = L1 ++ L2 ∧ (∀ e ∈ own, e.1 ≠ o.price) ∧
          (cross_and_rest S buy o.instrument o opp own []).2 =
            L1 ++ (o.price, [(cross_and_rest S buy o.instrument o opp own []).1.order]) ::
              L2)) := by
    intro buy opp own hown
    obtain ⟨f1, f2⟩ := cross_and_rest_own_frame S buy o.instrument o opp own hown
    refine ⟨f1, fun hq => ?_⟩
    rcases f2 hq with ⟨L1, l, L2, l', hl, hafter, hrun, hperm, hnd⟩ | hnew
    · left
      have hlv : (o.price, l) ∈ own := by rw [hl]; simp
      refine ⟨L1, l, L2, l', hl, hafter, hperm, hnd, fun hst hlen => ?_, fun hst => ?_⟩
      · rw [hrun, hst]
        exact std_sort_append_shape _ l hlen (hown.time _ hlv)
      · rw [hrun, hst]
        exact stable_sort_append_shape _ l (hown.time _ hlv)
    · exact Or.inr hnew
  rcases hside with hb | hs
  · obtain ⟨_, ho, hbk⟩ := add_order_buy S ob o hb
    have hown : ∀ b : InstrumentBook, own_side o b = b.buy_orders :=
      fun b => by simp [own_side, hb]
    rw [ho, hbk, Function.update_same, hown, hown]
    exact key true _ _ hok.bids
  · have hnb : ¬ o.side = "BUY" := by rw [hs]; decide
    obtain ⟨_, ho, hbk⟩ := add_order_sell S ob o hs
    have hown : ∀ b : InstrumentBook, own_side o b = b.sell_orders :=
      fun b => by simp [own_side, hnb]
    rw [ho, hbk, Function.update_same, hown, hown]
    exact key false _ _ hok.asks

theorem own_side_frame_witness :
    (ex_S3.side = "BUY" ∨ ex_S3.side = "SELL") ∧
      (ex_book4 "SPY").sell_orders = [(105, [ex_S2])] ∧
      ((add_order insertion ex_book4 ex_S3).book "SPY").sell_orders =
        [(100, [⟨"S3", "SPY", "SELL", 100, 4, 4⟩]), (105, [ex_S2])] ∧
      (submit_all ⟨std_sort, std_sort_perm, std_sort_sorted⟩ OrderBook.empty [ex_T1, ex_T2]
        "SPY").buy_orders = [(50, [ex_T1, ex_T2])] ∧
      ((add_order ⟨std_sort, std_sort_perm, std_sort_sorted⟩
          (submit_all ⟨std_sort, std_sort_perm, std_sort_sorted⟩ OrderBook.empty [ex_T1, ex_T2])
          (tie "T3")).book "SPY").buy_orders = [(50, [ex_T1, ex_T2, tie "T3"])] ∧
      (¬ 0 < (add_order insertion ex_book1 ex_S1).order.quantity →
        own_side ex_S1 ((add_order insertion ex_book1 ex_S1).book ex_S1.instrument) =
          own_side ex_S1 (ex_book1 ex_S1.instrument)) :=
  ⟨by decide, by decide, by decide, by decide, by decide,
    (own_side_frame insertion ex_book1 (Reachable.step ex_B1 Reachable.empty) ex_S1
      (by decide)).1⟩

/-- C17. Per-instrument isolation.  For every book and every order, `add_order` leaves
the book of every instrument other than that of the order as it was (bid map, ask map
and trade log); and two books that agree on the bid map and the ask map of the
instrument of the order give the same trades, the same order and the same book of that
instrument. -/
theorem instrument_isolation (S : StdSort) (ob ob' : OrderBook) (o : Order)
    (hb : (ob' o.instrument).buy_orders = (ob o.instrument).buy_orders)
    (hs : (ob' o.instrument).sell_orders = (ob o.instrument).sell_orders) :
    (∀ i, i ≠ o.instrument → (add_order S ob o).book i = ob i) ∧
      (add_order S ob' o).trades = (add_order S ob o).trades ∧
      (add_order S ob' o).order = (add_order S ob o).order ∧
      (add_order S ob' o).book o.instrument = (add_order S ob o).book o.instrument := by
  by_cases h1 : o.side = "BUY"
  · obtain ⟨a1, a2, a3⟩ := add_order_buy S ob o h1
    obtain ⟨b1, b2, b3⟩ := add_order_buy S ob' o h1
    refine ⟨fun i hi => by rw [a3, Function.update_noteq hi], ?_, ?_, ?_⟩
    · rw [a1, b1, hb, hs]
    · rw [a2, b2, hb, hs]
    · rw [a3, b3, Function.update_same, Function.update_same, hb, hs]
  · by_cases h2 : o.side = "SELL"
    · obtain ⟨a1, a2, a3⟩ := add_order_sell S ob o h2
      obtain ⟨b1, b2, b3⟩ := add_order_sell S ob' o h2
      refine ⟨fun i hi => by rw [a3, Function.update_noteq hi], ?_, ?_, ?_⟩
      · rw [a1, b1, hb, hs]
      · rw [a2, b2, hb, hs]
      · rw [a3, b3, Function.update_same, Function.update_same, hb, hs]
    · obtain ⟨a1, a2, a3⟩ := add_order_other S ob o h1 h2
      obtain ⟨b1, b2, b3⟩ := add_order_other S ob' o h1 h2
      refine ⟨fun i hi => by rw [a3, Function.update_noteq hi], ?_, ?_, ?_⟩
      · rw [a1, b1]
      · rw [a2, b2]
      · rw [a3, b3, Function.update_same, Function.update_same]
        simp only [hb, hs]

theorem instrument_isolation_witness :
    ex_book7 "MSFT" ≠ ex_book5 "MSFT" ∧
      (ex_book7 ex_S3.instrument).buy_orders = (ex_book5 ex_S3.instrument).buy_orders ∧
      (ex_book7 ex_S3.instrument).sell_orders = (ex_book5 ex_S3.instrument).sell_orders ∧
      (add_order insertion ex_book5 ex_S3).trades = [⟨"SPY", "B1", "S3", 100, 6⟩] ∧
      ((add_order insertion ex_book5 ex_S3).book "MSFT" = ex_book5 "MSFT" ∧
        (add_order insertion ex_book7 ex_S3).trades = (add_order insertion ex_book5 ex_S3).trades) :=
  ⟨by decide, by decide, by decide, by decide,
    (instrument_isolation insertion ex_book5 ex_book7 ex_S3 (by decide) (by decide)).1 "MSFT"
      (by decide),
    (instrument_isolation insertion ex_book5 ex_book7 ex_S3 (by decide) (by decide)).2.1⟩

/-- C18. Counterexample to the claim as stated: two buys at one price submitted with
the same timestamp rest in one vector, where the first does not have a timestamp
strictly less than that of the second. -/
theorem timestamp_order_counterexample :
    (submit_all insertion OrderBook.empty [ex_T1, ex_T2] "SPY").buy_orders =
        [(50, [ex_T1, ex_T2])] ∧
      ex_T1.timestamp = ex_T2.timestamp ∧
      ¬ [ex_T1, ex_T2].Pairwise (fun a b => a.timestamp < b.timestamp) := by
  decide

/-- C18, amended.  In every state reachable from the empty book by any sequence of
calls of `add_order`, within the vector of every price level the orders are in
ascending timestamp order: no order has a timestamp greater than that of an order
behind it.  The order is strict, each timestamp strictly less than that of the order
behind, whenever the submitted orders carry pairwise distinct timestamps. -/
theorem timestamp_order (S : StdSort) (os : List Order) (i : String) (e : ℚ × List Order)
    (he : e ∈ (submit_all S OrderBook.empty os i).buy_orders ∨
      e ∈ (submit_all S OrderBook.empty os i).sell_orders) :
    e.2.Pairwise (fun a b => a.timestamp ≤ b.timestamp) ∧
      (os.Pairwise (fun a b => a.timestamp ≠ b.timestamp) →
        e.2.Pairwise (fun a b => a.timestamp < b.timestamp)) := by
  have hok := (submit_all_reachable S Reachable.empty os).bookOK i
  have hs : e.2.Pairwise (fun a b => ¬ b.timestamp < a.timestamp) := by
    rcases he with he | he
    · exact hok.bids.time e he
    · exact hok.asks.time e he
  refine ⟨hs.imp (fun h => not_lt.mp h), fun hd => strict_of_nodup hs ?_⟩
  have htm := submit_all_empty_nodup S os hd i
  rcases he with he | he
  · exact List.Nodup.sublist ((level_sublist_resting he).map _) htm.bids
  · exact List.Nodup.sublist ((level_sublist_resting he).map _) htm.asks

theorem timestamp_order_witness :
    (submit_all insertion OrderBook.empty [ex_B3, ex_B2] "SPY").buy_orders =
        [(50, [ex_B2, ex_B3])] ∧
      [ex_B3, ex_B2].Pairwise (fun a b => a.timestamp ≠ b.timestamp) ∧
      [ex_B2, ex_B3].Pairwise (fun a b => a.timestamp < b.timestamp) :=
  ⟨by decide, by decide,
    (timestamp_order insertion [ex_B3, ex_B2] "SPY" (50, [ex_B2, ex_B3])
      (Or.inl (by decide))).2 (by decide)⟩

/-- C19. Price-ordered level enumeration.  In every reachable state and for every
instrument, the bid levels written by `print_order_book_state` stand in strictly
descending price order and the ask levels in strictly ascending price order, so that
no price appears twice on a side; every order stored in a level has a limit price equal
to the price of the level; and the `k`-th pair written for a side is the price of the
`k`-th level of its map together with the number of orders in the vector of that
level. -/
theorem price_ordered_levels (S : StdSort) (ob : OrderBook) (h : Reachable S ob)
    (i : String) :
    ((print_order_book_state ob i).bidLevels.map Prod.fst).Pairwise (fun x y => x > y) ∧
      ((print_order_book_state ob i).askLevels.map Prod.fst).Pairwise (fun x y => x < y) ∧
      ((print_order_book_state ob i).bidLevels.map Prod.fst).Nodup ∧
      ((print_order_book_state ob i).askLevels.map Prod.fst).Nodup ∧
      (∀ e, e ∈ (ob i).buy_orders ∨ e ∈ (ob i).sell_orders → ∀ r ∈ e.2, r.price = e.1) ∧
      (∀ k : Nat, (print_order_book_state ob i).bidLevels[k]? =
        ((ob i).buy_orders[k]?).map (fun e => (e.1, e.2.length))) ∧
      (∀ k : Nat, (print_order_book_state ob i).askLevels[k]? =
        ((ob i).sell_orders[k]?).map (fun e => (e.1, e.2.length))) ∧
      (print_order_book_state ob i).lastTrades = (ob i).trades := by
  have hok := h.bookOK i
  have hb : ((print_order_book_state ob i).bidLevels.map Prod.fst).Pairwise
      (fun x y => x > y) := by
    simp only [print_order_book_state, List.map_map, List.pairwise_map]
    exact hok.bids.keys.imp (fun hab => by simpa [ahead] using hab)
  have ha : ((print_order_book_state ob i).askLevels.map Prod.fst).Pairwise
      (fun x y => x < y) := by
    simp only [print_order_book_state, List.map_map, List.pairwise_map]
    exact hok.asks.keys.imp (fun hab => by simpa [ahead] using hab)
  refine ⟨hb, ha, hb.imp (fun hxy => ne_of_gt hxy), ha.imp (fun hxy => ne_of_lt hxy), ?_, ?_, ?_,
    rfl⟩
  · intro e he r hr
    rcases he with he | he
    · exact hok.bids.price e he r hr
    · exact hok.asks.price e he r hr
  · intro k
    simp [print_order_book_state, List.getElem?_map]
  · intro k
    simp [print_order_book_state, List.getElem?_map]

theorem price_ordered_levels_witness :
    print_order_book_state ex_book6 "SPY" = ⟨[], [(100, 1), (105, 1)], [⟨"SPY", "B1", "S3", 100, 6⟩]⟩ ∧
      ((print_order_book_state ex_book6 "SPY").askLevels.map Prod.fst).Pairwise
        (fun x y => x < y) :=
  ⟨by decide,
    (price_ordered_levels insertion ex_book6
      (submit_all_reachable insertion Reachable.empty [ex_B1, ex_S1, ex_S2, ex_S3]) "SPY").2.1⟩

/-- C20. Termination with a trade bound.  For every reachable book and every order the
matching loop of `add_order` stops by its own condition or `break` within `loop_bound`
iterations, and allowing more iterations changes nothing; so `add_order` terminates.
Each iteration that does not end the loop erases an empty level, or erases one resting
order of the opposite side, or is the last one.  The number of returned trades is at
most the number of orders resting on the opposite side before the call, at most one
more than the number of resting orders erased by the call, and at least that number. -/
theorem termination_trade_bound (S : StdSort) (ob : OrderBook) (h : Reachable S ob)
    (o : Order) :
    (buy_body o.instrument (while_loop (buy_body o.instrument)
          (loop_bound (ob o.instrument).sell_orders)
          ⟨o, (ob o.instrument).sell_orders, []⟩) = none ∧
      ∀ k, while_loop (buy_body o.instrument) (loop_bound (ob o.instrument).sell_orders + k)
          ⟨o, (ob o.instrument).sell_orders, []⟩ =
        while_loop (buy_body o.instrument) (loop_bound (ob o.instrument).sell_orders)
          ⟨o, (ob o.instrument).sell_orders, []⟩) ∧
    (sell_body o.instrument (while_loop (sell_body o.instrument)
          (loop_bound (ob o.instrument).buy_orders)
          ⟨o, (ob o.instrument).buy_orders, []⟩) = none ∧
      ∀ k, while_loop (sell_body o.instrument) (loop_bound (ob o.instrument).buy_orders + k)
          ⟨o, (ob o.instrument).buy_orders, []⟩ =
        while_loop (sell_body o.instrument) (loop_bound (ob o.instrument).buy_orders)
          ⟨o, (ob o.instrument).buy_orders, []⟩) ∧
    (∀ (instrument : String) (st st' : LoopState), buy_body instrument st = some st' →
      (st.book.length = st'.book.length + 1 ∧ resting st'.book = resting st.book ∧
          st'.trades = st.trades) ∨
        ((resting st.book).length = (resting st'.book).length + 1 ∧
          st'.trades.length = st.trades.length + 1) ∨
        ((resting st.book).length = (resting st'.book).length ∧
          st'.trades.length = st.trades.length + 1 ∧ buy_body instrument st' = none)) ∧
    (∀ (instrument : String) (st st' : LoopState), sell_body instrument st = some st' →
      (st.book.length = st'.book.length + 1 ∧ resting st'.book = resting st.book ∧
          st'.trades = st.trades) ∨
        ((resting st.book).length = (resting st'.book).length + 1 ∧
          st'.trades.length = st.trades.length + 1) ∨
        ((resting st.book).length = (resting st'.book).length ∧
          st'.trades.length = st.trades.length + 1 ∧ sell_body instrument st' = none)) ∧
    (add_order S ob o).trades.length ≤ (resting (opp_side o (ob o.instrument))).length ∧
    (resting (opp_side o ((add_order S ob o).book o.instrument))).length ≤
      (resting (opp_side o (ob o.instrument))).length ∧
    (add_order S ob o).trades.length ≤
      (resting (opp_side o (ob o.instrument))).length -
        (resting (opp_side o ((add_order S ob o).book o.instrument))).length + 1 ∧
    (resting (opp_side o (ob o.instrument))).length -
        (resting (opp_side o ((add_order S ob o).book o.instrument))).length ≤
      (add_order S ob o).trades.length := by
  have hok := h.bookOK o.instrument
  have hstop : ∀ (buy : Bool) (opp : Levels),
      cross_body buy o.instrument (while_loop (cross_body buy o.instrument) (loop_bound opp)
          ⟨o, opp, []⟩) = none ∧
        ∀ k, while_loop (cross_body buy o.instrument) (loop_bound opp + k) ⟨o, opp, []⟩ =
          while_loop (cross_body buy o.instrument) (loop_bound opp) ⟨o, opp, []⟩ := by
    intro buy opp
    have hx := cross_loop_exits buy o.instrument (loop_bound opp) ⟨o, opp, []⟩
      (measure_le_bound o opp [])
    exact ⟨hx, while_loop_more _ _ hx⟩
  refine ⟨by rw [buy_body_eq]; exact hstop true _, by rw [sell_body_eq]; exact hstop false _,
    fun instrument st st' hb => by rw [buy_body_eq] at hb ⊢; exact cross_body_progress hb,
    fun instrument st st' hb => by rw [sell_body_eq] at hb ⊢; exact cross_body_progress hb,
    ?_⟩
  by_cases hb : o.side = "BUY"
  · have hopp : ∀ b : InstrumentBook, opp_side o b = b.sell_orders :=
      fun b => by simp [opp_side, hb]
    rw [(add_order_buy S ob o hb).1, (add_order_buy S ob o hb).2.2, Function.update_same,
      hopp, hopp]
    exact cross_and_rest_counts S true o.instrument o _ _ hok.asks
  · have hopp : ∀ b : InstrumentBook, opp_side o b = b.buy_orders :=
      fun b => by simp [opp_side, hb]
    by_cases hs : o.side = "SELL"
    · rw [(add_order_sell S ob o hs).1, (add_order_sell S ob o hs).2.2, Function.update_same,
        hopp, hopp]
      exact cross_and_rest_counts S false o.instrument o _ _ hok.bids
    · rw [(add_order_other S ob o hb hs).1, (add_order_other S ob o hb hs).2.2,
        Function.update_same, hopp, hopp]
      simp

theorem termination_trade_bound_witness :
    (add_order insertion ex_book8 ex_S4).trades.length = 2 ∧
      (resting (opp_side ex_S4 (ex_book8 ex_S4.instrument))).length = 2 ∧
      (resting (opp_side ex_S4
        ((add_order insertion ex_book8 ex_S4).book ex_S4.instrument))).length = 1 ∧
      (add_order insertion ex_book8 ex_S4).trades.length ≤
        (resting (opp_side ex_S4 (ex_book8 ex_S4.instrument))).length :=
  ⟨by decide, by decide, by decide,
    (termination_trade_bound insertion ex_book8
      (submit_all_reachable insertion Reachable.empty [ex_B2, ex_B3]) ex_S4).2.2.2.2.1⟩

end OrderBookCpp
